import Mathlib

/-!
# SPLINTER `BSplineBasis1D`: knot vectors and B-spline basis evaluation

A shallow embedding of `src/src/bsplinebasis1d.cpp`.

* `double` is modelled by `ℚ` (exact arithmetic). The only operation of the
  source with no exact counterpart, `std::nextafter`, is a parameter
  `nextafter : ℚ → ℚ` of the functions that call `supportHack`. The section
  on binary64 arithmetic repeats `deBoorCox`, `evaluate`,
  `knotVectorMovingAverage` and the constructor from samples with the rounding
  and overflow of `double`: there the results differ from exact arithmetic.
* `std::vector<double>` is `List ℚ`; `vector::at` is `atIdx`, which fails with
  `Error.outOfRange` outside the vector.
* A C++ exception is a value `Except.error e`; `Error` has one constructor per
  `throw` site family.
* An Eigen sparse vector or matrix is modelled by its coefficients; which zero
  coefficients Eigen stores explicitly is not modelled.
* `degree` and the vector sizes are `Nat`: they are far below `2^32`, so the
  unsigned arithmetic on them is exact. The `multiplicity` argument of
  `insertKnots` is supplied by the caller, and the sum in its multiplicity check
  is taken modulo `2^32`. The `int` indices that can go below zero are `Int`.
* A method that changes the object returns the object after the call next to
  its result. A call that throws returns no object: every method assigns `knots`
  in its last statement before `return`.
* `assertNear` and its default tolerances are declared outside the source file
  and are parameters of `refineKnotsLocally`.
* The loop of `decomposeToBezierForm` runs on a pass budget. Its read through
  the iterator that `insert` has invalidated is undefined: `decomposeLoop` is
  the run in which the read yields the old knot value, where a budget of
  `knots.size()` passes is enough on a regular knot vector, and
  `decomposeLoopStale` takes the value read as a parameter.
-/

namespace SPLINTER

/-- The exceptions thrown by the source, one constructor per message family. -/
inductive Error where
  | degreeNotPositive
  | knotVectorNotRegular
  | tooFewUniquePoints
  | incorrectInputParameters
  | outOfRange
  | insertOutsideDomain
  | multiplicityTooHigh
  | newKnotVectorNotRegular
  | notProperRefinement
  | incorrectMatrixDimensions
  | outsideKnotInterval
  | refineOutsideSupport
  deriving DecidableEq

/-- The data members of the class `BSplineBasis1D`. -/
structure BSplineBasis1D where
  degree : Nat
  targetNumBasisfunctions : Nat
  knots : List ℚ

/-- An Eigen `SparseVector`: its dimension and the `(index, value)` pairs that
were inserted, in insertion order. An index that is not listed holds zero. -/
structure SparseVector where
  size : Nat
  entries : List (Int × ℚ)

/-- An Eigen `SparseMatrix`, by its dimensions and its coefficients: `coeff i j`
is the coefficient in row `i` and column `j`, zero where nothing is stored. The
model does not record which zero coefficients are stored explicitly. -/
structure SparseMatrix where
  rows : Nat
  cols : Nat
  coeff : Nat → Nat → ℚ

/-- The product `A * B` of two sparse matrices. -/
def SparseMatrix.mul (A B : SparseMatrix) : SparseMatrix :=
  ⟨A.rows, B.cols, fun i j => ∑ k in Finset.range A.cols, A.coeff i k * B.coeff k j⟩

/-- The product `A * s` of a sparse matrix and a scalar. -/
def SparseMatrix.scale (A : SparseMatrix) (s : ℚ) : SparseMatrix :=
  ⟨A.rows, A.cols, fun i j => A.coeff i j * s⟩

/-- The matrix `SparseMatrix R(1,1); R.insert(0,0) = 1`. -/
def SparseMatrix.one11 : SparseMatrix :=
  ⟨1, 1, fun i j => if i = 0 ∧ j = 0 then 1 else 0⟩

/-- The matrix `DenseMatrix::Identity(n,n).sparseView()`. -/
def SparseMatrix.identity (n : Nat) : SparseMatrix :=
  ⟨n, n, fun i j => if i = j ∧ i < n then 1 else 0⟩

/-- The coefficient vector `A * coef` of a transformation matrix applied to the
coefficient vector `coef`; a coefficient missing from `coef` counts as zero. -/
def SparseMatrix.mulVec (A : SparseMatrix) (coef : List ℚ) : List ℚ :=
  (List.range A.rows).map (fun i => ∑ j in Finset.range A.cols, A.coeff i j * (coef[j]?).getD 0)

/-- The checked access `vec.at(i)`: throws `std::out_of_range` outside the vector. -/
def atIdx (vec : List ℚ) (i : Nat) : Except Error ℚ :=
  match vec[i]? with
  | some t => Except.ok t
  | none => Except.error Error.outOfRange

/-- The knot `vec[i]` read without a range check (an iterator dereference), and
zero outside the vector. -/
def knotAt (vec : List ℚ) (i : Nat) : ℚ := (vec[i]?).getD 0

/-- The value `vec.front()` (the source calls it on non-empty vectors only). -/
def front (vec : List ℚ) : ℚ := vec.headD 0

/-- The value `vec.back()` (the source calls it on non-empty vectors only). -/
def back (vec : List ℚ) : ℚ := vec.getLastD 0

/-- The index returned by `std::upper_bound(vec.begin(), vec.end(), x)`: by the
standard, the furthermost position `i` such that `!(x < vec[j])` for every
`j < i`. On a sorted vector it is the position of the first element larger
than `x`. -/
def upperBound (vec : List ℚ) (x : ℚ) : Nat :=
  (vec.takeWhile (fun t => !decide (x < t))).length

/-- The index returned by `std::lower_bound(vec.begin(), vec.end(), x)`: by the
standard, the furthermost position `i` such that `vec[j] < x` for every `j < i`.
On a sorted vector it is the position of the first element not smaller than `x`. -/
def lowerBound (vec : List ℚ) (x : ℚ) : Nat :=
  (vec.takeWhile (fun t => decide (t < x))).length

/-- The value `std::count(vec.begin(), vec.end(), tau)`. -/
def stdCount (vec : List ℚ) (tau : ℚ) : Nat := vec.count tau

/-- The loop `for (int i = first; i <= last; i++)`, as the list of its indices. -/
def intRange (first last : Int) : List Int :=
  (List.range (last + 1 - first).toNat).map (fun (j : Nat) => first + (j : Int))

namespace BSplineBasis1D

/-- The method `knotMultiplicity`. -/
def knotMultiplicity (b : BSplineBasis1D) (tau : ℚ) : Nat := stdCount b.knots tau

/-- The method `inHalfopenInterval`. -/
def inHalfopenInterval (x x_min x_max : ℚ) : Bool :=
  decide (x_min ≤ x) && decide (x < x_max)

/-- The method `insideSupport`. -/
def insideSupport (b : BSplineBasis1D) (x : ℚ) : Bool :=
  decide (front b.knots ≤ x) && decide (x ≤ back b.knots)

/-- The method `getNumBasisFunctions`. -/
def getNumBasisFunctions (b : BSplineBasis1D) : Nat := b.knots.length - (b.degree + 1)

/-- The method `supportHack`, returning the new value of its reference argument. -/
def supportHack (b : BSplineBasis1D) (nextafter : ℚ → ℚ) (x : ℚ) : ℚ :=
  if x = back b.knots then nextafter x else x

/-- The method `indexHalfopenInterval`. -/
def indexHalfopenInterval (b : BSplineBasis1D) (x : ℚ) : Except Error Int :=
  if x < front b.knots ∨ x > back b.knots then
    Except.error Error.outsideKnotInterval
  else
    let index : Int := (upperBound b.knots x : Int)
    Except.ok (index - 1)

/-- The method `indexSupportedBasisfunctions`. -/
def indexSupportedBasisfunctions (b : BSplineBasis1D) (x : ℚ) : Except Error (List Int) :=
  if b.insideSupport x then do
    let last0 ← b.indexHalfopenInterval x
    let last : Int :=
      if last0 < 0 then (b.knots.length : Int) - 1 - ((b.degree : Int) + 1) else last0
    let first : Int := max (last - (b.degree : Int)) 0
    pure (intRange first last)
  else
    pure []

/-- The method `deBoorCoxCoeff`. -/
def deBoorCoxCoeff (x x_min x_max : ℚ) : ℚ :=
  if x_min < x_max ∧ x_min ≤ x ∧ x ≤ x_max then (x - x_min) / (x_max - x_min) else 0

/-- The method `deBoorCox(x, i, k)`. Every call site passes `i ≥ 0` and `k ≥ 0`. -/
def deBoorCox (b : BSplineBasis1D) (x : ℚ) : Nat → Nat → Except Error ℚ
  | i, 0 => do
    let t0 ← atIdx b.knots i
    let t1 ← atIdx b.knots (i + 1)
    if inHalfopenInterval x t0 t1 then pure 1 else pure 0
  | i, k + 1 => do
    let a0 ← atIdx b.knots i
    let a1 ← atIdx b.knots (i + (k + 1))
    let s1 := deBoorCoxCoeff x a0 a1
    let c0 ← atIdx b.knots (i + 1)
    let c1 ← atIdx b.knots (i + (k + 1) + 1)
    let s2 := deBoorCoxCoeff x c0 c1
    let r1 ← deBoorCox b x i k
    let r2 ← deBoorCox b x (i + 1) k
    pure (s1 * r1 + (1 - s2) * r2)

/-- The loop of `evaluate` over the supported indices. -/
def evaluateLoop (b : BSplineBasis1D) (x : ℚ) : List Int → Except Error (List (Int × ℚ))
  | [] => pure []
  | i :: rest => do
    let v ← b.deBoorCox x i.toNat b.degree
    let vs ← evaluateLoop b x rest
    pure ((i, v) :: vs)

/-- The method `evaluate`. -/
def evaluate (b : BSplineBasis1D) (nextafter : ℚ → ℚ) (x : ℚ) : Except Error SparseVector := do
  let x1 := b.supportHack nextafter x
  let indexSupported ← b.indexSupportedBasisfunctions x1
  let vals ← b.evaluateLoop x1 indexSupported
  pure ⟨b.getNumBasisFunctions, vals⟩

/-- The predicate `std::is_sorted(vec.begin(), vec.end())`: no element is
smaller than its predecessor. -/
def isSorted : List ℚ → Bool
  | [] => true
  | [_] => true
  | a :: c :: rest => !decide (c < a) && isSorted (c :: rest)

/-- The method `isKnotVectorRegular(vec)`. -/
def isKnotVectorRegular (b : BSplineBasis1D) (vec : List ℚ) : Bool :=
  if vec.length < 2 * (b.degree + 1) then false
  else if stdCount (vec.take (b.degree + 1)) (front vec) ≠ b.degree + 1 then false
  else if stdCount (vec.drop (vec.length - b.degree - 1)) (back vec) ≠ b.degree + 1 then false
  else if !isSorted vec then false
  else vec.all (fun t => !decide (stdCount vec t > b.degree + 1))

/-- The call `std::sort(vec.begin(), vec.end())`: the non-decreasing rearrangement. -/
def stdSort (vec : List ℚ) : List ℚ := vec.insertionSort (· ≤ ·)

/-- The loop of `std::unique_copy` after its first element: an element equal to
the last one written is skipped. -/
def uniqueCopyAux (prev : ℚ) : List ℚ → List ℚ
  | [] => []
  | c :: rest => if prev = c then uniqueCopyAux prev rest else c :: uniqueCopyAux c rest

/-- The call `std::unique_copy` followed by the `resize`: one element is kept of
every run of equal consecutive elements. -/
def uniqueCopy : List ℚ → List ℚ
  | [] => []
  | a :: rest => a :: uniqueCopyAux a rest

/-- The inner loop of `knotVectorMovingAverage`: `ma += uniqueX.at(i+j)` for the
first `w` values of `j`. -/
def windowSum (uniqueX : List ℚ) (i : Nat) : Nat → Except Error ℚ
  | 0 => pure 0
  | j + 1 => do
    let ma ← windowSum uniqueX i j
    let t ← atIdx uniqueX (i + j)
    pure (ma + t)

/-- The outer loop of `knotVectorMovingAverage`: the first `m` interior knots
`ma / w`. -/
def movingAverages (uniqueX : List ℚ) (w : Nat) : Nat → Except Error (List ℚ)
  | 0 => pure []
  | m + 1 => do
    let knots ← movingAverages uniqueX w m
    let ma ← windowSum uniqueX m w
    pure (knots ++ [ma / (w : ℚ)])

/-- The method `knotVectorMovingAverage`. Its unsigned arithmetic is exact for
`degree ≥ 1`; the constructor rejects `degree = 0` right after the call. -/
def knotVectorMovingAverage (b : BSplineBasis1D) (vec : List ℚ) : Except Error (List ℚ) :=
  let uniqueX := uniqueCopy (stdSort vec)
  let n := uniqueX.length
  let k := b.degree - 1
  let w := k + 3
  if n < b.degree + 1 then
    Except.error Error.tooFewUniquePoints
  else do
    let knots ← movingAverages uniqueX w (n - k - 2)
    pure (List.replicate (b.degree + 1) (front uniqueX) ++ knots
      ++ List.replicate (b.degree + 1) (back uniqueX))

/-- The constructor `BSplineBasis1D(x, degree, explicitKnots)`. -/
def construct (x : List ℚ) (degree : Nat) (explicitKnots : Bool) :
    Except Error BSplineBasis1D := do
  let b0 : BSplineBasis1D := ⟨degree, (degree + 1) + 2 * degree + 1, []⟩
  let knots ← if explicitKnots then pure x else b0.knotVectorMovingAverage x
  let b : BSplineBasis1D := { b0 with knots := knots }
  if degree ≤ 0 then
    Except.error Error.degreeNotPositive
  else if !b.isKnotVectorRegular b.knots then
    Except.error Error.knotVectorNotRegular
  else
    pure b

/-- The access `knots.at(a - k)` with the unsigned difference `a - k`: below
zero the index wraps to a position beyond the vector, which `at` rejects. -/
def atIdxSub (vec : List ℚ) (a k : Nat) : Except Error ℚ :=
  if a < k then Except.error Error.outOfRange else atIdx vec (a - k)

/-- One pass of the row loop of `buildBasisMatrix`: the diagonal and the
super-diagonal coefficient of row `i`. -/
def basisMatrixRow (b : BSplineBasis1D) (x : ℚ) (u k : Nat) (diff : Bool) (i : Nat) :
    Except Error (ℚ × ℚ) := do
  let hi ← atIdx b.knots (u + 1 + i)
  let lo ← atIdxSub b.knots (u + 1 + i) k
  let dk := hi - lo
  if dk = 0 then
    pure (0, 0)
  else if diff then
    pure (-1 / dk, 1 / dk)
  else
    pure ((hi - x) / dk, (x - lo) / dk)

/-- The row loop of `buildBasisMatrix` over the first `r` rows. -/
def basisMatrixRows (b : BSplineBasis1D) (x : ℚ) (u k : Nat) (diff : Bool) :
    Nat → Except Error (List (ℚ × ℚ))
  | 0 => pure []
  | r + 1 => do
    let rows ← basisMatrixRows b x u k diff r
    let row ← b.basisMatrixRow x u k diff r
    pure (rows ++ [row])

/-- The bidiagonal matrix with the given diagonal and super-diagonal coefficients. -/
def bidiagonal (rows : List (ℚ × ℚ)) : SparseMatrix :=
  ⟨rows.length, rows.length + 1, fun i j =>
    match rows[i]? with
    | none => 0
    | some (a, c) => if j = i then a else if j = i + 1 then c else 0⟩

/-- The method `buildBasisMatrix(x, u, k, diff)`. -/
def buildBasisMatrix (b : BSplineBasis1D) (x : ℚ) (u k : Nat) (diff : Bool) :
    Except Error SparseMatrix :=
  if ¬ (k ≥ 1 ∧ k ≤ b.degree) then
    Except.error Error.incorrectInputParameters
  else do
    let rows ← b.basisMatrixRows x u k diff k
    pure (bidiagonal rows)

/-- A loop `for (i in levels) { R = buildBasisMatrix(x, u, i, diff); B = B*R; }`. -/
def productLoop (b : BSplineBasis1D) (x : ℚ) (u : Nat) (diff : Bool) :
    List Nat → SparseMatrix → Except Error SparseMatrix
  | [], B => pure B
  | i :: rest, B => do
    let R ← b.buildBasisMatrix x u i diff
    productLoop b x u diff rest (B.mul R)

/-- The scatter loop of `evaluateDerivative`: the coefficients of row 0 of `B`
with their target indices `first + column`. Eigen visits the stored coefficients
of `B`; the model lists every column, a coefficient that is not stored being zero. -/
def scatterRow (first : Int) (B : SparseMatrix) : List (Int × ℚ) :=
  (List.range B.cols).map (fun (c : Nat) => (first + (c : Int), B.coeff 0 c))

/-- The method `evaluateDerivative(x, r)`. The first loop runs over the levels
`1 .. p-r`, the second over the `r` levels `p-r+1 .. p`; the quotient of the two
`tgamma` values is `p! / (p-r)!`. -/
def evaluateDerivative (b : BSplineBasis1D) (nextafter : ℚ → ℚ) (x : ℚ) (r : Int) :
    Except Error SparseVector :=
  let p : Int := (b.degree : Int)
  if p ≤ r then
    pure ⟨b.getNumBasisFunctions, []⟩
  else do
    let x1 := b.supportHack nextafter x
    let knotIndex ← b.indexHalfopenInterval x1
    let B0 := SparseMatrix.one11
    let B1 ← b.productLoop x1 knotIndex.toNat false
      ((List.range (p - r).toNat).map (fun i => i + 1)) B0
    let B2 ← b.productLoop x1 knotIndex.toNat true
      ((List.range r.toNat).map (fun i => (p - r + 1).toNat + i)) B1
    let factorial : ℚ := (b.degree.factorial : ℚ) / (((p - r).toNat).factorial : ℚ)
    let B3 := B2.scale factorial
    pure ⟨b.getNumBasisFunctions, scatterRow (knotIndex - p) B3⟩

/-- The method `isRefinement`. -/
def isRefinement (b : BSplineBasis1D) (refinedKnots : List ℚ) : Bool :=
  if refinedKnots.length < b.knots.length then false
  else if !b.isKnotVectorRegular refinedKnots then false
  else if b.knots.any (fun t => decide (stdCount refinedKnots t < stdCount b.knots t)) then false
  else if front b.knots ≠ front refinedKnots then false
  else if back b.knots ≠ back refinedKnots then false
  else true

/-- The loop `for (j in levels) { Ri = buildBasisMatrix(knotsAug.at(i+j), u, j); R = R*Ri; }`
of `buildKnotInsertionMatrix`. -/
def insertionProductLoop (b : BSplineBasis1D) (knotsAug : List ℚ) (i u : Nat) :
    List Nat → SparseMatrix → Except Error SparseMatrix
  | [], R => pure R
  | j :: rest, R => do
    let tj ← atIdx knotsAug (i + j)
    let Ri ← b.buildBasisMatrix tj u j false
    insertionProductLoop b knotsAug i u rest (R.mul Ri)

/-- One pass of the row loop of `buildKnotInsertionMatrix`: the first column
`u - degree` and the `1 × (degree+1)` matrix of row `i`. -/
def knotInsertionRow (b : BSplineBasis1D) (knotsAug : List ℚ) (i : Nat) :
    Except Error (Int × SparseMatrix) := do
  let t ← atIdx knotsAug i
  let u ← b.indexHalfopenInterval t
  let R ← b.insertionProductLoop knotsAug i u.toNat
    ((List.range b.degree).map (fun j => j + 1)) SparseMatrix.one11
  if R.rows ≠ 1 ∨ R.cols ≠ b.degree + 1 then
    Except.error Error.incorrectMatrixDimensions
  else
    pure (u - (b.degree : Int), R)

/-- The row loop of `buildKnotInsertionMatrix` over the first `m` rows. -/
def knotInsertionRows (b : BSplineBasis1D) (knotsAug : List ℚ) :
    Nat → Except Error (List (Int × SparseMatrix))
  | 0 => pure []
  | m + 1 => do
    let rows ← knotInsertionRows b knotsAug m
    let row ← b.knotInsertionRow knotsAug m
    pure (rows ++ [row])

/-- The matrix `A` filled by the scatter loop of `buildKnotInsertionMatrix`:
row `i` holds the coefficients of its `1 × (degree+1)` matrix from its first
column on. -/
def scatterMatrix (m n : Nat) (rows : List (Int × SparseMatrix)) : SparseMatrix :=
  ⟨m, n, fun i j =>
    match rows[i]? with
    | none => 0
    | some (first, R) =>
      if first ≤ (j : Int) ∧ (j : Int) < first + (R.cols : Int)
      then R.coeff 0 ((j : Int) - first).toNat else 0⟩

/-- The method `buildKnotInsertionMatrix`. -/
def buildKnotInsertionMatrix (b : BSplineBasis1D) (refinedKnots : List ℚ) :
    Except Error SparseMatrix :=
  if !b.isRefinement refinedKnots then
    Except.error Error.notProperRefinement
  else do
    let knotsAug := refinedKnots
    let n := b.knots.length - b.degree - 1
    let m := knotsAug.length - b.degree - 1
    let rows ← b.knotInsertionRows knotsAug m
    pure (scatterMatrix m n rows)

/-- The call `vec.insert(vec.begin() + pos, tau)`. -/
def vecInsert (vec : List ℚ) (pos : Nat) (tau : ℚ) : List ℚ :=
  vec.take pos ++ tau :: vec.drop pos

/-- The loop of `insertKnots` that inserts `tau` at the same position
`multiplicity` times. -/
def insertLoop (pos : Nat) (tau : ℚ) : Nat → List ℚ → List ℚ
  | 0, vec => vec
  | m + 1, vec => insertLoop pos tau m (vecInsert vec pos tau)

/-- The method `insertKnots(tau, multiplicity)`: the matrix it returns and the
object after the call. The unsigned sum of the multiplicity check wraps at `2^32`. -/
def insertKnots (b : BSplineBasis1D) (tau : ℚ) (multiplicity : Nat) :
    Except Error (SparseMatrix × BSplineBasis1D) :=
  if !b.insideSupport tau then
    Except.error Error.insertOutsideDomain
  else if (b.knotMultiplicity tau + multiplicity) % 2 ^ 32 > b.degree + 1 then
    Except.error Error.multiplicityTooHigh
  else do
    let index ← b.indexHalfopenInterval tau
    let extKnots := insertLoop (index + 1).toNat tau multiplicity b.knots
    if !b.isKnotVectorRegular extKnots then
      Except.error Error.newKnotVectorNotRegular
    else do
      let A ← b.buildKnotInsertionMatrix extKnots
      pure (A, { b with knots := extKnots })

/-- The sum of the first `n` terms `coef[j] * deBoorCox(x, j, degree)` of a spline. -/
def splineSum (b : BSplineBasis1D) (coef : List ℚ) (x : ℚ) : Nat → Except Error ℚ
  | 0 => pure 0
  | n + 1 => do
    let s ← splineSum b coef x n
    let v ← b.deBoorCox x n b.degree
    pure (s + (coef[n]?).getD 0 * v)

/-- The value at `x` of the spline with coefficient vector `coef` over the basis:
the sum of `coef[j] * deBoorCox(x, j, degree)` over all basis indices `j`. -/
def splineValue (b : BSplineBasis1D) (coef : List ℚ) (x : ℚ) : Except Error ℚ :=
  b.splineSum coef x b.getNumBasisFunctions

/-- The loop of `indexLongestInterval` over the first `n` intervals: the values
of `longest` and `index` after them. -/
def longestLoop (vec : List ℚ) : Nat → Except Error (ℚ × Nat)
  | 0 => pure (0, 0)
  | n + 1 => do
    let state ← longestLoop vec n
    let hi ← atIdx vec (n + 1)
    let lo ← atIdx vec n
    let interval := hi - lo
    if state.1 < interval then pure (interval, n) else pure state

/-- The method `indexLongestInterval(vec)`. On an empty vector the unsigned bound
`vec.size() - 1` wraps and the first access `vec.at(1)` throws. -/
def indexLongestInterval (vec : List ℚ) : Except Error Nat :=
  if vec.length = 0 then
    Except.error Error.outOfRange
  else do
    let state ← longestLoop vec (vec.length - 1)
    pure state.2

/-- The loop of `refineKnots`: every pass adds one knot, so the loop
`while (refinedKnots.size() < targetNumKnots)` makes `targetNumKnots - size` passes. -/
def refineLoop : Nat → List ℚ → Except Error (List ℚ)
  | 0, refinedKnots => pure refinedKnots
  | n + 1, refinedKnots => do
    let index ← indexLongestInterval refinedKnots
    let lo ← atIdx refinedKnots index
    let hi ← atIdx refinedKnots (index + 1)
    let newKnot := (lo + hi) / 2
    refineLoop n (vecInsert refinedKnots (lowerBound refinedKnots newKnot) newKnot)

/-- The method `refineKnots`: the matrix it returns and the object after the call. -/
def refineKnots (b : BSplineBasis1D) : Except Error (SparseMatrix × BSplineBasis1D) := do
  let targetNumKnots := b.targetNumBasisfunctions + b.degree + 1
  let refinedKnots ← refineLoop (targetNumKnots - b.knots.length) b.knots
  if !b.isKnotVectorRegular refinedKnots || !b.isRefinement refinedKnots then
    Except.error Error.notProperRefinement
  else do
    let A ← b.buildKnotInsertionMatrix refinedKnots
    pure (A, { b with knots := refinedKnots })

/-- The loop of `decomposeToBezierForm`, with the iterator `knoti` as a position.
After the `insert` the source reads `*knoti` again through the old iterator, which
the `insert` has invalidated: the value of that read is undefined. This
definition is the run in which the read yields the knot value read before the
`insert`; `decomposeLoopStale` below takes the value read as a parameter. A pass
budget `fuel` bounds the loop: the result is `none` when the loop is still
running after `fuel` passes. -/
def decomposeLoop (b : BSplineBasis1D) : Nat → Nat → List ℚ → Option (List ℚ)
  | 0, knoti, refinedKnots => if knoti = refinedKnots.length then some refinedKnots else none
  | fuel + 1, knoti, refinedKnots =>
    if knoti = refinedKnots.length then some refinedKnots
    else
      let v := knotAt refinedKnots knoti
      let mult : Int := ((b.degree : Int) + 1) - (b.knotMultiplicity v : Int)
      let refinedKnots1 :=
        if mult > 0 then
          refinedKnots.take knoti ++ List.replicate mult.toNat v ++ refinedKnots.drop knoti
        else refinedKnots
      decomposeLoop b fuel (upperBound refinedKnots1 v) refinedKnots1

/-- The method `decomposeToBezierForm`, run with a pass budget for its loop, in
the run in which every read through the invalidated iterator yields the old
knot value. -/
def decomposeToBezierForm (b : BSplineBasis1D) (fuel : Nat) :
    Option (Except Error (SparseMatrix × BSplineBasis1D)) :=
  match b.decomposeLoop fuel 0 b.knots with
  | none => none
  | some refinedKnots =>
    some (
      if !b.isKnotVectorRegular refinedKnots || !b.isRefinement refinedKnots then
        Except.error Error.notProperRefinement
      else
        (b.buildKnotInsertionMatrix refinedKnots).bind
          (fun A => Except.ok (A, { b with knots := refinedKnots })))

/-- The access `knots.at(i)` with an `int` index: a negative index converts to a
position beyond the vector, which `at` rejects. -/
def atIdxInt (vec : List ℚ) (i : Int) : Except Error ℚ :=
  if i < 0 then Except.error Error.outOfRange else atIdx vec i.toNat

/-- The selection matrix of `reduceSupport`: `Zero(numOld, numNew)` with the
block `Identity(numNew, numNew)` at row `index_lower`, column 0. -/
def selectionMatrix (numOld numNew index_lower : Int) : SparseMatrix :=
  ⟨numOld.toNat, numNew.toNat, fun i j =>
    if index_lower ≤ (i : Int) ∧ (i : Int) < index_lower + numNew ∧ (j : Int) < numNew
        ∧ (i : Int) - index_lower = (j : Int) then 1 else 0⟩

/-- The adjustment of `index_upper` in `reduceSupport`; the access
`knots.at(index_upper)` is made only when `ub` has multiplicity `k`. -/
def adjustUpper (b : BSplineBasis1D) (ub : ℚ) (index_upper : Int) : Except Error Int :=
  if b.knotMultiplicity ub = b.degree + 1 then
    (atIdxInt b.knots index_upper).bind (fun w =>
      Except.ok (if w = ub then index_upper - ((b.degree : Int) + 1) else index_upper))
  else
    Except.ok index_upper

/-- The adjustment of `index_lower` in `reduceSupport`: `none` where the method
returns `false`. -/
def adjustLower (b : BSplineBasis1D) (index_lower : Int) : Except Error (Option Int) :=
  (atIdxInt b.knots index_lower).bind (fun v =>
    let count := b.knotMultiplicity v
    let is_p_regular := decide (b.degree + 1 = count)
    if !is_p_regular then
      let suggested_index := index_lower - 1
      if 0 ≤ suggested_index then Except.ok (some suggested_index) else Except.ok none
    else
      Except.ok (some index_lower))

/-- The copy `si` of the knots from `index_lower` up to `index_upper + k`. -/
def knotRange (knots : List ℚ) (index_lower index_end : Int) : List ℚ :=
  (knots.drop index_lower.toNat).take (index_end.toNat - index_lower.toNat)

/-- The method `reduceSupport(lb, ub, A)`: the value it returns, the matrix `A`
and the object after the call. The calls `front()` and `back()` on the vector of
supported indices are made on a non-empty vector when `lb` and `ub` are inside
the support; the model reads 0 from an empty one. -/
def reduceSupport (b : BSplineBasis1D) (lb ub : ℚ) (A : SparseMatrix) :
    Except Error (Bool × SparseMatrix × BSplineBasis1D) :=
  if lb < front b.knots ∨ ub > back b.knots then
    pure (false, A, b)
  else do
    let k : Int := (b.degree : Int) + 1
    let supportedLower ← b.indexSupportedBasisfunctions lb
    let supportedUpper ← b.indexSupportedBasisfunctions ub
    let index_lower0 : Int := supportedLower.headD 0
    let index_upper0 : Int := supportedUpper.getLastD 0
    let lower ← b.adjustLower index_lower0
    match lower with
    | none => pure (false, A, b)
    | some index_lower => do
      let index_upper ← b.adjustUpper ub index_upper0
      let si := knotRange b.knots index_lower (index_upper + k + 1)
      let numOld : Int := (b.knots.length : Int) - k
      let numNew : Int := (si.length : Int) - k
      if numOld < numNew then
        pure (false, A, b)
      else
        pure (true, selectionMatrix numOld numNew index_lower, { b with knots := si })

/-- The loop of `evaluateFirstDerivative` over the supported basis functions:
the entries inserted into `values`. The degree is positive (the constructor
rejects 0), so `degree-1` does not wrap. -/
def firstDerivativeLoop (b : BSplineBasis1D) (x : ℚ) : List Int → Except Error (List (Int × ℚ))
  | [] => pure []
  | i :: rest => do
    let b1 ← b.deBoorCox x i.toNat (b.degree - 1)
    let b2 ← b.deBoorCox x (i + 1).toNat (b.degree - 1)
    let t11 ← atIdxInt b.knots i
    let t12 ← atIdxInt b.knots (i + (b.degree : Int))
    let t21 ← atIdxInt b.knots (i + 1)
    let t22 ← atIdxInt b.knots (i + (b.degree : Int) + 1)
    let b1 := if t12 = t11 then 0 else b1 / (t12 - t11)
    let b2 := if t22 = t21 then 0 else b2 / (t22 - t21)
    let others ← b.firstDerivativeLoop x rest
    pure ((i, (b.degree : ℚ) * (b1 - b2)) :: others)

/-- The method `evaluateFirstDerivative(x)`. The function `nextafter` is a
parameter, as for `evaluate`. -/
def evaluateFirstDerivative (b : BSplineBasis1D) (nextafter : ℚ → ℚ) (x : ℚ) :
    Except Error SparseVector := do
  let x1 := b.supportHack nextafter x
  let supportedBasisFunctions ← b.indexSupportedBasisfunctions x1
  let entries ← b.firstDerivativeLoop x1 supportedBasisFunctions
  pure ⟨b.getNumBasisFunctions, entries⟩

end BSplineBasis1D

open BSplineBasis1D

/-! ## Auxiliary total functions used in the proofs -/

/-- The de Boor-Cox recursion of `deBoorCox` over a knot sequence given as a
total function: the value `deBoorCox` returns when every access is in range. -/
def bspl (t : Nat → ℚ) (x : ℚ) : Nat → Nat → ℚ
  | i, 0 => if t i ≤ x ∧ x < t (i + 1) then 1 else 0
  | i, k + 1 =>
    BSplineBasis1D.deBoorCoxCoeff x (t i) (t (i + (k + 1))) * bspl t x i k
      + (1 - BSplineBasis1D.deBoorCoxCoeff x (t (i + 1)) (t (i + (k + 1) + 1)))
        * bspl t x (i + 1) k

/-- The sequence `t` is non-decreasing on the indices below `n`. -/
def MonoUpTo (t : Nat → ℚ) (n : Nat) : Prop := ∀ i j, i ≤ j → j < n → t i ≤ t j

/-- The facts about a regular knot vector that the proofs use: its length, its
order, its `p + 1` equal knots at each end and the bound on every multiplicity. -/
structure Regular (p : Nat) (vec : List ℚ) : Prop where
  len : 2 * (p + 1) ≤ vec.length
  sorted : vec.Sorted (· ≤ ·)
  first : ∀ i, i ≤ p → knotAt vec i = front vec
  last : ∀ i, vec.length - p - 1 ≤ i → i < vec.length → knotAt vec i = back vec
  mult : ∀ t, vec.count t ≤ p + 1

/-- The sum of the values stored in a sparse vector. -/
def SparseVector.sum (v : SparseVector) : ℚ := (v.entries.map Prod.snd).sum

/-- The stored entries of a sparse vector whose value is not zero. -/
def SparseVector.nonzeros (v : SparseVector) : List (Int × ℚ) :=
  v.entries.filter (fun e => decide (e.2 ≠ 0))

/-- The knot vector `{0,0,0,0,1,2,3,3,3,3}` of degree 3, with the target size
`(3+1) + 2*3 + 1` that the constructor sets. -/
def cubicBasis : BSplineBasis1D := ⟨3, 11, [0, 0, 0, 0, 1, 2, 3, 3, 3, 3]⟩

/-- The knot vector `{0,0,1,1}` of degree 1. -/
def linearBasis : BSplineBasis1D := ⟨1, 4, [0, 0, 1, 1]⟩

/-- The property `knots[i] ≤ x < knots[i+1]` of an index `i` of the vector `vec`. -/
def InHalfopenKnotInterval (vec : List ℚ) (x : ℚ) (i : Int) : Prop :=
  0 ≤ i ∧ i.toNat + 1 < vec.length ∧ knotAt vec i.toNat ≤ x ∧ x < knotAt vec (i.toNat + 1)

/-- The coefficients of row `i` of `buildBasisMatrix` over a knot sequence given
as a total function. -/
def basisRowT (t : Nat → ℚ) (x : ℚ) (u k : Nat) (diff : Bool) (i : Nat) : ℚ × ℚ :=
  if t (u + 1 + i) - t (u + 1 + i - k) = 0 then (0, 0)
  else if diff then
    (-1 / (t (u + 1 + i) - t (u + 1 + i - k)), 1 / (t (u + 1 + i) - t (u + 1 + i - k)))
  else
    ((t (u + 1 + i) - x) / (t (u + 1 + i) - t (u + 1 + i - k)),
      (x - t (u + 1 + i - k)) / (t (u + 1 + i) - t (u + 1 + i - k)))

/-- The matrix of `buildBasisMatrix` over a knot sequence given as a total function. -/
def basisMatrixT (t : Nat → ℚ) (x : ℚ) (u k : Nat) (diff : Bool) : SparseMatrix :=
  bidiagonal ((List.range k).map (basisRowT t x u k diff))

/-- The supported indices after the boundary correction, and the claim that
they hold every nonzero entry of the sparse vector `v`. -/
def NonzerosWithin (v : SparseVector) (l : List Int) : Prop :=
  ∀ e ∈ v.nonzeros, e.1 ∈ l

/-- The row vector that `evaluateDerivative` scatters, over a knot sequence given
as a total function: the product of the `p - r` matrices `R_1 .. R_(p-r)`, then of
the `r` differentiated matrices `DR_(p-r+1) .. DR_p`, scaled by `p! / (p-r)!`. -/
def derivativeRowT (t : Nat → ℚ) (x : ℚ) (u p r : Nat) : SparseMatrix :=
  ((((List.range r).map (fun i => p - r + 1 + i)).foldl
    (fun B k => B.mul (basisMatrixT t x u k true))
    (((List.range (p - r)).map (fun i => i + 1)).foldl
      (fun B k => B.mul (basisMatrixT t x u k false)) SparseMatrix.one11)).scale
    ((p.factorial : ℚ) / ((p - r).factorial : ℚ)))

/-- The `1 × (p+1)` matrix of row `i` of `buildKnotInsertionMatrix`, over the
current knots `t` and the refined knots `s` given as total functions: the
product of the matrices `R_j(s (i+j))` for `j = 1 .. p` at the interval index `u`. -/
def insertionRowT (t s : Nat → ℚ) (i u p : Nat) : SparseMatrix :=
  ((List.range p).map (fun j => j + 1)).foldl
    (fun B j => B.mul (basisMatrixT t (s (i + j)) u j false)) SparseMatrix.one11

/-- The matrix that `buildKnotInsertionMatrix` returns for the refinement `ref`
of the knot vector `knots` of degree `p`. -/
def insertionMatrixT (p : Nat) (knots ref : List ℚ) : SparseMatrix :=
  scatterMatrix (ref.length - p - 1) (knots.length - p - 1)
    ((List.range (ref.length - p - 1)).map (fun i =>
      (((upperBound knots (knotAt ref i) : Int) - 1 - (p : Int)),
        insertionRowT (knotAt knots) (knotAt ref) i (upperBound knots (knotAt ref i) - 1) p)))

/-! ## The blossom of the basis: auxiliary definitions for knot insertion -/

/-- One level `k` of the recursion behind `buildBasisMatrix`, as an operator on
coefficient sequences indexed by basis function: entry `j` of the result collects
entry `j` with the super-diagonal weight and entry `j+1` with the diagonal weight
of the matrix `R_k(y)`. -/
def levelStep (t : Nat → ℚ) (k : Nat) (y : ℚ) (v : Nat → ℚ) : Nat → ℚ :=
  fun j => (y - t j) / (t (j + k) - t j) * v j
    + (t (j + 1 + k) - y) / (t (j + 1 + k) - t (j + 1)) * v (j + 1)

/-- The levels `k+1, k+2, ..` applied to `v`, one per argument. -/
def blossomFrom (t : Nat → ℚ) : Nat → (Nat → ℚ) → List ℚ → (Nat → ℚ)
  | _, v, [] => v
  | k, v, y :: ys => blossomFrom t (k + 1) (levelStep t (k + 1) y v) ys

/-- The unit sequence at index `u`. -/
def unitAt (u : Nat) : Nat → ℚ := fun j => if j = u then 1 else 0

/-- The blossom of the basis functions at the interval index `u`: the levels
`1, 2, ..` applied to the unit sequence at `u`, level `k` at the `k`-th argument.
At `(x, .., x)` it is the vector of basis values at `x`; at `p` consecutive
refined knots it is a row of the knot insertion matrix. -/
def blossom (t : Nat → ℚ) (u : Nat) (ys : List ℚ) : Nat → ℚ := blossomFrom t 0 (unitAt u) ys

/-- The sequence `v` vanishes outside the indices `u-k .. u`. -/
def SuppWindow (u k : Nat) (v : Nat → ℚ) : Prop := ∀ j, v j ≠ 0 → u ≤ j + k ∧ j ≤ u

/-- An interval index `u` of the sequence `t` with a non-empty interval. -/
structure Anchor (t : Nat → ℚ) (N : Nat) (u : Nat) : Prop where
  mono : MonoUpTo t N
  lt : t u < t (u + 1)

/-- The arguments of the blossom in the de Boor recursion: `k` consecutive
refined knots after position `i`, then `p - k` copies of `x`. -/
def deBoorArgs (s : Nat → ℚ) (x : ℚ) (p k i : Nat) : List ℚ :=
  (List.range k).map (fun r => s (i + 1 + r)) ++ List.replicate (p - k) x

/-- The hypotheses on a refinement `ref` of the knot vector `knots` that
`isRefinement` checks. -/
structure Refines (p : Nat) (knots ref : List ℚ) : Prop where
  reg : Regular p knots
  regRef : Regular p ref
  sub : ∀ v ∈ knots, knots.count v ≤ ref.count v
  front_eq : front knots = front ref
  back_eq : back knots = back ref

/-! ## Vocabulary of the claims about the knot refinements -/

/-- The length of the interval between the knots `vec[i]` and `vec[i+1]`. -/
def gap (vec : List ℚ) (i : Nat) : ℚ := knotAt vec (i + 1) - knotAt vec i

/-- Interval `i` is the first longest interval of `vec`: no interval is longer
and every interval before it is shorter. -/
def FirstLongestInterval (vec : List ℚ) (i : Nat) : Prop :=
  i + 1 < vec.length
    ∧ (∀ j, j + 1 < vec.length → gap vec j ≤ gap vec i)
    ∧ (∀ j, j < i → gap vec j < gap vec i)

/-- The sequence `vec` with the midpoint of its interval `i` added between the
two knots of the interval. -/
def withMidpoint (vec : List ℚ) (i : Nat) : List ℚ :=
  vec.take (i + 1) ++ ((knotAt vec i + knotAt vec (i + 1)) / 2) :: vec.drop (i + 1)

/-- The sequence `out` is built from `vec` by adding `n` knots one at a time,
each the midpoint of the first longest interval of the sequence built so far. -/
inductive AddsMidpoints : Nat → List ℚ → List ℚ → Prop
  | done (vec : List ℚ) : AddsMidpoints 0 vec vec
  | step (n : Nat) (vec out : List ℚ) (i : Nat) :
      FirstLongestInterval vec i → AddsMidpoints n (withMidpoint vec i) out →
      AddsMidpoints (n + 1) vec out

/-- The knot vector `{0,0,1,1,2,2}` of degree 1, with the target size
`(1+1) + 2*1 + 1` that the constructor sets. -/
def doubleKnotBasis : BSplineBasis1D := ⟨1, 5, [0, 0, 1, 1, 2, 2]⟩

/-- The value of the sparse vector `v` at the index `i`: the value stored there,
and zero when no value is stored at `i`. -/
def SparseVector.coeffAt (v : SparseVector) (i : Int) : ℚ :=
  match v.entries.find? (fun e => decide (e.1 = i)) with
  | some e => e.2
  | none => 0

/-- A value of the C++ type `double`: a finite number (the rational it
denotes), an infinity or a NaN. The sign of zero is not modelled. -/
inductive Double where
  | finite (q : ℚ)
  | infinity (negative : Bool)
  | nan
  deriving DecidableEq

/-- The integer nearest to `s`; of two nearest integers, the even one. -/
def roundHalfEven (s : ℚ) : Int :=
  if s - (⌊s⌋ : ℚ) < 1 / 2 then ⌊s⌋
  else if 1 / 2 < s - (⌊s⌋ : ℚ) then ⌊s⌋ + 1
  else if ⌊s⌋ % 2 = 0 then ⌊s⌋ else ⌊s⌋ + 1

/-- The exponent of the unit in the last place of binary64 at `q ≠ 0`: `e - 52`
for `2^e ≤ |q| < 2^(e+1)`, and `-1074` in the subnormal range. -/
def ulpExponent (q : ℚ) : Int := max (Int.log 2 |q| - 52) (-1074)

/-- The binary64 value of the exact result `q` of an operation: `q` rounded to
53 significant bits, to nearest and ties to even, and an infinity when the
rounded value reaches `2^1024`. -/
def Double.round (q : ℚ) : Double :=
  if q = 0 then Double.finite 0
  else if (2 : ℚ) ^ 1024 ≤ |(roundHalfEven (q / 2 ^ ulpExponent q) : ℚ) * 2 ^ ulpExponent q| then
    Double.infinity (decide (q < 0))
  else
    Double.finite ((roundHalfEven (q / 2 ^ ulpExponent q) : ℚ) * 2 ^ ulpExponent q)

/-- The negation `-a`. -/
def Double.neg : Double → Double
  | Double.finite a => Double.finite (-a)
  | Double.infinity s => Double.infinity (!s)
  | Double.nan => Double.nan

/-- The sum `a + c`. -/
def Double.add : Double → Double → Double
  | Double.finite a, Double.finite c => Double.round (a + c)
  | Double.finite _, Double.infinity s => Double.infinity s
  | Double.infinity s, Double.finite _ => Double.infinity s
  | Double.infinity s, Double.infinity s' => if s = s' then Double.infinity s else Double.nan
  | _, _ => Double.nan

/-- The difference `a - c`. -/
def Double.sub (a c : Double) : Double := Double.add a (Double.neg c)

/-- The product `a * c`. -/
def Double.mul : Double → Double → Double
  | Double.finite a, Double.finite c => Double.round (a * c)
  | Double.finite a, Double.infinity s =>
    if a = 0 then Double.nan else Double.infinity (decide (a < 0) != s)
  | Double.infinity s, Double.finite c =>
    if c = 0 then Double.nan else Double.infinity (s != decide (c < 0))
  | Double.infinity s, Double.infinity s' => Double.infinity (s != s')
  | _, _ => Double.nan

/-- The quotient `a / c`. A finite number other than zero divided by zero is
the infinity of the sign of the numerator, the sign of zero not being modelled. -/
def Double.div : Double → Double → Double
  | Double.finite a, Double.finite c =>
    if c = 0 then (if a = 0 then Double.nan else Double.infinity (decide (a < 0)))
    else Double.round (a / c)
  | Double.finite _, Double.infinity _ => Double.finite 0
  | Double.infinity s, Double.finite c => Double.infinity (s != decide (c < 0))
  | _, _ => Double.nan

/-- The finite knots of a vector of `double` values, when all of them are finite. -/
def finiteKnots : List Double → Option (List ℚ)
  | [] => some []
  | Double.finite q :: rest => (finiteKnots rest).map (fun l => q :: l)
  | _ :: _ => none

/-- The method `deBoorCoxCoeff` in binary64 arithmetic. -/
def BSplineBasis1D.deBoorCoxCoeffDouble (x x_min x_max : ℚ) : Double :=
  if x_min < x_max ∧ x_min ≤ x ∧ x ≤ x_max then
    Double.div (Double.sub (Double.finite x) (Double.finite x_min))
      (Double.sub (Double.finite x_max) (Double.finite x_min))
  else Double.finite 0

/-- The inner loop of `knotVectorMovingAverage` in binary64 arithmetic:
`ma += uniqueX.at(i+j)` for the first `w` values of `j`. -/
def BSplineBasis1D.windowSumDouble (uniqueX : List ℚ) (i : Nat) : Nat → Except Error Double
  | 0 => pure (Double.finite 0)
  | j + 1 => do
    let ma ← windowSumDouble uniqueX i j
    let t ← atIdx uniqueX (i + j)
    pure (Double.add ma (Double.finite t))

/-- The outer loop of `knotVectorMovingAverage` in binary64 arithmetic: the
first `m` interior knots `ma / w`. -/
def BSplineBasis1D.movingAveragesDouble (uniqueX : List ℚ) (w : Nat) :
    Nat → Except Error (List Double)
  | 0 => pure []
  | m + 1 => do
    let knots ← movingAveragesDouble uniqueX w m
    let ma ← windowSumDouble uniqueX m w
    pure (knots ++ [Double.div ma (Double.finite (w : ℚ))])

/-- The method `knotVectorMovingAverage` in binary64 arithmetic. -/
def BSplineBasis1D.knotVectorMovingAverageDouble (b : BSplineBasis1D) (vec : List ℚ) :
    Except Error (List Double) :=
  let uniqueX := uniqueCopy (stdSort vec)
  let n := uniqueX.length
  let k := b.degree - 1
  let w := k + 3
  if n < b.degree + 1 then
    Except.error Error.tooFewUniquePoints
  else do
    let knots ← movingAveragesDouble uniqueX w (n - k - 2)
    pure ((List.replicate (b.degree + 1) (Double.finite (front uniqueX)) ++ knots)
      ++ List.replicate (b.degree + 1) (Double.finite (back uniqueX)))

/-- The constructor `BSplineBasis1D(x, degree)` from samples, in binary64
arithmetic. The object holds finite knots: the result is `none` when a moving
average is not finite. -/
def BSplineBasis1D.constructDouble (x : List ℚ) (degree : Nat) :
    Option (Except Error BSplineBasis1D) :=
  let b0 : BSplineBasis1D := ⟨degree, (degree + 1) + 2 * degree + 1, []⟩
  match b0.knotVectorMovingAverageDouble x with
  | Except.error e => some (Except.error e)
  | Except.ok knots =>
    match finiteKnots knots with
    | none => none
    | some finite =>
      let b : BSplineBasis1D := { b0 with knots := finite }
      if degree ≤ 0 then
        some (Except.error Error.degreeNotPositive)
      else if !b.isKnotVectorRegular b.knots then
        some (Except.error Error.knotVectorNotRegular)
      else
        some (Except.ok b)

/-- The samples `{1, 1+e, 1+2e, 1+3e}` with `e = 2^-52`: four consecutive
binary64 numbers. -/
def adjacentSamples : List ℚ := [1, 1 + 1 / 2 ^ 52, 1 + 2 / 2 ^ 52, 1 + 3 / 2 ^ 52]

/-! ## The invalidated read of `decomposeToBezierForm`

In the loop of `decomposeToBezierForm` the call
`refinedKnots.insert(knoti, newKnots.begin(), newKnots.end())` invalidates the
iterator `knoti`, and the next statement,
`knoti = std::upper_bound(refinedKnots.begin(), refinedKnots.end(), *knoti)`,
reads `*knoti`. The value of that read is undefined. The definitions below take
it as a parameter. -/

/-- The loop of `decomposeToBezierForm`, with the iterator `knoti` as a position
and the value of the read through the invalidated iterator as a parameter:
`staleRead v refinedKnots knoti` is what `*knoti` yields after copies of `v` have
been inserted at position `knoti`, giving `refinedKnots`. A pass that inserts
nothing reads the knot at `knoti`. The result is `none` when the loop is still
running after `fuel` passes. -/
def BSplineBasis1D.decomposeLoopStale (b : BSplineBasis1D) (staleRead : ℚ → List ℚ → Nat → ℚ) :
    Nat → Nat → List ℚ → Option (List ℚ)
  | 0, knoti, refinedKnots => if knoti = refinedKnots.length then some refinedKnots else none
  | fuel + 1, knoti, refinedKnots =>
    if knoti = refinedKnots.length then some refinedKnots
    else
      let v := knotAt refinedKnots knoti
      let mult : Int := ((b.degree : Int) + 1) - (b.knotMultiplicity v : Int)
      if mult > 0 then
        let refinedKnots1 :=
          refinedKnots.take knoti ++ List.replicate mult.toNat v ++ refinedKnots.drop knoti
        decomposeLoopStale b staleRead fuel
          (upperBound refinedKnots1 (staleRead v refinedKnots1 knoti)) refinedKnots1
      else
        decomposeLoopStale b staleRead fuel (upperBound refinedKnots v) refinedKnots

/-- The method `decomposeToBezierForm`, run with a pass budget for its loop and
with the value of the read through the invalidated iterator as a parameter. -/
def BSplineBasis1D.decomposeToBezierFormStale (b : BSplineBasis1D)
    (staleRead : ℚ → List ℚ → Nat → ℚ) (fuel : Nat) :
    Option (Except Error (SparseMatrix × BSplineBasis1D)) :=
  match b.decomposeLoopStale staleRead fuel 0 b.knots with
  | none => none
  | some refinedKnots =>
    some (
      if !b.isKnotVectorRegular refinedKnots || !b.isRefinement refinedKnots then
        Except.error Error.notProperRefinement
      else
        (b.buildKnotInsertionMatrix refinedKnots).bind
          (fun A => Except.ok (A, { b with knots := refinedKnots })))

/-! ## The de Boor-Cox recursion -/

theorem bspl_support (t : Nat → ℚ) (n : Nat) (hm : MonoUpTo t n) (x : ℚ) (k : Nat) :
    ∀ i, i + k + 1 < n → (x < t i ∨ t (i + k + 1) ≤ x) → bspl t x i k = 0 := by
  induction k with
  | zero =>
    intro i _ hx
    unfold bspl
    rw [if_neg]
    rintro ⟨h1, h2⟩
    rcases hx with hx | hx
    · linarith
    · simp only [add_zero] at hx
      linarith
  | succ k ih =>
    intro i hi hx
    unfold bspl
    have e1 : bspl t x i k = 0 := by
      apply ih i (by omega)
      rcases hx with hx | hx
      · exact Or.inl hx
      · right
        have := hm (i + k + 1) (i + (k + 1) + 1) (by omega) (by omega)
        linarith
    have e2 : bspl t x (i + 1) k = 0 := by
      apply ih (i + 1) (by omega)
      rcases hx with hx | hx
      · left
        have := hm i (i + 1) (by omega) (by omega)
        linarith
      · right
        have e : i + 1 + k + 1 = i + (k + 1) + 1 := by omega
        rw [e]
        exact hx
    rw [e1, e2]
    ring

theorem bspl_partition (t : Nat → ℚ) (n : Nat) (hm : MonoUpTo t n) (x : ℚ) (u : Nat)
    (hu : t u ≤ x ∧ x < t (u + 1)) (k : Nat) :
    k ≤ u → u + k + 1 < n → ∑ j in Finset.range (k + 1), bspl t x (u - k + j) k = 1 := by
  induction k with
  | zero =>
    intro _ _
    rw [Finset.sum_range_one]
    simp only [Nat.sub_zero, add_zero, bspl]
    rw [if_pos hu]
  | succ k ih =>
    intro hk hn
    have ih1 := ih (by omega) (by omega)
    obtain ⟨a, ha⟩ : ∃ a, u = a + (k + 1) := ⟨u - (k + 1), by omega⟩
    subst ha
    have ea : a + (k + 1) - (k + 1) = a := by omega
    have eb : a + (k + 1) - k = a + 1 := by omega
    rw [ea]
    rw [eb] at ih1
    have hterm : ∀ j, bspl t x (a + j) (k + 1)
        = (bspl t x (a + 1 + j) k)
          - (BSplineBasis1D.deBoorCoxCoeff x (t (a + (j + 1))) (t (a + (j + 1) + (k + 1))) * bspl t x (a + (j + 1)) k
            - BSplineBasis1D.deBoorCoxCoeff x (t (a + j)) (t (a + j + (k + 1))) * bspl t x (a + j) k) := by
      intro j
      rw [bspl]
      have e1 : a + j + 1 = a + (j + 1) := by omega
      have e2 : a + j + (k + 1) + 1 = a + (j + 1) + (k + 1) := by omega
      have e3 : a + 1 + j = a + (j + 1) := by omega
      rw [e1, e2, e3]
      ring
    rw [Finset.sum_congr rfl (fun j _ => hterm j), Finset.sum_sub_distrib,
      Finset.sum_range_sub (fun j => BSplineBasis1D.deBoorCoxCoeff x (t (a + j)) (t (a + j + (k + 1))) * bspl t x (a + j) k),
      Finset.sum_range_succ, ih1]
    have z1 : bspl t x (a + 0) k = 0 :=
      bspl_support t n hm x k (a + 0) (by omega) (Or.inr (by
        have e : a + 0 + k + 1 = a + (k + 1) := by omega
        rw [e]; exact hu.1))
    have z2 : bspl t x (a + (k + 1 + 1)) k = 0 :=
      bspl_support t n hm x k _ (by omega) (Or.inl (by
        have e : a + (k + 1 + 1) = a + (k + 1) + 1 := by omega
        rw [e]; exact hu.2))
    have z3 : bspl t x (a + 1 + (k + 1)) k = 0 := by
      have e : a + 1 + (k + 1) = a + (k + 1 + 1) := by omega
      rw [e]; exact z2
    rw [z1, z2, z3]
    ring

/-! ## Vectors: access, ends, order -/

theorem atIdx_ok (vec : List ℚ) (i : Nat) (h : i < vec.length) :
    atIdx vec i = Except.ok (knotAt vec i) := by
  unfold atIdx knotAt
  rw [List.getElem?_eq_getElem h]
  rfl

theorem knotAt_cons_zero (a : ℚ) (l : List ℚ) : knotAt (a :: l) 0 = a := by
  simp [knotAt]

theorem knotAt_cons_succ (a : ℚ) (l : List ℚ) (i : Nat) :
    knotAt (a :: l) (i + 1) = knotAt l i := by
  simp [knotAt]

theorem knotAt_mem (vec : List ℚ) (i : Nat) (h : i < vec.length) : knotAt vec i ∈ vec := by
  unfold knotAt
  rw [List.getElem?_eq_getElem h]
  exact List.getElem_mem h

theorem exists_knotAt_of_mem (vec : List ℚ) (a : ℚ) (h : a ∈ vec) :
    ∃ i, i < vec.length ∧ knotAt vec i = a := by
  obtain ⟨i, hi, e⟩ := List.getElem_of_mem h
  refine ⟨i, hi, ?_⟩
  unfold knotAt
  rw [List.getElem?_eq_getElem hi, ← e]
  rfl

theorem front_eq_knotAt (vec : List ℚ) : front vec = knotAt vec 0 := by
  cases vec <;> simp [front, knotAt]

theorem back_eq_knotAt (vec : List ℚ) : back vec = knotAt vec (vec.length - 1) := by
  induction vec with
  | nil => rfl
  | cons a l ih =>
    cases l with
    | nil => rfl
    | cons c l =>
      have e : back (a :: c :: l) = back (c :: l) := rfl
      rw [e, ih]
      simp [knotAt]

theorem knotAt_take (vec : List ℚ) (n i : Nat) (h : i < n) :
    knotAt (vec.take n) i = knotAt vec i := by
  unfold knotAt
  rw [List.getElem?_take, if_pos h]

theorem knotAt_drop (vec : List ℚ) (n i : Nat) :
    knotAt (vec.drop n) i = knotAt vec (n + i) := by
  unfold knotAt
  rw [List.getElem?_drop]

theorem isSorted_iff (vec : List ℚ) :
    BSplineBasis1D.isSorted vec = true ↔ vec.Sorted (· ≤ ·) := by
  induction vec with
  | nil => simp [BSplineBasis1D.isSorted]
  | cons a l ih =>
    cases l with
    | nil => simp [BSplineBasis1D.isSorted]
    | cons c l =>
      rw [BSplineBasis1D.isSorted, Bool.and_eq_true, ih, List.sorted_cons (a := a)]
      constructor
      · rintro ⟨h1, h2⟩
        have hac : a ≤ c := by simpa using h1
        refine ⟨?_, h2⟩
        intro d hd
        rcases List.mem_cons.1 hd with rfl | hd
        · exact hac
        · exact le_trans hac (List.rel_of_sorted_cons h2 d hd)
      · rintro ⟨h1, h2⟩
        refine ⟨?_, h2⟩
        have := h1 c (List.mem_cons_self c l)
        simpa using this

theorem monoUpTo_of_sorted (vec : List ℚ) (h : vec.Sorted (· ≤ ·)) :
    MonoUpTo (knotAt vec) vec.length := by
  induction vec with
  | nil => intro i j _ hj; simp at hj
  | cons a l ih =>
    intro i j hij hj
    have hl := ih (List.Sorted.of_cons h)
    cases j with
    | zero =>
      have : i = 0 := by omega
      subst this
      exact le_refl _
    | succ j =>
      have hj1 : j < l.length := by simpa using hj
      cases i with
      | zero =>
        rw [knotAt_cons_zero, knotAt_cons_succ]
        exact List.rel_of_sorted_cons h _ (knotAt_mem l j hj1)
      | succ i =>
        rw [knotAt_cons_succ, knotAt_cons_succ]
        exact hl i j (by omega) hj1

theorem sorted_of_monoUpTo (vec : List ℚ) (h : MonoUpTo (knotAt vec) vec.length) :
    vec.Sorted (· ≤ ·) := by
  induction vec with
  | nil => exact List.sorted_nil
  | cons a l ih =>
    rw [List.sorted_cons]
    constructor
    · intro c hc
      obtain ⟨i, hi, e⟩ := exists_knotAt_of_mem l c hc
      have := h 0 (i + 1) (by omega) (by simpa using hi)
      rw [knotAt_cons_zero, knotAt_cons_succ, e] at this
      exact this
    · apply ih
      intro i j hij hj
      have := h (i + 1) (j + 1) (by omega) (by simpa using hj)
      rw [knotAt_cons_succ, knotAt_cons_succ] at this
      exact this

/-! ## `std::upper_bound` on a sorted vector -/

theorem upperBound_le_length (vec : List ℚ) (x : ℚ) : upperBound vec x ≤ vec.length := by
  unfold upperBound
  exact (List.takeWhile_sublist _).length_le

theorem upperBound_cons (a : ℚ) (l : List ℚ) (x : ℚ) :
    upperBound (a :: l) x = if x < a then 0 else upperBound l x + 1 := by
  unfold upperBound
  rw [List.takeWhile_cons]
  by_cases h : x < a <;> simp [h]

theorem knotAt_le_of_lt_upperBound (vec : List ℚ) (x : ℚ) :
    ∀ i, i < upperBound vec x → knotAt vec i ≤ x := by
  induction vec with
  | nil => intro i hi; simp [upperBound] at hi
  | cons a l ih =>
    intro i hi
    rw [upperBound_cons] at hi
    by_cases h : x < a
    · rw [if_pos h] at hi; omega
    · rw [if_neg h] at hi
      cases i with
      | zero => rw [knotAt_cons_zero]; exact not_lt.1 h
      | succ i => rw [knotAt_cons_succ]; exact ih i (by omega)

theorem lt_knotAt_upperBound (vec : List ℚ) (x : ℚ) :
    upperBound vec x < vec.length → x < knotAt vec (upperBound vec x) := by
  induction vec with
  | nil => intro h; simp at h
  | cons a l ih =>
    intro h
    rw [upperBound_cons] at h ⊢
    by_cases hx : x < a
    · rw [if_pos hx, knotAt_cons_zero]; exact hx
    · rw [if_neg hx] at h ⊢
      rw [knotAt_cons_succ]
      exact ih (by simpa using h)

/-- On a sorted vector every knot from the upper bound on is larger than `x`. -/
theorem lt_knotAt_of_upperBound_le (vec : List ℚ) (hs : vec.Sorted (· ≤ ·)) (x : ℚ) (i : Nat)
    (h1 : upperBound vec x ≤ i) (h2 : i < vec.length) : x < knotAt vec i :=
  lt_of_lt_of_le (lt_knotAt_upperBound vec x (by omega))
    (monoUpTo_of_sorted vec hs _ _ h1 h2)

/-- On a sorted vector a knot that is larger than `x` lies at or after the upper bound. -/
theorem upperBound_le_of_lt_knotAt (vec : List ℚ) (x : ℚ) (i : Nat)
    (h : x < knotAt vec i) : upperBound vec x ≤ i := by
  by_contra hc
  have := knotAt_le_of_lt_upperBound vec x i (by omega)
  linarith

/-- On a sorted vector a knot that is at most `x` lies before the upper bound. -/
theorem lt_upperBound_of_knotAt_le (vec : List ℚ) (hs : vec.Sorted (· ≤ ·)) (x : ℚ) (i : Nat)
    (h1 : i < vec.length) (h : knotAt vec i ≤ x) : i < upperBound vec x := by
  by_contra hc
  have := lt_knotAt_of_upperBound_le vec hs x i (by omega) h1
  linarith

/-! ## Regular knot vectors -/

/-- The checks of `isKnotVectorRegular`, one conjunct per check. -/
theorem isKnotVectorRegular_iff_checks (b : BSplineBasis1D) (vec : List ℚ) :
    b.isKnotVectorRegular vec = true ↔
      2 * (b.degree + 1) ≤ vec.length
      ∧ (vec.take (b.degree + 1)).count (front vec) = b.degree + 1
      ∧ (vec.drop (vec.length - b.degree - 1)).count (back vec) = b.degree + 1
      ∧ vec.Sorted (· ≤ ·)
      ∧ ∀ t ∈ vec, vec.count t ≤ b.degree + 1 := by
  unfold BSplineBasis1D.isKnotVectorRegular stdCount
  by_cases h1 : vec.length < 2 * (b.degree + 1)
  · rw [if_pos h1]
    constructor
    · intro h; cases h
    · intro h; omega
  rw [if_neg h1]
  by_cases h2 : (vec.take (b.degree + 1)).count (front vec) ≠ b.degree + 1
  · rw [if_pos h2]
    constructor
    · intro h; cases h
    · intro h; exact absurd h.2.1 h2
  rw [if_neg h2]
  by_cases h3 : (vec.drop (vec.length - b.degree - 1)).count (back vec) ≠ b.degree + 1
  · rw [if_pos h3]
    constructor
    · intro h; cases h
    · intro h; exact absurd h.2.2.1 h3
  rw [if_neg h3]
  by_cases h4 : BSplineBasis1D.isSorted vec = true
  · have h4n : ¬ ((!BSplineBasis1D.isSorted vec) = true) := by simp [h4]
    rw [if_neg h4n, List.all_eq_true]
    have hs := (isSorted_iff vec).1 h4
    constructor
    · intro h
      refine ⟨by omega, not_not.1 h2, not_not.1 h3, hs, ?_⟩
      intro t ht
      have := h t ht
      simpa using this
    · intro h t ht
      have := h.2.2.2.2 t ht
      simpa using this
  · have h4p : ((!BSplineBasis1D.isSorted vec) = true) := by simpa using h4
    rw [if_pos h4p]
    constructor
    · intro h; cases h
    · intro h; exact absurd ((isSorted_iff vec).2 h.2.2.2.1) h4

theorem all_eq_of_count_eq_length (l : List ℚ) (a : ℚ) (h : l.count a = l.length) (i : Nat)
    (hi : i < l.length) : knotAt l i = a := by
  have := (List.count_eq_length.1 h) (knotAt l i) (knotAt_mem l i hi)
  exact this.symm

theorem count_eq_length_of_all_eq (l : List ℚ) (a : ℚ)
    (h : ∀ i, i < l.length → knotAt l i = a) : l.count a = l.length := by
  apply List.count_eq_length.2
  intro c hc
  obtain ⟨i, hi, e⟩ := exists_knotAt_of_mem l c hc
  rw [← e, h i hi]

theorem regular_of_isKnotVectorRegular (b : BSplineBasis1D) (vec : List ℚ)
    (h : b.isKnotVectorRegular vec = true) : Regular b.degree vec := by
  obtain ⟨h1, h2, h3, h4, h5⟩ := (isKnotVectorRegular_iff_checks b vec).1 h
  refine ⟨h1, h4, ?_, ?_, ?_⟩
  · intro i hi
    have hl : (vec.take (b.degree + 1)).length = b.degree + 1 := by
      rw [List.length_take]; omega
    have := all_eq_of_count_eq_length _ _ (h2.trans hl.symm) i (by omega)
    rw [knotAt_take _ _ _ (by omega)] at this
    exact this
  · intro i hi1 hi2
    have hl : (vec.drop (vec.length - b.degree - 1)).length = b.degree + 1 := by
      rw [List.length_drop]; omega
    have := all_eq_of_count_eq_length _ _ (h3.trans hl.symm) (i - (vec.length - b.degree - 1))
      (by omega)
    rw [knotAt_drop] at this
    have e : vec.length - b.degree - 1 + (i - (vec.length - b.degree - 1)) = i := by omega
    rw [e] at this
    exact this
  · intro t
    by_cases ht : t ∈ vec
    · exact h5 t ht
    · rw [List.count_eq_zero_of_not_mem ht]; omega

theorem isKnotVectorRegular_of_regular (b : BSplineBasis1D) (vec : List ℚ)
    (h : Regular b.degree vec) : b.isKnotVectorRegular vec = true := by
  rw [isKnotVectorRegular_iff_checks]
  have hlen := h.len
  refine ⟨h.len, ?_, ?_, h.sorted, fun t _ => h.mult t⟩
  · have hl : (vec.take (b.degree + 1)).length = b.degree + 1 := by
      rw [List.length_take]; omega
    refine (count_eq_length_of_all_eq _ _ ?_).trans hl
    intro i hi
    rw [knotAt_take _ _ _ (by omega)]
    exact h.first i (by omega)
  · have hl : (vec.drop (vec.length - b.degree - 1)).length = b.degree + 1 := by
      rw [List.length_drop]; omega
    refine (count_eq_length_of_all_eq _ _ ?_).trans hl
    intro i hi
    rw [knotAt_drop]
    exact h.last _ (by omega) (by omega)

theorem isKnotVectorRegular_iff_regular (b : BSplineBasis1D) (vec : List ℚ) :
    b.isKnotVectorRegular vec = true ↔ Regular b.degree vec :=
  ⟨regular_of_isKnotVectorRegular b vec, isKnotVectorRegular_of_regular b vec⟩

theorem Regular.mono {p : Nat} {vec : List ℚ} (h : Regular p vec) :
    MonoUpTo (knotAt vec) vec.length := monoUpTo_of_sorted vec h.sorted

/-- The number of indices below `n` at which `t` takes the value `a` is at least
the length of any run of indices on which `t` is `a`. -/
theorem count_ge_of_run (vec : List ℚ) (a : ℚ) (s m : Nat) (hs : s + m ≤ vec.length)
    (h : ∀ i, s ≤ i → i < s + m → knotAt vec i = a) : m ≤ vec.count a := by
  have e : vec = vec.take s ++ (vec.drop s).take m ++ (vec.drop s).drop m := by
    rw [List.append_assoc, List.take_append_drop, List.take_append_drop]
  have hl : ((vec.drop s).take m).length = m := by
    rw [List.length_take, List.length_drop]; omega
  have hc : ((vec.drop s).take m).count a = m := by
    refine (count_eq_length_of_all_eq _ _ ?_).trans hl
    intro i hi
    rw [hl] at hi
    rw [knotAt_take _ _ _ hi, knotAt_drop]
    exact h _ (by omega) (by omega)
  have : vec.count a = (vec.take s).count a + ((vec.drop s).take m).count a
      + ((vec.drop s).drop m).count a := by
    conv_lhs => rw [e]
    rw [List.count_append, List.count_append]
  omega

theorem Regular.front_lt_succ {p : Nat} {vec : List ℚ} (h : Regular p vec) :
    front vec < knotAt vec (p + 1) := by
  have hlen := h.len
  have hle : front vec ≤ knotAt vec (p + 1) := by
    rw [← h.first 0 (by omega)]
    exact h.mono 0 (p + 1) (by omega) (by omega)
  rcases lt_or_eq_of_le hle with hlt | heq
  · exact hlt
  · exfalso
    have := count_ge_of_run vec (front vec) 0 (p + 2) (by omega) (by
      intro i _ hi
      by_cases hip : i ≤ p
      · exact h.first i hip
      · have : i = p + 1 := by omega
        rw [this, ← heq])
    have := h.mult (front vec)
    omega

theorem Regular.pred_lt_back {p : Nat} {vec : List ℚ} (h : Regular p vec) :
    knotAt vec (vec.length - p - 2) < back vec := by
  have hlen := h.len
  have hle : knotAt vec (vec.length - p - 2) ≤ back vec := by
    rw [← h.last (vec.length - 1) (by omega) (by omega)]
    exact h.mono _ _ (by omega) (by omega)
  rcases lt_or_eq_of_le hle with hlt | heq
  · exact hlt
  · exfalso
    have := count_ge_of_run vec (back vec) (vec.length - p - 2) (p + 2) (by omega) (by
      intro i hi1 hi2
      by_cases hip : vec.length - p - 1 ≤ i
      · exact h.last i hip (by omega)
      · have : i = vec.length - p - 2 := by omega
        rw [this, heq])
    have := h.mult (back vec)
    omega

theorem Regular.front_lt_back {p : Nat} {vec : List ℚ} (h : Regular p vec) :
    front vec < back vec := by
  have hlen := h.len
  have h1 := h.front_lt_succ
  have h2 : knotAt vec (p + 1) ≤ back vec := by
    rw [← h.last (vec.length - 1) (by omega) (by omega)]
    exact h.mono _ _ (by omega) (by omega)
  linarith

theorem Regular.front_le {p : Nat} {vec : List ℚ} (h : Regular p vec) (i : Nat)
    (hi : i < vec.length) : front vec ≤ knotAt vec i := by
  rw [← h.first 0 (by omega)]
  exact h.mono 0 i (by omega) hi

theorem Regular.le_back {p : Nat} {vec : List ℚ} (h : Regular p vec) (i : Nat)
    (hi : i < vec.length) : knotAt vec i ≤ back vec := by
  have hlen := h.len
  rw [← h.last (vec.length - 1) (by omega) (by omega)]
  exact h.mono i _ (by omega) (by omega)

/-- The position of the upper bound of a point of the half-open domain of a
regular knot vector. -/
theorem Regular.upperBound_bounds {p : Nat} {vec : List ℚ} (h : Regular p vec) (x : ℚ)
    (h1 : front vec ≤ x) (h2 : x < back vec) :
    p + 1 ≤ upperBound vec x ∧ upperBound vec x + p + 1 ≤ vec.length := by
  have hlen := h.len
  constructor
  · have := lt_upperBound_of_knotAt_le vec h.sorted x p (by omega) (by rw [h.first p le_rfl]; exact h1)
    omega
  · have := upperBound_le_of_lt_knotAt vec x (vec.length - p - 1) (by
      rw [h.last _ le_rfl (by omega)]; exact h2)
    omega

/-- The half-open knot interval of a point of the half-open domain. -/
theorem Regular.interval {p : Nat} {vec : List ℚ} (h : Regular p vec) (x : ℚ)
    (h1 : front vec ≤ x) (h2 : x < back vec) :
    knotAt vec (upperBound vec x - 1) ≤ x ∧ x < knotAt vec (upperBound vec x - 1 + 1) := by
  obtain ⟨hb1, hb2⟩ := h.upperBound_bounds x h1 h2
  constructor
  · exact knotAt_le_of_lt_upperBound vec x _ (by omega)
  · have e : upperBound vec x - 1 + 1 = upperBound vec x := by omega
    rw [e]
    exact lt_knotAt_upperBound vec x (by omega)

/-! ## `deBoorCox` and the total recursion -/

theorem deBoorCox_eq_bspl (b : BSplineBasis1D) (x : ℚ) (k : Nat) :
    ∀ i, i + k + 1 < b.knots.length →
      b.deBoorCox x i k = Except.ok (bspl (knotAt b.knots) x i k) := by
  induction k with
  | zero =>
    intro i hi
    rw [BSplineBasis1D.deBoorCox, atIdx_ok _ i (by omega), atIdx_ok _ (i + 1) (by omega)]
    simp only [bind, Except.bind, bspl, BSplineBasis1D.inHalfopenInterval, Bool.and_eq_true,
      decide_eq_true_eq]
    split_ifs <;> rfl
  | succ k ih =>
    intro i hi
    rw [BSplineBasis1D.deBoorCox, atIdx_ok _ i (by omega), atIdx_ok _ (i + (k + 1)) (by omega),
      atIdx_ok _ (i + 1) (by omega), atIdx_ok _ (i + (k + 1) + 1) (by omega),
      ih i (by omega), ih (i + 1) (by omega)]
    rfl

theorem evaluateLoop_ok (b : BSplineBasis1D) (x : ℚ) (l : List Int)
    (h : ∀ i ∈ l, i.toNat + b.degree + 1 < b.knots.length) :
    b.evaluateLoop x l
      = Except.ok (l.map (fun i => (i, bspl (knotAt b.knots) x i.toNat b.degree))) := by
  induction l with
  | nil => rfl
  | cons i rest ih =>
    rw [BSplineBasis1D.evaluateLoop, deBoorCox_eq_bspl b x _ _ (h i (List.mem_cons_self _ _)),
      ih (fun j hj => h j (List.mem_cons_of_mem _ hj))]
    rfl

theorem length_intRange (a c : Int) : (intRange a c).length = (c + 1 - a).toNat := by
  unfold intRange
  rw [List.length_map, List.length_range]

theorem intRange_eq_map (a : Nat) (m : Nat) :
    intRange (a : Int) ((a : Int) + m) = (List.range (m + 1)).map (fun j => ((a + j : Nat) : Int)) := by
  unfold intRange
  have e : ((a : Int) + m + 1 - a).toNat = m + 1 := by omega
  rw [e]
  apply List.map_congr_left
  intro j _
  push_cast
  rfl

/-! ## Interval search -/

theorem indexHalfopenInterval_ok (b : BSplineBasis1D) (x : ℚ) (h1 : front b.knots ≤ x)
    (h2 : x ≤ back b.knots) :
    b.indexHalfopenInterval x = Except.ok ((upperBound b.knots x : Int) - 1) := by
  unfold BSplineBasis1D.indexHalfopenInterval
  rw [if_neg]
  rintro (h | h) <;> linarith

theorem indexHalfopenInterval_error (b : BSplineBasis1D) (x : ℚ)
    (h : x < front b.knots ∨ back b.knots < x) :
    b.indexHalfopenInterval x = Except.error Error.outsideKnotInterval := by
  unfold BSplineBasis1D.indexHalfopenInterval
  rw [if_pos h]

theorem one_le_upperBound (vec : List ℚ) (x : ℚ) (hne : vec ≠ []) (h : front vec ≤ x) :
    1 ≤ upperBound vec x := by
  cases vec with
  | nil => exact absurd rfl hne
  | cons a l =>
    rw [upperBound_cons, if_neg]
    · omega
    · have : front (a :: l) = a := rfl
      rw [this] at h
      exact not_lt.2 h

theorem upperBound_back (vec : List ℚ) (hs : vec.Sorted (· ≤ ·)) :
    upperBound vec (back vec) = vec.length := by
  apply le_antisymm (upperBound_le_length _ _)
  by_contra hc
  have h1 := lt_knotAt_upperBound vec (back vec) (by omega)
  have h2 := monoUpTo_of_sorted vec hs (upperBound vec (back vec)) (vec.length - 1)
    (by omega) (by omega)
  rw [← back_eq_knotAt] at h2
  linarith

theorem indexSupportedBasisfunctions_inside (b : BSplineBasis1D) (x : ℚ)
    (h1 : front b.knots ≤ x) (h2 : x ≤ back b.knots) (hU : 1 ≤ upperBound b.knots x) :
    b.indexSupportedBasisfunctions x
      = Except.ok (intRange (max ((upperBound b.knots x : Int) - 1 - (b.degree : Int)) 0)
          ((upperBound b.knots x : Int) - 1)) := by
  unfold BSplineBasis1D.indexSupportedBasisfunctions
  have hin : b.insideSupport x = true := by
    simp [BSplineBasis1D.insideSupport, h1, h2]
  rw [if_pos hin, indexHalfopenInterval_ok b x h1 h2]
  have hneg : ¬ ((upperBound b.knots x : Int) - 1 < 0) := by omega
  simp only [bind, Except.bind, if_neg hneg]
  rfl

theorem indexSupportedBasisfunctions_outside (b : BSplineBasis1D) (x : ℚ)
    (h : x < front b.knots ∨ back b.knots < x) :
    b.indexSupportedBasisfunctions x = Except.ok [] := by
  unfold BSplineBasis1D.indexSupportedBasisfunctions
  have hin : ¬ (b.insideSupport x = true) := by
    simp only [BSplineBasis1D.insideSupport, Bool.and_eq_true, decide_eq_true_eq]
    rintro ⟨a1, a2⟩
    rcases h with h | h <;> linarith
  rw [if_neg hin]
  rfl

/-- On a regular knot vector the supported indices of a point of the half-open
domain are the `p + 1` indices that end at the interval index. -/
theorem indexSupportedBasisfunctions_regular (b : BSplineBasis1D)
    (hreg : Regular b.degree b.knots) (x : ℚ) (h1 : front b.knots ≤ x) (h2 : x < back b.knots) :
    b.indexSupportedBasisfunctions x
      = Except.ok ((List.range (b.degree + 1)).map
          (fun j => ((upperBound b.knots x - 1 - b.degree + j : Nat) : Int))) := by
  obtain ⟨hb1, hb2⟩ := hreg.upperBound_bounds x h1 h2
  rw [indexSupportedBasisfunctions_inside b x h1 (le_of_lt h2) (by omega)]
  have e1 : max ((upperBound b.knots x : Int) - 1 - (b.degree : Int)) 0
      = ((upperBound b.knots x - 1 - b.degree : Nat) : Int) := by omega
  have e2 : (upperBound b.knots x : Int) - 1
      = ((upperBound b.knots x - 1 - b.degree : Nat) : Int) + (b.degree : Nat) := by omega
  rw [e1, e2, intRange_eq_map]

theorem supportHack_of_ne (b : BSplineBasis1D) (nextafter : ℚ → ℚ) (x : ℚ)
    (h : x ≠ back b.knots) : b.supportHack nextafter x = x := by
  unfold BSplineBasis1D.supportHack
  rw [if_neg h]

/-- The result of `evaluate` at a point of the half-open domain of a regular knot vector. -/
theorem evaluate_regular (b : BSplineBasis1D) (nextafter : ℚ → ℚ)
    (hreg : Regular b.degree b.knots) (x : ℚ) (h1 : front b.knots ≤ x) (h2 : x < back b.knots) :
    b.evaluate nextafter x = Except.ok ⟨b.getNumBasisFunctions,
      (List.range (b.degree + 1)).map (fun j =>
        (((upperBound b.knots x - 1 - b.degree + j : Nat) : Int),
          bspl (knotAt b.knots) x (upperBound b.knots x - 1 - b.degree + j) b.degree))⟩ := by
  obtain ⟨hb1, hb2⟩ := hreg.upperBound_bounds x h1 h2
  unfold BSplineBasis1D.evaluate
  rw [supportHack_of_ne b nextafter x (ne_of_lt h2)]
  dsimp only
  rw [indexSupportedBasisfunctions_regular b hreg x h1 h2]
  simp only [bind, Except.bind]
  rw [evaluateLoop_ok]
  · simp only [pure, Except.pure, List.map_map]
    rfl
  · intro i hi
    rw [List.mem_map] at hi
    obtain ⟨j, hj, rfl⟩ := hi
    rw [List.mem_range] at hj
    rw [Int.toNat_ofNat]
    omega

/-! ## Properties of evaluation -/

theorem sum_map_range (f : Nat → ℚ) (n : Nat) :
    ((List.range n).map f).sum = ∑ j in Finset.range n, f j := by
  induction n with
  | zero => rfl
  | succ n ih =>
    rw [List.range_succ, List.map_append, List.sum_append, ih, Finset.sum_range_succ]
    simp

/-- Claim C1 (partition of unity): on a regular knot vector of degree `p ≥ 1`,
at every `x` strictly inside the domain, `evaluate` returns a vector whose stored
values sum to exactly 1. -/
theorem evaluate_partition_of_unity (b : BSplineBasis1D) (nextafter : ℚ → ℚ)
    (_hp : 1 ≤ b.degree) (hreg : b.isKnotVectorRegular b.knots = true) (x : ℚ)
    (h1 : front b.knots < x) (h2 : x < back b.knots) :
    ∃ sv, b.evaluate nextafter x = Except.ok sv ∧ sv.sum = 1 := by
  have hr := regular_of_isKnotVectorRegular b b.knots hreg
  obtain ⟨hb1, hb2⟩ := hr.upperBound_bounds x (le_of_lt h1) h2
  refine ⟨_, evaluate_regular b nextafter hr x (le_of_lt h1) h2, ?_⟩
  unfold SparseVector.sum
  simp only [List.map_map]
  have e : (Prod.snd ∘ fun j : Nat =>
      (((upperBound b.knots x - 1 - b.degree + j : Nat) : Int),
        bspl (knotAt b.knots) x (upperBound b.knots x - 1 - b.degree + j) b.degree))
      = fun j => bspl (knotAt b.knots) x (upperBound b.knots x - 1 - b.degree + j) b.degree := rfl
  rw [e, sum_map_range]
  exact bspl_partition (knotAt b.knots) b.knots.length hr.mono x (upperBound b.knots x - 1)
    (hr.interval x (le_of_lt h1) h2) b.degree (by omega) (by omega)

theorem cubicBasis_regular : cubicBasis.isKnotVectorRegular cubicBasis.knots = true := by
  decide

/-- Claim C1 at the knot vector `{0,0,0,0,1,2,3,3,3,3}` of degree 3 and `x = 1`. -/
theorem evaluate_partition_of_unity_witness :
    1 ≤ cubicBasis.degree ∧ cubicBasis.isKnotVectorRegular cubicBasis.knots = true
      ∧ front cubicBasis.knots < 1 ∧ (1 : ℚ) < back cubicBasis.knots
      ∧ ∃ sv, cubicBasis.evaluate (fun x => x) 1 = Except.ok sv ∧ sv.sum = 1 :=
  ⟨by decide, by decide, by decide, by decide,
    evaluate_partition_of_unity cubicBasis (fun x => x) (by decide) (by decide) 1
      (by decide) (by decide)⟩

/-- Claim C8, refuted as stated: on the sorted knot vector `{0,0,1,1}` the point
`x = 1 = knots.back()` is accepted and `indexHalfopenInterval` returns 3, the last
index, for which there is no `knots[i+1]`. -/
theorem indexHalfopenInterval_back_counterexample :
    linearBasis.knots.Sorted (· ≤ ·)
      ∧ front linearBasis.knots ≤ 1 ∧ (1 : ℚ) ≤ back linearBasis.knots
      ∧ linearBasis.indexHalfopenInterval 1 = Except.ok 3
      ∧ ¬ InHalfopenKnotInterval linearBasis.knots 1 3 := by
  refine ⟨(isSorted_iff _).1 (by decide), by decide, by decide, by rfl, ?_⟩
  rintro ⟨_, h, _⟩
  revert h
  decide

/-- Claim C8, amended: on a sorted knot vector, for every `x` in the closed domain
`indexHalfopenInterval(x)` returns an index `i`; when `x < knots.back()` it
satisfies `knots[i] ≤ x < knots[i+1]`, and when `x = knots.back()` it is the last
index `knots.size() - 1`. -/
theorem indexHalfopenInterval_spec (b : BSplineBasis1D) (hs : b.knots.Sorted (· ≤ ·)) (x : ℚ)
    (h1 : front b.knots ≤ x) (h2 : x ≤ back b.knots) :
    ∃ i, b.indexHalfopenInterval x = Except.ok i
      ∧ (x < back b.knots → InHalfopenKnotInterval b.knots x i)
      ∧ (x = back b.knots → i = (b.knots.length : Int) - 1) := by
  refine ⟨_, indexHalfopenInterval_ok b x h1 h2, ?_, ?_⟩
  · intro hlt
    have hne : b.knots ≠ [] := by
      intro e
      rw [e] at h1 hlt
      have : front ([] : List ℚ) = back [] := rfl
      linarith
    have hU := one_le_upperBound b.knots x hne h1
    have hlen : 0 < b.knots.length := List.length_pos.2 hne
    have hU2 : upperBound b.knots x ≤ b.knots.length - 1 := by
      apply upperBound_le_of_lt_knotAt
      rw [← back_eq_knotAt]
      exact hlt
    have e : ((upperBound b.knots x : Int) - 1).toNat = upperBound b.knots x - 1 := by omega
    refine ⟨by omega, ?_, ?_, ?_⟩
    · rw [e]; omega
    · rw [e]; exact knotAt_le_of_lt_upperBound _ _ _ (by omega)
    · rw [e]
      have e2 : upperBound b.knots x - 1 + 1 = upperBound b.knots x := by omega
      rw [e2]
      exact lt_knotAt_upperBound _ _ (by omega)
  · intro he
    rw [he, upperBound_back b.knots hs]

/-- Claim C8, amended, at the knot vector `{0,0,0,0,1,2,3,3,3,3}` and `x = 1`. -/
theorem indexHalfopenInterval_spec_witness :
    cubicBasis.knots.Sorted (· ≤ ·) ∧ front cubicBasis.knots ≤ 1
      ∧ (1 : ℚ) ≤ back cubicBasis.knots
      ∧ ∃ i, cubicBasis.indexHalfopenInterval 1 = Except.ok i
        ∧ ((1 : ℚ) < back cubicBasis.knots → InHalfopenKnotInterval cubicBasis.knots 1 i)
        ∧ ((1 : ℚ) = back cubicBasis.knots → i = (cubicBasis.knots.length : Int) - 1) :=
  ⟨(isSorted_iff _).1 (by decide), by decide, by decide,
    indexHalfopenInterval_spec cubicBasis ((isSorted_iff _).1 (by decide)) 1
      (by decide) (by decide)⟩

/-- Claim C9 (out-of-domain rejection): on a non-empty knot vector,
`indexHalfopenInterval(x)` throws exactly when `x < knots.front()` or
`x > knots.back()`, and returns an index otherwise. -/
theorem indexHalfopenInterval_fails_iff (b : BSplineBasis1D) (_hne : b.knots ≠ []) (x : ℚ) :
    (b.indexHalfopenInterval x = Except.error Error.outsideKnotInterval
        ↔ (x < front b.knots ∨ x > back b.knots))
      ∧ ((∃ i, b.indexHalfopenInterval x = Except.ok i)
        ↔ ¬ (x < front b.knots ∨ x > back b.knots)) := by
  by_cases h : x < front b.knots ∨ x > back b.knots
  · have e := indexHalfopenInterval_error b x h
    rw [e]
    refine ⟨⟨fun _ => h, fun _ => rfl⟩, ⟨?_, fun hn => absurd h hn⟩⟩
    rintro ⟨i, hi⟩
    cases hi
  · have h1 : front b.knots ≤ x := by
      by_contra hc; exact h (Or.inl (not_le.1 hc))
    have h2 : x ≤ back b.knots := by
      by_contra hc; exact h (Or.inr (not_le.1 hc))
    have e := indexHalfopenInterval_ok b x h1 h2
    rw [e]
    refine ⟨⟨?_, fun hp => absurd hp h⟩, ⟨fun _ => h, fun _ => ⟨_, rfl⟩⟩⟩
    intro hc
    cases hc

/-- Claim C9 at the knot vector `{0,0,0,0,1,2,3,3,3,3}` and the point `x = 4`
above the domain. -/
theorem indexHalfopenInterval_fails_iff_witness :
    cubicBasis.knots ≠ []
      ∧ cubicBasis.indexHalfopenInterval 4 = Except.error Error.outsideKnotInterval :=
  ⟨by decide,
    (indexHalfopenInterval_fails_iff cubicBasis (by decide) 4).1.2 (Or.inr (by decide))⟩

/-! ## The regularity validator -/

theorem count_le_of_absent_from (vec : List ℚ) (a : ℚ) (i : Nat)
    (h : ∀ j, i ≤ j → j < vec.length → knotAt vec j ≠ a) : vec.count a ≤ i := by
  have e : vec.count a = (vec.take i).count a + (vec.drop i).count a := by
    conv_lhs => rw [← List.take_append_drop i vec]
    rw [List.count_append]
  have h0 : (vec.drop i).count a = 0 := by
    apply List.count_eq_zero_of_not_mem
    intro hm
    obtain ⟨j, hj, ej⟩ := exists_knotAt_of_mem _ _ hm
    rw [knotAt_drop] at ej
    rw [List.length_drop] at hj
    exact h (i + j) (by omega) (by omega) ej
  have h1 : (vec.take i).count a ≤ (vec.take i).length := List.count_le_length _ _
  rw [List.length_take] at h1
  omega

theorem count_le_of_absent_upto (vec : List ℚ) (a : ℚ) (i : Nat)
    (h : ∀ j, j < i → j < vec.length → knotAt vec j ≠ a) : vec.count a ≤ vec.length - i := by
  have e : vec.count a = (vec.take i).count a + (vec.drop i).count a := by
    conv_lhs => rw [← List.take_append_drop i vec]
    rw [List.count_append]
  have h0 : (vec.take i).count a = 0 := by
    apply List.count_eq_zero_of_not_mem
    intro hm
    obtain ⟨j, hj, ej⟩ := exists_knotAt_of_mem _ _ hm
    rw [List.length_take] at hj
    rw [knotAt_take _ _ _ (by omega)] at ej
    exact h j (by omega) (by omega) ej
  have h1 : (vec.drop i).count a ≤ (vec.drop i).length := List.count_le_length _ _
  rw [List.length_drop] at h1
  omega

theorem Regular.count_front {p : Nat} {vec : List ℚ} (h : Regular p vec) :
    vec.count (front vec) = p + 1 := by
  have hlen := h.len
  apply le_antisymm (h.mult _)
  exact count_ge_of_run vec (front vec) 0 (p + 1) (by omega) (fun i _ hi => h.first i (by omega))

theorem Regular.count_back {p : Nat} {vec : List ℚ} (h : Regular p vec) :
    vec.count (back vec) = p + 1 := by
  have hlen := h.len
  apply le_antisymm (h.mult _)
  have := count_ge_of_run vec (back vec) (vec.length - p - 1) (p + 1) (by omega)
    (fun i hi1 hi2 => h.last i hi1 (by omega))
  exact this

/-- A knot vector is regular exactly when it is long enough and sorted, its
first and last value occur `p+1` times and no value occurs more often. -/
theorem regular_iff_counts (p : Nat) (vec : List ℚ) :
    Regular p vec ↔
      (2 * (p + 1) ≤ vec.length
        ∧ vec.Sorted (· ≤ ·)
        ∧ vec.count (front vec) = p + 1
        ∧ vec.count (back vec) = p + 1
        ∧ ∀ v, vec.count v ≤ p + 1) := by
  constructor
  · intro h
    exact ⟨h.len, h.sorted, h.count_front, h.count_back, h.mult⟩
  · rintro ⟨hlen, hs, hf, hb, hm⟩
    have hmono := monoUpTo_of_sorted vec hs
    refine ⟨hlen, hs, ?_, ?_, hm⟩
    · intro i hi
      by_contra hne
      have hlt : front vec < knotAt vec i := by
        apply lt_of_le_of_ne _ (Ne.symm hne)
        rw [front_eq_knotAt]
        exact hmono 0 i (by omega) (by omega)
      have := count_le_of_absent_from vec (front vec) i (by
        intro j hj1 hj2 e
        have := hmono i j hj1 hj2
        rw [e] at this
        linarith)
      omega
    · intro i hi1 hi2
      by_contra hne
      have hlt : knotAt vec i < back vec := by
        apply lt_of_le_of_ne _ hne
        rw [back_eq_knotAt]
        exact hmono i _ (by omega) (by omega)
      have := count_le_of_absent_upto vec (back vec) (i + 1) (by
        intro j hj1 hj2 e
        have := hmono j i (by omega) hi2
        rw [e] at this
        linarith)
      omega

/-- Claim C6 (the regularity validator): `isKnotVectorRegular(vec)` returns true
if and only if `vec` has at least `2(p+1)` entries, is sorted non-decreasing, its
first value and its last value each occur exactly `p+1` times in `vec`, and no
value occurs more than `p+1` times. -/
theorem isKnotVectorRegular_iff_spec (b : BSplineBasis1D) (vec : List ℚ) :
    b.isKnotVectorRegular vec = true ↔
      (2 * (b.degree + 1) ≤ vec.length
        ∧ vec.Sorted (· ≤ ·)
        ∧ stdCount vec (front vec) = b.degree + 1
        ∧ stdCount vec (back vec) = b.degree + 1
        ∧ ∀ v, stdCount vec v ≤ b.degree + 1) := by
  unfold stdCount
  exact (isKnotVectorRegular_iff_regular b vec).trans (regular_iff_counts b.degree vec)

/-! ## Construction of the knot vector from samples -/

theorem stdSort_sorted (vec : List ℚ) : (stdSort vec).Sorted (· ≤ ·) :=
  List.sorted_insertionSort (· ≤ ·) vec

theorem mem_stdSort (vec : List ℚ) (y : ℚ) : y ∈ stdSort vec ↔ y ∈ vec :=
  (List.perm_insertionSort (· ≤ ·) vec).mem_iff

theorem uniqueCopyAux_spec (l : List ℚ) :
    ∀ prev, (∀ y ∈ l, prev ≤ y) → l.Sorted (· ≤ ·) →
      (uniqueCopyAux prev l).Sorted (· < ·)
        ∧ (∀ y ∈ uniqueCopyAux prev l, prev < y ∧ y ∈ l)
        ∧ (∀ y ∈ l, y = prev ∨ y ∈ uniqueCopyAux prev l) := by
  induction l with
  | nil =>
    intro prev _ _
    exact ⟨List.sorted_nil, fun y hy => by simp [uniqueCopyAux] at hy,
      fun y hy => by simp at hy⟩
  | cons c rest ih =>
    intro prev hle hs
    have hs' := List.Sorted.of_cons hs
    have hc : prev ≤ c := hle c (List.mem_cons_self _ _)
    rw [uniqueCopyAux]
    by_cases h : prev = c
    · rw [if_pos h]
      obtain ⟨a1, a2, a3⟩ := ih prev (fun y hy => hle y (List.mem_cons_of_mem _ hy)) hs'
      refine ⟨a1, fun y hy => ⟨(a2 y hy).1, List.mem_cons_of_mem _ (a2 y hy).2⟩, ?_⟩
      intro y hy
      rcases List.mem_cons.1 hy with rfl | hy
      · exact Or.inl h.symm
      · exact a3 y hy
    · rw [if_neg h]
      have hlt : prev < c := lt_of_le_of_ne hc h
      obtain ⟨a1, a2, a3⟩ := ih c (fun y hy => List.rel_of_sorted_cons hs y hy) hs'
      refine ⟨?_, ?_, ?_⟩
      · rw [List.sorted_cons]
        exact ⟨fun y hy => (a2 y hy).1, a1⟩
      · intro y hy
        rcases List.mem_cons.1 hy with rfl | hy
        · exact ⟨hlt, List.mem_cons_self _ _⟩
        · exact ⟨lt_trans hlt (a2 y hy).1, List.mem_cons_of_mem _ (a2 y hy).2⟩
      · intro y hy
        rcases List.mem_cons.1 hy with rfl | hy
        · exact Or.inr (List.mem_cons_self _ _)
        · rcases a3 y hy with e | hm
          · exact Or.inr (by rw [e]; exact List.mem_cons_self _ _)
          · exact Or.inr (List.mem_cons_of_mem _ hm)

theorem uniqueCopy_sorted (l : List ℚ) (hs : l.Sorted (· ≤ ·)) :
    (uniqueCopy l).Sorted (· < ·) := by
  cases l with
  | nil => exact List.sorted_nil
  | cons a rest =>
    obtain ⟨a1, a2, _⟩ := uniqueCopyAux_spec rest a
      (fun y hy => List.rel_of_sorted_cons hs y hy) (List.Sorted.of_cons hs)
    rw [uniqueCopy, List.sorted_cons]
    exact ⟨fun y hy => (a2 y hy).1, a1⟩

theorem mem_uniqueCopy (l : List ℚ) (hs : l.Sorted (· ≤ ·)) (y : ℚ) :
    y ∈ uniqueCopy l ↔ y ∈ l := by
  cases l with
  | nil => simp [uniqueCopy]
  | cons a rest =>
    obtain ⟨_, a2, a3⟩ := uniqueCopyAux_spec rest a
      (fun y hy => List.rel_of_sorted_cons hs y hy) (List.Sorted.of_cons hs)
    rw [uniqueCopy]
    constructor
    · intro hy
      rcases List.mem_cons.1 hy with rfl | hy
      · exact List.mem_cons_self _ _
      · exact List.mem_cons_of_mem _ (a2 y hy).2
    · intro hy
      rcases List.mem_cons.1 hy with rfl | hy
      · exact List.mem_cons_self _ _
      · rcases a3 y hy with e | hm
        · rw [e]; exact List.mem_cons_self _ _
        · exact List.mem_cons_of_mem _ hm

/-- The sorted, duplicate-free samples: strictly increasing, with the members of
the input, hence as many as the distinct input values. -/
theorem uniqueX_spec (vec : List ℚ) :
    (uniqueCopy (stdSort vec)).Sorted (· < ·)
      ∧ (∀ y, y ∈ uniqueCopy (stdSort vec) ↔ y ∈ vec)
      ∧ (uniqueCopy (stdSort vec)).length = vec.toFinset.card := by
  have hs := uniqueCopy_sorted _ (stdSort_sorted vec)
  have hm : ∀ y, y ∈ uniqueCopy (stdSort vec) ↔ y ∈ vec := fun y =>
    (mem_uniqueCopy _ (stdSort_sorted vec) y).trans (mem_stdSort vec y)
  refine ⟨hs, hm, ?_⟩
  have hnd : (uniqueCopy (stdSort vec)).Nodup := hs.nodup
  rw [← List.toFinset_card_of_nodup hnd]
  congr 1
  ext y
  rw [List.mem_toFinset, List.mem_toFinset, hm]

theorem strictMono_of_sorted (vec : List ℚ) (h : vec.Sorted (· < ·)) :
    ∀ i j, i < j → j < vec.length → knotAt vec i < knotAt vec j := by
  induction vec with
  | nil => intro i j _ hj; simp at hj
  | cons a l ih =>
    intro i j hij hj
    have hl := ih (List.Sorted.of_cons h)
    cases j with
    | zero => omega
    | succ j =>
      have hj1 : j < l.length := by simpa using hj
      cases i with
      | zero =>
        rw [knotAt_cons_zero, knotAt_cons_succ]
        exact List.rel_of_sorted_cons h _ (knotAt_mem l j hj1)
      | succ i =>
        rw [knotAt_cons_succ, knotAt_cons_succ]
        exact hl i j (by omega) hj1

theorem windowSum_ok (u : List ℚ) (i : Nat) (w : Nat) (h : i + w ≤ u.length) :
    windowSum u i w = Except.ok (∑ r in Finset.range w, knotAt u (i + r)) := by
  induction w with
  | zero => rfl
  | succ w ih =>
    rw [windowSum, ih (by omega), atIdx_ok u (i + w) (by omega), Finset.sum_range_succ]
    rfl

/-- The moving average of window `w` at position `i` of the sequence `t`. -/
theorem movingAverages_ok (u : List ℚ) (w : Nat) (m : Nat) (h : m = 0 ∨ m - 1 + w ≤ u.length) :
    movingAverages u w m = Except.ok ((List.range m).map
      (fun i => (∑ r in Finset.range w, knotAt u (i + r)) / (w : ℚ))) := by
  induction m with
  | zero => rfl
  | succ m ih =>
    have hm : m + w ≤ u.length := by omega
    rw [movingAverages, ih (by omega), windowSum_ok u m w hm, List.range_succ, List.map_append]
    rfl

theorem sorted_replicate (n : Nat) (a : ℚ) : (List.replicate n a).Sorted (· ≤ ·) := by
  induction n with
  | zero => exact List.sorted_nil
  | succ n ih =>
    rw [List.replicate_succ, List.sorted_cons]
    refine ⟨?_, ih⟩
    intro c hc
    rw [List.eq_of_mem_replicate hc]

theorem front_replicate_append (n : Nat) (a : ℚ) (l : List ℚ) :
    front (List.replicate (n + 1) a ++ l) = a := by
  simp [front, List.replicate_succ]

theorem back_append_replicate (n : Nat) (a : ℚ) (l : List ℚ) :
    back (l ++ List.replicate (n + 1) a) = a := by
  unfold back
  rw [List.replicate_succ', ← List.append_assoc]
  simp

/-- The window sums of a strictly increasing sequence: every average lies
strictly between the first and the last value and the averages increase. -/
theorem window_average_bounds (t : Nat → ℚ) (n w : Nat) (hw : 2 ≤ w)
    (ht : ∀ i j, i < j → j < n → t i < t j) :
    (∀ i, i + w ≤ n → t 0 < (∑ r in Finset.range w, t (i + r)) / (w : ℚ)
        ∧ (∑ r in Finset.range w, t (i + r)) / (w : ℚ) < t (n - 1))
      ∧ (∀ i j, i < j → j + w ≤ n →
        (∑ r in Finset.range w, t (i + r)) / (w : ℚ)
          < (∑ r in Finset.range w, t (j + r)) / (w : ℚ)) := by
  have hwpos : (0 : ℚ) < (w : ℚ) := by
    have : 0 < w := by omega
    exact_mod_cast this
  have hle : ∀ i j, i ≤ j → j < n → t i ≤ t j := by
    intro i j hij hj
    rcases Nat.lt_or_ge i j with h | h
    · exact le_of_lt (ht i j h hj)
    · have : i = j := by omega
      rw [this]
  have hconst : ∀ c : ℚ, ∑ _r in Finset.range w, c = c * (w : ℚ) := by
    intro c
    rw [Finset.sum_const, Finset.card_range, nsmul_eq_mul, mul_comm]
  refine ⟨?_, ?_⟩
  · intro i hi
    constructor
    · rw [lt_div_iff₀ hwpos, ← hconst]
      apply Finset.sum_lt_sum
      · intro r hr
        rw [Finset.mem_range] at hr
        exact hle 0 (i + r) (by omega) (by omega)
      · exact ⟨1, Finset.mem_range.2 (by omega), ht 0 (i + 1) (by omega) (by omega)⟩
    · rw [div_lt_iff₀ hwpos, ← hconst]
      apply Finset.sum_lt_sum
      · intro r hr
        rw [Finset.mem_range] at hr
        exact hle (i + r) (n - 1) (by omega) (by omega)
      · exact ⟨0, Finset.mem_range.2 (by omega), ht (i + 0) (n - 1) (by omega) (by omega)⟩
  · intro i j hij hj
    apply div_lt_div_of_pos_right _ hwpos
    apply Finset.sum_lt_sum_of_nonempty
    · exact ⟨0, Finset.mem_range.2 (by omega)⟩
    · intro r hr
      rw [Finset.mem_range] at hr
      exact ht (i + r) (j + r) (by omega) (by omega)

/-- The knot vector that `knotVectorMovingAverage` assembles from strictly
increasing samples `u` is regular. -/
theorem movingAverage_knots_spec (b : BSplineBasis1D) (u : List ℚ)
    (hp : 1 ≤ b.degree) (hu : u.Sorted (· < ·)) (hn : b.degree + 1 ≤ u.length)
    (interior : List ℚ)
    (hint : interior = (List.range (u.length - (b.degree - 1) - 2)).map
      (fun i => (∑ r in Finset.range (b.degree - 1 + 3), knotAt u (i + r))
        / ((b.degree - 1 + 3 : Nat) : ℚ))) :
    b.isKnotVectorRegular (List.replicate (b.degree + 1) (front u) ++ interior
        ++ List.replicate (b.degree + 1) (back u)) = true
      ∧ (List.replicate (b.degree + 1) (front u) ++ interior
        ++ List.replicate (b.degree + 1) (back u)).length = u.length + b.degree + 1 := by
  have hst := strictMono_of_sorted u hu
  obtain ⟨hb1, hb2⟩ := window_average_bounds (knotAt u) u.length (b.degree - 1 + 3) (by omega) hst
  rw [← front_eq_knotAt, ← back_eq_knotAt] at hb1
  have hlen_int : interior.length = u.length - (b.degree - 1) - 2 := by
    rw [hint, List.length_map, List.length_range]
  have hmem : ∀ y ∈ interior, front u < y ∧ y < back u := by
    intro y hy
    rw [hint, List.mem_map] at hy
    obtain ⟨i, hi, rfl⟩ := hy
    rw [List.mem_range] at hi
    exact hb1 i (by omega)
  have hsorted_int : interior.Sorted (· < ·) := by
    rw [hint]
    unfold List.Sorted
    rw [List.pairwise_map]
    apply List.Pairwise.imp_of_mem _ (List.pairwise_lt_range _)
    intro i j hi hj hij
    rw [List.mem_range] at hi hj
    exact hb2 i j hij (by omega)
  have hlohi : front u < back u := by
    rw [front_eq_knotAt, back_eq_knotAt]
    exact hst 0 (u.length - 1) (by omega) (by omega)
  have hlen : (List.replicate (b.degree + 1) (front u) ++ interior
      ++ List.replicate (b.degree + 1) (back u)).length = u.length + b.degree + 1 := by
    rw [List.length_append, List.length_append, List.length_replicate, List.length_replicate,
      hlen_int]
    omega
  refine ⟨?_, hlen⟩
  rw [isKnotVectorRegular_iff_checks]
  have hfront : front (List.replicate (b.degree + 1) (front u) ++ interior
      ++ List.replicate (b.degree + 1) (back u)) = front u := by
    rw [List.append_assoc, front_replicate_append]
  have hback : back (List.replicate (b.degree + 1) (front u) ++ interior
      ++ List.replicate (b.degree + 1) (back u)) = back u := back_append_replicate _ _ _
  refine ⟨by rw [hlen]; omega, ?_, ?_, ?_, ?_⟩
  · rw [hfront, List.append_assoc, List.take_left' (List.length_replicate _ _),
      List.count_replicate_self]
  · rw [hback, hlen, List.drop_left' (by
      rw [List.length_append, List.length_replicate, hlen_int]; omega),
      List.count_replicate_self]
  · unfold List.Sorted
    rw [List.pairwise_append, List.pairwise_append]
    refine ⟨⟨sorted_replicate _ _, hsorted_int.imp (fun h => le_of_lt h), ?_⟩,
      sorted_replicate _ _, ?_⟩
    · intro a ha c hc
      rw [List.eq_of_mem_replicate ha]
      exact le_of_lt (hmem c hc).1
    · intro a ha c hc
      rw [List.eq_of_mem_replicate hc]
      rcases List.mem_append.1 ha with ha | ha
      · rw [List.eq_of_mem_replicate ha]
        exact le_of_lt hlohi
      · exact le_of_lt (hmem a ha).2
  · intro t _
    rw [List.count_append, List.count_append, List.count_replicate, List.count_replicate]
    have hint1 : interior.count t ≤ 1 := List.nodup_iff_count_le_one.1 hsorted_int.nodup t
    by_cases h1 : front u = t
    · have h2 : ¬ back u = t := by
        intro e; rw [← h1] at e; linarith
      have h3 : interior.count t = 0 := by
        apply List.count_eq_zero_of_not_mem
        intro hm
        have := (hmem t hm).1
        rw [h1] at this
        exact lt_irrefl _ this
      simp [h1, h2, h3]
    · by_cases h2 : back u = t
      · have h3 : interior.count t = 0 := by
          apply List.count_eq_zero_of_not_mem
          intro hm
          have := (hmem t hm).2
          rw [h2] at this
          exact lt_irrefl _ this
        simp [h1, h2, h3]
      · simp [h1, h2]
        omega

theorem knotVectorMovingAverage_ok (b : BSplineBasis1D) (x : List ℚ) (hp : 1 ≤ b.degree)
    (hn : b.degree + 1 ≤ (uniqueCopy (stdSort x)).length) :
    b.knotVectorMovingAverage x
      = Except.ok (List.replicate (b.degree + 1) (front (uniqueCopy (stdSort x)))
        ++ (List.range ((uniqueCopy (stdSort x)).length - (b.degree - 1) - 2)).map
          (fun i => (∑ r in Finset.range (b.degree - 1 + 3),
            knotAt (uniqueCopy (stdSort x)) (i + r)) / ((b.degree - 1 + 3 : Nat) : ℚ))
        ++ List.replicate (b.degree + 1) (back (uniqueCopy (stdSort x)))) := by
  unfold BSplineBasis1D.knotVectorMovingAverage
  dsimp only
  rw [if_neg (by omega), movingAverages_ok _ _ _ (by omega)]
  rfl

/-- The samples `{0,1,2,3,4,5}` with degree 3 give the knot vector
`{0,0,0,0,2,3,5,5,5,5}`. -/
theorem knotVectorMovingAverage_samples :
    BSplineBasis1D.knotVectorMovingAverage ⟨3, (3 + 1) + 2 * 3 + 1, []⟩ [0, 1, 2, 3, 4, 5]
      = Except.ok [0, 0, 0, 0, 2, 3, 5, 5, 5, 5] := by
  have hu : uniqueCopy (stdSort [0, 1, 2, 3, 4, 5]) = [0, 1, 2, 3, 4, 5] := by decide
  have hk := knotVectorMovingAverage_ok ⟨3, (3 + 1) + 2 * 3 + 1, []⟩ [0, 1, 2, 3, 4, 5]
    (by decide) (by rw [hu]; decide)
  rw [hu] at hk
  have hv : (List.replicate (3 + 1) (front ([0, 1, 2, 3, 4, 5] : List ℚ))
      ++ (List.range (([0, 1, 2, 3, 4, 5] : List ℚ).length - (3 - 1) - 2)).map
        (fun i => (∑ r in Finset.range (3 - 1 + 3),
          knotAt ([0, 1, 2, 3, 4, 5] : List ℚ) (i + r)) / ((3 - 1 + 3 : Nat) : ℚ))
      ++ List.replicate (3 + 1) (back ([0, 1, 2, 3, 4, 5] : List ℚ)))
      = [0, 0, 0, 0, 2, 3, 5, 5, 5, 5] := by
    simp [front, back, knotAt, Finset.sum_range_succ, List.range_succ, List.replicate]
    norm_num
  rw [hk]
  exact congrArg Except.ok hv

/-- Claim C7, amended (construction from samples in exact arithmetic): with
the operations on `double` taken as exact, without rounding and overflow, for
every degree `p ≥ 1` and every list of samples with `n ≥ p+1` distinct values the
constructor succeeds; the
knot vector it stores is the one `knotVectorMovingAverage` returns, it is
regular, has exactly `n+p+1` knots, is sorted, and its first `p+1` knots equal
the smallest sample and its last `p+1` knots the largest sample. -/
theorem construct_from_samples (degree : Nat) (hp : 1 ≤ degree) (x : List ℚ)
    (hn : degree + 1 ≤ x.toFinset.card) :
    ∃ b, construct x degree false = Except.ok b
      ∧ b.degree = degree
      ∧ b.knotVectorMovingAverage x = Except.ok b.knots
      ∧ b.isKnotVectorRegular b.knots = true
      ∧ b.knots.length = x.toFinset.card + degree + 1
      ∧ b.knots.Sorted (· ≤ ·)
      ∧ ∃ lo hi, lo ∈ x ∧ hi ∈ x ∧ (∀ y ∈ x, lo ≤ y ∧ y ≤ hi)
        ∧ b.knots.take (degree + 1) = List.replicate (degree + 1) lo
        ∧ b.knots.drop (b.knots.length - (degree + 1)) = List.replicate (degree + 1) hi := by
  obtain ⟨hus, hum, hul⟩ := uniqueX_spec x
  have hst := strictMono_of_sorted _ hus
  have hlenU : degree + 1 ≤ (uniqueCopy (stdSort x)).length := by rw [hul]; exact hn
  let b0 : BSplineBasis1D := ⟨degree, (degree + 1) + 2 * degree + 1, []⟩
  have hk := knotVectorMovingAverage_ok b0 x hp hlenU
  obtain ⟨hreg, hlen⟩ := movingAverage_knots_spec b0 (uniqueCopy (stdSort x)) hp hus hlenU _ rfl
  have hd : b0.degree = degree := rfl
  rw [hd] at hk hreg hlen
  refine ⟨⟨degree, (degree + 1) + 2 * degree + 1,
    List.replicate (degree + 1) (front (uniqueCopy (stdSort x)))
      ++ (List.range ((uniqueCopy (stdSort x)).length - (degree - 1) - 2)).map
        (fun i => (∑ r in Finset.range (degree - 1 + 3),
          knotAt (uniqueCopy (stdSort x)) (i + r)) / ((degree - 1 + 3 : Nat) : ℚ))
      ++ List.replicate (degree + 1) (back (uniqueCopy (stdSort x)))⟩, ?_, rfl, hk, hreg, ?_, ?_, ?_⟩
  · unfold BSplineBasis1D.construct
    dsimp only
    rw [if_neg (by simp), hk]
    simp only [bind, Except.bind]
    rw [if_neg (by omega)]
    have hreg' : BSplineBasis1D.isKnotVectorRegular
        { degree := degree, targetNumBasisfunctions := degree + 1 + 2 * degree + 1,
          knots := List.replicate (degree + 1) (front (uniqueCopy (stdSort x)))
            ++ (List.range ((uniqueCopy (stdSort x)).length - (degree - 1) - 2)).map
              (fun i => (∑ r in Finset.range (degree - 1 + 3),
                knotAt (uniqueCopy (stdSort x)) (i + r)) / ((degree - 1 + 3 : Nat) : ℚ))
            ++ List.replicate (degree + 1) (back (uniqueCopy (stdSort x))) }
        (List.replicate (degree + 1) (front (uniqueCopy (stdSort x)))
            ++ (List.range ((uniqueCopy (stdSort x)).length - (degree - 1) - 2)).map
              (fun i => (∑ r in Finset.range (degree - 1 + 3),
                knotAt (uniqueCopy (stdSort x)) (i + r)) / ((degree - 1 + 3 : Nat) : ℚ))
            ++ List.replicate (degree + 1) (back (uniqueCopy (stdSort x)))) = true := hreg
    rw [hreg']
    rfl
  · rw [hlen, hul]
  · exact ((isKnotVectorRegular_iff_checks _ _).1 hreg).2.2.2.1
  · refine ⟨front (uniqueCopy (stdSort x)), back (uniqueCopy (stdSort x)), ?_, ?_, ?_, ?_, ?_⟩
    · rw [← hum, front_eq_knotAt]
      exact knotAt_mem _ _ (by omega)
    · rw [← hum, back_eq_knotAt]
      exact knotAt_mem _ _ (by omega)
    · intro y hy
      obtain ⟨j, hj, e⟩ := exists_knotAt_of_mem _ y ((hum y).2 hy)
      rw [front_eq_knotAt, back_eq_knotAt, ← e]
      constructor
      · rcases Nat.eq_zero_or_pos j with h0 | h0
        · rw [h0]
        · exact le_of_lt (hst 0 j h0 hj)
      · rcases Nat.lt_or_ge j ((uniqueCopy (stdSort x)).length - 1) with h0 | h0
        · exact le_of_lt (hst j _ h0 (by omega))
        · have : j = (uniqueCopy (stdSort x)).length - 1 := by omega
          rw [this]
    · show List.take (degree + 1) (_ ++ _ ++ _) = _
      rw [List.append_assoc, List.take_left' (List.length_replicate _ _)]
    · show List.drop (List.length (_ ++ _ ++ _) - (degree + 1)) (_ ++ _ ++ _) = _
      rw [hlen, List.drop_left' (by
        rw [List.length_append, List.length_replicate, List.length_map, List.length_range]
        omega)]

/-- Claim C7, amended, at the samples `{0,1,2,3,4,5}` with degree 3. -/
theorem construct_from_samples_witness :
    1 ≤ 3 ∧ 3 + 1 ≤ ([0, 1, 2, 3, 4, 5] : List ℚ).toFinset.card
      ∧ ∃ b, construct [0, 1, 2, 3, 4, 5] 3 false = Except.ok b
        ∧ b.degree = 3
        ∧ b.knotVectorMovingAverage [0, 1, 2, 3, 4, 5] = Except.ok b.knots
        ∧ b.isKnotVectorRegular b.knots = true
        ∧ b.knots.length = ([0, 1, 2, 3, 4, 5] : List ℚ).toFinset.card + 3 + 1
        ∧ b.knots.Sorted (· ≤ ·)
        ∧ ∃ lo hi, lo ∈ ([0, 1, 2, 3, 4, 5] : List ℚ) ∧ hi ∈ ([0, 1, 2, 3, 4, 5] : List ℚ)
          ∧ (∀ y ∈ ([0, 1, 2, 3, 4, 5] : List ℚ), lo ≤ y ∧ y ≤ hi)
          ∧ b.knots.take (3 + 1) = List.replicate (3 + 1) lo
          ∧ b.knots.drop (b.knots.length - (3 + 1)) = List.replicate (3 + 1) hi :=
  ⟨by decide, by decide, construct_from_samples 3 (by decide) [0, 1, 2, 3, 4, 5] (by decide)⟩

/-! ## The basis matrices -/

theorem basisMatrixRow_ok (b : BSplineBasis1D) (x : ℚ) (u k : Nat) (diff : Bool) (i : Nat)
    (h1 : u + 1 + i < b.knots.length) (h2 : k ≤ u + 1 + i) :
    b.basisMatrixRow x u k diff i = Except.ok (basisRowT (knotAt b.knots) x u k diff i) := by
  unfold BSplineBasis1D.basisMatrixRow basisRowT
  unfold atIdxSub
  rw [atIdx_ok _ _ h1, if_neg (show ¬ (u + 1 + i < k) by omega),
    atIdx_ok _ (u + 1 + i - k) (by omega)]
  simp only [bind, Except.bind]
  split_ifs <;> rfl

theorem basisMatrixRows_ok (b : BSplineBasis1D) (x : ℚ) (u k : Nat) (diff : Bool) (r : Nat)
    (h1 : u + r < b.knots.length) (h2 : k ≤ u + 1) :
    b.basisMatrixRows x u k diff r
      = Except.ok ((List.range r).map (basisRowT (knotAt b.knots) x u k diff)) := by
  induction r with
  | zero => rfl
  | succ r ih =>
    rw [BSplineBasis1D.basisMatrixRows, ih (by omega),
      basisMatrixRow_ok b x u k diff r (by omega) (by omega), List.range_succ, List.map_append]
    rfl

theorem buildBasisMatrix_ok (b : BSplineBasis1D) (x : ℚ) (u k : Nat) (diff : Bool)
    (hk1 : 1 ≤ k) (hk2 : k ≤ b.degree) (h1 : u + k < b.knots.length) (h2 : k ≤ u + 1) :
    b.buildBasisMatrix x u k diff = Except.ok (basisMatrixT (knotAt b.knots) x u k diff) := by
  unfold BSplineBasis1D.buildBasisMatrix basisMatrixT
  rw [if_neg (by simp; omega), basisMatrixRows_ok b x u k diff k h1 h2]
  rfl

theorem buildBasisMatrix_error (b : BSplineBasis1D) (x : ℚ) (u k : Nat) (diff : Bool)
    (hk : ¬ (1 ≤ k ∧ k ≤ b.degree)) :
    b.buildBasisMatrix x u k diff = Except.error Error.incorrectInputParameters := by
  unfold BSplineBasis1D.buildBasisMatrix
  rw [if_pos hk]

theorem basisMatrixT_rows (t : Nat → ℚ) (x : ℚ) (u k : Nat) (diff : Bool) :
    (basisMatrixT t x u k diff).rows = k := by
  simp [basisMatrixT, bidiagonal]

theorem basisMatrixT_cols (t : Nat → ℚ) (x : ℚ) (u k : Nat) (diff : Bool) :
    (basisMatrixT t x u k diff).cols = k + 1 := by
  simp [basisMatrixT, bidiagonal]

theorem basisMatrixT_coeff (t : Nat → ℚ) (x : ℚ) (u k : Nat) (diff : Bool) (i j : Nat) :
    (basisMatrixT t x u k diff).coeff i j
      = if i < k then
          (if j = i then (basisRowT t x u k diff i).1
            else if j = i + 1 then (basisRowT t x u k diff i).2 else 0)
        else 0 := by
  unfold basisMatrixT bidiagonal
  dsimp only
  by_cases h : i < k
  · rw [if_pos h, List.getElem?_eq_getElem (by simp [h])]
    simp
  · rw [if_neg h, List.getElem?_eq_none (by simp; omega)]

theorem productLoop_ok (b : BSplineBasis1D) (x : ℚ) (u : Nat) (diff : Bool) (levels : List Nat) :
    ∀ B, (∀ k ∈ levels, 1 ≤ k ∧ k ≤ b.degree ∧ u + k < b.knots.length ∧ k ≤ u + 1) →
      b.productLoop x u diff levels B
        = Except.ok (levels.foldl
          (fun B k => B.mul (basisMatrixT (knotAt b.knots) x u k diff)) B) := by
  induction levels with
  | nil => intro B _; rfl
  | cons k rest ih =>
    intro B h
    obtain ⟨a1, a2, a3, a4⟩ := h k (List.mem_cons_self _ _)
    rw [BSplineBasis1D.productLoop, buildBasisMatrix_ok b x u k diff a1 a2 a3 a4]
    simp only [bind, Except.bind]
    rw [ih _ (fun k' hk' => h k' (List.mem_cons_of_mem _ hk'))]
    rfl

theorem foldl_mul_cols (t : Nat → ℚ) (xs : Nat → ℚ) (u : Nat) (diff : Bool) (a n : Nat) :
    ∀ B : SparseMatrix, B.cols = a + 1 →
      (((List.range n).map (fun i => a + 1 + i)).foldl
        (fun B k => B.mul (basisMatrixT t (xs k) u k diff)) B).cols = a + n + 1 := by
  induction n with
  | zero => intro B hB; simpa using hB
  | succ n ih =>
    intro B hB
    rw [List.range_succ, List.map_append, List.foldl_append]
    simp only [List.map_cons, List.map_nil, List.foldl_cons, List.foldl_nil, SparseMatrix.mul,
      basisMatrixT_cols]
    omega

theorem foldl_mul_rows (t : Nat → ℚ) (xs : Nat → ℚ) (u : Nat) (diff : Bool) (levels : List Nat) :
    ∀ B : SparseMatrix,
      (levels.foldl (fun B k => B.mul (basisMatrixT t (xs k) u k diff)) B).rows = B.rows := by
  induction levels with
  | nil => intro B; rfl
  | cons k rest ih =>
    intro B
    rw [List.foldl_cons, ih]
    rfl

/-! ## `evaluate` and `evaluateDerivative` after the boundary correction -/

/-- The result of `evaluate` when the corrected point lies in the half-open domain. -/
theorem evaluate_regular_hack (b : BSplineBasis1D) (nextafter : ℚ → ℚ)
    (hreg : Regular b.degree b.knots) (x : ℚ)
    (h1 : front b.knots ≤ b.supportHack nextafter x)
    (h2 : b.supportHack nextafter x < back b.knots) :
    b.evaluate nextafter x = Except.ok ⟨b.getNumBasisFunctions,
      (List.range (b.degree + 1)).map (fun j =>
        (((upperBound b.knots (b.supportHack nextafter x) - 1 - b.degree + j : Nat) : Int),
          bspl (knotAt b.knots) (b.supportHack nextafter x)
            (upperBound b.knots (b.supportHack nextafter x) - 1 - b.degree + j) b.degree))⟩ := by
  obtain ⟨hb1, hb2⟩ := hreg.upperBound_bounds _ h1 h2
  unfold BSplineBasis1D.evaluate
  dsimp only
  rw [indexSupportedBasisfunctions_regular b hreg _ h1 h2]
  simp only [bind, Except.bind]
  rw [evaluateLoop_ok]
  · simp only [pure, Except.pure, List.map_map]
    rfl
  · intro i hi
    rw [List.mem_map] at hi
    obtain ⟨j, hj, rfl⟩ := hi
    rw [List.mem_range] at hj
    rw [Int.toNat_ofNat]
    omega

theorem derivativeRowT_cols (t : Nat → ℚ) (x : ℚ) (u p r : Nat) (hr : r ≤ p) :
    (derivativeRowT t x u p r).cols = p + 1 := by
  unfold derivativeRowT SparseMatrix.scale
  dsimp only
  have e : (fun i : Nat => i + 1) = fun i => 0 + 1 + i := by
    funext i; omega
  rw [foldl_mul_cols t (fun _ => x) u true (p - r) r _ (by
    rw [e, foldl_mul_cols t (fun _ => x) u false 0 (p - r) _ rfl]; omega)]
  omega

/-- The result of `evaluateDerivative` for an order below the degree when the
corrected point lies in the half-open domain. -/
theorem evaluateDerivative_regular (b : BSplineBasis1D) (nextafter : ℚ → ℚ)
    (hreg : Regular b.degree b.knots) (x : ℚ)
    (h1 : front b.knots ≤ b.supportHack nextafter x)
    (h2 : b.supportHack nextafter x < back b.knots) (r : Nat) (hr : r < b.degree) :
    b.evaluateDerivative nextafter x (r : Int) = Except.ok ⟨b.getNumBasisFunctions,
      scatterRow ((upperBound b.knots (b.supportHack nextafter x) : Int) - 1 - (b.degree : Int))
        (derivativeRowT (knotAt b.knots) (b.supportHack nextafter x)
          (upperBound b.knots (b.supportHack nextafter x) - 1) b.degree r)⟩ := by
  obtain ⟨hb1, hb2⟩ := hreg.upperBound_bounds _ h1 h2
  unfold BSplineBasis1D.evaluateDerivative
  dsimp only
  rw [if_neg (by omega), indexHalfopenInterval_ok b _ h1 (le_of_lt h2)]
  have e1 : ((b.degree : Int) - (r : Int)).toNat = b.degree - r := by omega
  have e2 : ((b.degree : Int) - (r : Int) + 1).toNat = b.degree - r + 1 := by omega
  have e4 : ((r : Nat) : Int).toNat = r := by omega
  have e3 : ((upperBound b.knots (b.supportHack nextafter x) : Int) - 1).toNat
      = upperBound b.knots (b.supportHack nextafter x) - 1 := by omega
  simp only [bind, Except.bind, e1, e2, e3, e4]
  rw [productLoop_ok]
  · dsimp only
    rw [productLoop_ok]
    · rfl
    · intro k hk
      rw [List.mem_map] at hk
      obtain ⟨i, hi, rfl⟩ := hk
      rw [List.mem_range] at hi
      omega
  · intro k hk
    rw [List.mem_map] at hk
    obtain ⟨i, hi, rfl⟩ := hk
    rw [List.mem_range] at hi
    omega

theorem evaluateDerivative_saturated (b : BSplineBasis1D) (nextafter : ℚ → ℚ) (x : ℚ) (r : Int)
    (hr : (b.degree : Int) ≤ r) :
    b.evaluateDerivative nextafter x r = Except.ok ⟨b.getNumBasisFunctions, []⟩ := by
  unfold BSplineBasis1D.evaluateDerivative
  dsimp only
  rw [if_pos hr]
  rfl

theorem length_nonzeros_le (v : SparseVector) : v.nonzeros.length ≤ v.entries.length :=
  List.length_filter_le _ _

theorem mem_of_mem_nonzeros (v : SparseVector) (e : Int × ℚ) (h : e ∈ v.nonzeros) :
    e ∈ v.entries := (List.mem_filter.1 h).1

/-- Claim C4, refuted as stated: on the regular knot vector `{0,0,1,1}` of
degree 1, at `x = 1 = knots.back()` (with `nextafter(1) = 1 - 2^-53`),
`evaluate(x)` stores a nonzero value at index 1, while
`indexSupportedBasisfunctions(x)` is `{2, 3}`. -/
theorem evaluate_support_counterexample :
    linearBasis.isKnotVectorRegular linearBasis.knots = true
      ∧ front linearBasis.knots ≤ 1 ∧ (1 : ℚ) ≤ back linearBasis.knots
      ∧ ∃ sv l, linearBasis.evaluate (fun y => y - 1 / 2 ^ 53) 1 = Except.ok sv
        ∧ linearBasis.indexSupportedBasisfunctions 1 = Except.ok l
        ∧ ∃ e ∈ sv.nonzeros, e.1 ∉ l := by
  have hreg : linearBasis.isKnotVectorRegular linearBasis.knots = true := by decide
  have hx : linearBasis.supportHack (fun y => y - 1 / 2 ^ 53) 1 = 1 - 1 / 2 ^ 53 := by
    norm_num [BSplineBasis1D.supportHack, back, linearBasis]
  have hU : upperBound linearBasis.knots (1 - 1 / 2 ^ 53) = 2 := by
    norm_num [upperBound, linearBasis, List.takeWhile]
  have hv : bspl (knotAt linearBasis.knots) (1 - 1 / 2 ^ 53) 1 1 = 1 - 1 / 2 ^ 53 := by
    norm_num [bspl, knotAt, linearBasis, BSplineBasis1D.deBoorCoxCoeff]
  have hev := evaluate_regular_hack linearBasis (fun y => y - 1 / 2 ^ 53)
    (regular_of_isKnotVectorRegular _ _ hreg) 1
    (by rw [hx]; norm_num [front, linearBasis]) (by rw [hx]; norm_num [back, linearBasis])
  rw [hx, hU] at hev
  refine ⟨hreg, by decide, by decide, _, [2, 3], hev, rfl,
    ⟨(((1 : Nat) : Int), (1 - 1 / 2 ^ 53 : ℚ)), ?_, ?_⟩⟩
  · unfold SparseVector.nonzeros
    rw [List.mem_filter]
    constructor
    · rw [List.mem_map]
      refine ⟨1, by simp [linearBasis], ?_⟩
      have hd : linearBasis.degree = 1 := rfl
      rw [hd, hv]
    · norm_num
  · decide

/-- Claim C4, amended: on a regular knot vector, for every `x` in the closed
domain and every derivative order `r ≥ 0`, `evaluate(x)` and
`evaluateDerivative(x, r)` return vectors with at most `p+1` nonzero entries,
and the index of every nonzero entry is a member of
`indexSupportedBasisfunctions(x')`, where `x'` is `x` after the boundary
correction `supportHack` (`x' = x` when `x < knots.back()`); the value
`nextafter(knots.back())` is assumed to lie in the half-open domain. -/
theorem evaluate_local_support (b : BSplineBasis1D) (nextafter : ℚ → ℚ)
    (hreg : b.isKnotVectorRegular b.knots = true) (x : ℚ)
    (h1 : front b.knots ≤ x) (h2 : x ≤ back b.knots)
    (hna : front b.knots ≤ nextafter (back b.knots)
      ∧ nextafter (back b.knots) < back b.knots)
    (r : Int) (hr : 0 ≤ r) :
    ∃ l sv dv, b.indexSupportedBasisfunctions (b.supportHack nextafter x) = Except.ok l
      ∧ b.evaluate nextafter x = Except.ok sv
      ∧ b.evaluateDerivative nextafter x r = Except.ok dv
      ∧ sv.nonzeros.length ≤ b.degree + 1 ∧ dv.nonzeros.length ≤ b.degree + 1
      ∧ NonzerosWithin sv l ∧ NonzerosWithin dv l
      ∧ (x < back b.knots → b.supportHack nextafter x = x) := by
  have hr' := regular_of_isKnotVectorRegular b b.knots hreg
  have hx1 : front b.knots ≤ b.supportHack nextafter x
      ∧ b.supportHack nextafter x < back b.knots := by
    unfold BSplineBasis1D.supportHack
    by_cases he : x = back b.knots
    · rw [if_pos he, he]; exact hna
    · rw [if_neg he]; exact ⟨h1, lt_of_le_of_ne h2 he⟩
  obtain ⟨g1, g2⟩ := hx1
  obtain ⟨hb1, hb2⟩ := hr'.upperBound_bounds _ g1 g2
  have hsv := evaluate_regular_hack b nextafter hr' x g1 g2
  have hl := indexSupportedBasisfunctions_regular b hr' _ g1 g2
  have hlast : ∀ hne : x < back b.knots, b.supportHack nextafter x = x :=
    fun hne => supportHack_of_ne b nextafter x (ne_of_lt hne)
  have hsvlen : ∀ sv : SparseVector, sv.entries.length ≤ b.degree + 1 →
      sv.nonzeros.length ≤ b.degree + 1 := fun sv h => le_trans (length_nonzeros_le sv) h
  by_cases hsat : (b.degree : Int) ≤ r
  · refine ⟨_, _, _, hl, hsv, evaluateDerivative_saturated b nextafter x r hsat,
      hsvlen _ (by simp), hsvlen _ (by simp), ?_, ?_, hlast⟩
    · intro e he
      have := mem_of_mem_nonzeros _ e he
      simp only [List.mem_map] at this ⊢
      obtain ⟨j, hj, rfl⟩ := this
      exact ⟨j, hj, rfl⟩
    · intro e he
      have := mem_of_mem_nonzeros _ e he
      simp at this
  · obtain ⟨r', rfl⟩ : ∃ r' : Nat, r = (r' : Int) := ⟨r.toNat, by omega⟩
    have hdv := evaluateDerivative_regular b nextafter hr' x g1 g2 r' (by omega)
    have hcols := derivativeRowT_cols (knotAt b.knots) (b.supportHack nextafter x)
      (upperBound b.knots (b.supportHack nextafter x) - 1) b.degree r' (by omega)
    refine ⟨_, _, _, hl, hsv, hdv, hsvlen _ (by simp), hsvlen _ (by simp [scatterRow, hcols]),
      ?_, ?_, hlast⟩
    · intro e he
      have := mem_of_mem_nonzeros _ e he
      simp only [List.mem_map] at this ⊢
      obtain ⟨j, hj, rfl⟩ := this
      exact ⟨j, hj, rfl⟩
    · intro e he
      have := mem_of_mem_nonzeros _ e he
      simp only [scatterRow, hcols, List.mem_map, List.mem_range] at this ⊢
      obtain ⟨j, hj, rfl⟩ := this
      refine ⟨j, hj, ?_⟩
      dsimp only
      omega

/-- Claim C4, amended, at the knot vector `{0,0,0,0,1,2,3,3,3,3}`, the boundary
point `x = 3`, `nextafter(3) = 3 - 2^-53` and the first derivative. -/
theorem evaluate_local_support_witness :
    cubicBasis.isKnotVectorRegular cubicBasis.knots = true
      ∧ ∃ l sv dv,
        cubicBasis.indexSupportedBasisfunctions
            (cubicBasis.supportHack (fun y => y - 1 / 2 ^ 53) 3) = Except.ok l
        ∧ cubicBasis.evaluate (fun y => y - 1 / 2 ^ 53) 3 = Except.ok sv
        ∧ cubicBasis.evaluateDerivative (fun y => y - 1 / 2 ^ 53) 3 1 = Except.ok dv
        ∧ sv.nonzeros.length ≤ cubicBasis.degree + 1
        ∧ dv.nonzeros.length ≤ cubicBasis.degree + 1
        ∧ NonzerosWithin sv l ∧ NonzerosWithin dv l
        ∧ ((3 : ℚ) < back cubicBasis.knots
          → cubicBasis.supportHack (fun y => y - 1 / 2 ^ 53) 3 = 3) :=
  ⟨by decide,
    evaluate_local_support cubicBasis (fun y => y - 1 / 2 ^ 53) (by decide) 3
      (by decide) (by decide) (by norm_num [front, back, cubicBasis]) 1 (by decide)⟩

/-! ## Knot insertion: the extended knot vector -/

theorem knotAt_append_left (l1 l2 : List ℚ) (i : Nat) (h : i < l1.length) :
    knotAt (l1 ++ l2) i = knotAt l1 i := by
  unfold knotAt
  rw [List.getElem?_append_left h]

theorem knotAt_append_right (l1 l2 : List ℚ) (i : Nat) (h : l1.length ≤ i) :
    knotAt (l1 ++ l2) i = knotAt l2 (i - l1.length) := by
  unfold knotAt
  rw [List.getElem?_append_right h]

theorem insertLoop_eq (pos : Nat) (tau : ℚ) (m : Nat) :
    ∀ vec : List ℚ, pos ≤ vec.length →
      insertLoop pos tau m vec = vec.take pos ++ List.replicate m tau ++ vec.drop pos := by
  induction m with
  | zero =>
    intro vec _
    simp [insertLoop]
  | succ m ih =>
    intro vec h
    have hl : (vecInsert vec pos tau).length = vec.length + 1 := by
      simp [vecInsert]
      omega
    have ht : (vec.take pos).length = pos := by
      rw [List.length_take]; omega
    rw [insertLoop, ih _ (by omega)]
    unfold vecInsert
    rw [List.take_left' ht, List.drop_left' ht, List.replicate_succ']
    simp

/-- The facts about the knot vector `extKnots` that `insertKnots` builds. -/
theorem extKnots_spec (p : Nat) (vec : List ℚ) (hreg : Regular p vec) (tau : ℚ) (m : Nat)
    (h1 : front vec ≤ tau) (h2 : tau ≤ back vec) :
    (∀ t, (insertLoop (upperBound vec tau) tau m vec).count t
        = vec.count t + if t = tau then m else 0)
      ∧ (insertLoop (upperBound vec tau) tau m vec).length = vec.length + m
      ∧ (insertLoop (upperBound vec tau) tau m vec).Sorted (· ≤ ·)
      ∧ (vec.count tau + m ≤ p + 1 →
        front (insertLoop (upperBound vec tau) tau m vec) = front vec
          ∧ back (insertLoop (upperBound vec tau) tau m vec) = back vec) := by
  have hU := upperBound_le_length vec tau
  have hlen := hreg.len
  rw [insertLoop_eq _ _ _ _ hU]
  have htl : (vec.take (upperBound vec tau)).length = upperBound vec tau := by
    rw [List.length_take]; omega
  have hcount : ∀ t, (vec.take (upperBound vec tau) ++ List.replicate m tau
      ++ vec.drop (upperBound vec tau)).count t = vec.count t + if t = tau then m else 0 := by
    intro t
    rw [List.count_append, List.count_append, List.count_replicate]
    have e : vec.count t = (vec.take (upperBound vec tau)).count t
        + (vec.drop (upperBound vec tau)).count t := by
      conv_lhs => rw [← List.take_append_drop (upperBound vec tau) vec]
      rw [List.count_append]
    by_cases ht : t = tau
    · subst ht
      simp
      omega
    · have : ¬ tau = t := fun e => ht e.symm
      simp [ht, this]
      omega
  have hlength : (vec.take (upperBound vec tau) ++ List.replicate m tau
      ++ vec.drop (upperBound vec tau)).length = vec.length + m := by
    rw [List.length_append, List.length_append, htl, List.length_replicate, List.length_drop]
    omega
  have hleft : ∀ a ∈ vec.take (upperBound vec tau), a ≤ tau := by
    intro a ha
    obtain ⟨i, hi, e⟩ := exists_knotAt_of_mem _ a ha
    rw [htl] at hi
    rw [knotAt_take _ _ _ hi] at e
    rw [← e]
    exact knotAt_le_of_lt_upperBound vec tau i hi
  have hright : ∀ c ∈ vec.drop (upperBound vec tau), tau < c := by
    intro c hc
    obtain ⟨i, hi, e⟩ := exists_knotAt_of_mem _ c hc
    rw [List.length_drop] at hi
    rw [knotAt_drop] at e
    rw [← e]
    exact lt_knotAt_of_upperBound_le vec hreg.sorted tau _ (by omega) (by omega)
  refine ⟨hcount, hlength, ?_, ?_⟩
  · unfold List.Sorted
    rw [List.pairwise_append, List.pairwise_append]
    refine ⟨⟨(hreg.sorted.sublist (List.take_sublist _ _)), sorted_replicate _ _, ?_⟩,
      (hreg.sorted.sublist (List.drop_sublist _ _)), ?_⟩
    · intro a ha c hc
      rw [List.eq_of_mem_replicate hc]
      exact hleft a ha
    · intro a ha c hc
      rcases List.mem_append.1 ha with ha | ha
      · exact le_trans (hleft a ha) (le_of_lt (hright c hc))
      · rw [List.eq_of_mem_replicate ha]
        exact le_of_lt (hright c hc)
  · intro hm
    have hU1 : p + 1 ≤ upperBound vec tau := by
      have := lt_upperBound_of_knotAt_le vec hreg.sorted tau p (by omega)
        (by rw [hreg.first p le_rfl]; exact h1)
      omega
    constructor
    · rw [front_eq_knotAt, front_eq_knotAt, List.append_assoc,
        knotAt_append_left _ _ _ (by omega), knotAt_take _ _ _ (by omega)]
    · rcases lt_or_eq_of_le h2 with hlt | heq
      · have hU2 : upperBound vec tau ≤ vec.length - p - 1 :=
          upperBound_le_of_lt_knotAt vec tau _ (by rw [hreg.last _ le_rfl (by omega)]; exact hlt)
        rw [back_eq_knotAt, back_eq_knotAt, hlength, knotAt_append_right _ _ _ (by
          rw [List.length_append, htl, List.length_replicate]; omega), knotAt_drop,
          List.length_append, htl, List.length_replicate]
        congr 1
        omega
      · have hm0 : m = 0 := by
          have := hreg.count_back
          rw [← heq] at this
          omega
        subst hm0
        simp

theorem extKnots_regular (p : Nat) (vec : List ℚ) (hreg : Regular p vec) (tau : ℚ) (m : Nat)
    (h1 : front vec ≤ tau) (h2 : tau ≤ back vec) (hm : vec.count tau + m ≤ p + 1) :
    Regular p (insertLoop (upperBound vec tau) tau m vec) := by
  obtain ⟨hc, hl, hs, hfb⟩ := extKnots_spec p vec hreg tau m h1 h2
  obtain ⟨hf, hb⟩ := hfb hm
  rw [regular_iff_counts]
  have hlen := hreg.len
  refine ⟨by omega, hs, ?_, ?_, ?_⟩
  · rw [hf, hc, hreg.count_front]
    by_cases e : front vec = tau
    · have := hreg.count_front
      rw [e] at this
      rw [if_pos e]
      omega
    · rw [if_neg e]
  · rw [hb, hc, hreg.count_back]
    by_cases e : back vec = tau
    · have := hreg.count_back
      rw [e] at this
      rw [if_pos e]
      omega
    · rw [if_neg e]
  · intro v
    rw [hc]
    by_cases e : v = tau
    · rw [if_pos e, e]; exact hm
    · rw [if_neg e]; exact hreg.mult v

/-! ## The refinement check and the knot insertion matrix -/

theorem isRefinement_iff (b : BSplineBasis1D) (ref : List ℚ) :
    b.isRefinement ref = true ↔
      b.knots.length ≤ ref.length
        ∧ b.isKnotVectorRegular ref = true
        ∧ (∀ t ∈ b.knots, b.knots.count t ≤ ref.count t)
        ∧ front b.knots = front ref
        ∧ back b.knots = back ref := by
  unfold BSplineBasis1D.isRefinement stdCount
  by_cases h1 : ref.length < b.knots.length
  · rw [if_pos h1]
    constructor
    · intro h; cases h
    · intro h; omega
  rw [if_neg h1]
  by_cases h2 : b.isKnotVectorRegular ref = true
  swap
  · have : (!b.isKnotVectorRegular ref) = true := by simpa using h2
    rw [if_pos this]
    constructor
    · intro h; cases h
    · intro h; exact absurd h.2.1 h2
  have h2' : ¬ ((!b.isKnotVectorRegular ref) = true) := by simp [h2]
  rw [if_neg h2']
  by_cases h3 : (b.knots.any fun t => decide (ref.count t < b.knots.count t)) = true
  · rw [if_pos h3]
    constructor
    · intro h; cases h
    · intro h
      rw [List.any_eq_true] at h3
      obtain ⟨t, ht, hlt⟩ := h3
      have := h.2.2.1 t ht
      simp at hlt
      omega
  rw [if_neg h3]
  have h3' : ∀ t ∈ b.knots, b.knots.count t ≤ ref.count t := by
    intro t ht
    by_contra hc
    apply h3
    rw [List.any_eq_true]
    exact ⟨t, ht, by simpa using hc⟩
  by_cases h4 : front b.knots = front ref
  swap
  · rw [if_pos h4]
    constructor
    · intro h; cases h
    · intro h; exact absurd h.2.2.2.1 h4
  rw [if_neg (not_not.2 h4)]
  by_cases h5 : back b.knots = back ref
  swap
  · rw [if_pos h5]
    constructor
    · intro h; cases h
    · intro h; exact absurd h.2.2.2.2 h5
  rw [if_neg (not_not.2 h5)]
  exact ⟨fun _ => ⟨by omega, h2, h3', h4, h5⟩, fun _ => rfl⟩

theorem insertionProductLoop_ok (b : BSplineBasis1D) (knotsAug : List ℚ) (i u : Nat)
    (levels : List Nat) :
    ∀ R, (∀ j ∈ levels, i + j < knotsAug.length ∧ 1 ≤ j ∧ j ≤ b.degree
        ∧ u + j < b.knots.length ∧ j ≤ u + 1) →
      b.insertionProductLoop knotsAug i u levels R
        = Except.ok (levels.foldl (fun B j =>
            B.mul (basisMatrixT (knotAt b.knots) (knotAt knotsAug (i + j)) u j false)) R) := by
  induction levels with
  | nil => intro R _; rfl
  | cons j rest ih =>
    intro R h
    obtain ⟨a0, a1, a2, a3, a4⟩ := h j (List.mem_cons_self _ _)
    rw [BSplineBasis1D.insertionProductLoop, atIdx_ok _ _ a0]
    simp only [bind, Except.bind]
    rw [buildBasisMatrix_ok b _ u j false a1 a2 a3 a4]
    dsimp only
    rw [ih _ (fun k' hk' => h k' (List.mem_cons_of_mem _ hk'))]
    rfl

theorem insertionRowT_cols (t s : Nat → ℚ) (i u p : Nat) :
    (insertionRowT t s i u p).cols = p + 1 := by
  unfold insertionRowT
  have e : (fun j : Nat => j + 1) = fun j => 0 + 1 + j := by
    funext j; omega
  rw [e, foldl_mul_cols t (fun j => s (i + j)) u false 0 p _ rfl]
  omega

theorem insertionRowT_rows (t s : Nat → ℚ) (i u p : Nat) :
    (insertionRowT t s i u p).rows = 1 := by
  unfold insertionRowT
  rw [foldl_mul_rows t (fun j => s (i + j)) u false]
  rfl

/-- A row of the knot insertion matrix of a regular refinement with the same
ends is built without an exception. -/
theorem knotInsertionRow_ok (b : BSplineBasis1D) (ref : List ℚ)
    (hreg : Regular b.degree b.knots) (href : Regular b.degree ref)
    (hf : front b.knots = front ref) (hb : back b.knots = back ref) (i : Nat)
    (hi : i + b.degree + 1 < ref.length) :
    b.knotInsertionRow ref i
      = Except.ok (((upperBound b.knots (knotAt ref i) : Int) - 1 - (b.degree : Int)),
          insertionRowT (knotAt b.knots) (knotAt ref) i
            (upperBound b.knots (knotAt ref i) - 1) b.degree) := by
  have g1 : front b.knots ≤ knotAt ref i := by
    rw [hf]; exact href.front_le i (by omega)
  have g2 : knotAt ref i < back b.knots := by
    rw [hb]
    exact lt_of_le_of_lt (href.mono i (ref.length - b.degree - 2) (by omega) (by omega))
      href.pred_lt_back
  obtain ⟨hb1, hb2⟩ := hreg.upperBound_bounds _ g1 g2
  unfold BSplineBasis1D.knotInsertionRow
  rw [atIdx_ok _ _ (by omega)]
  simp only [bind, Except.bind]
  rw [indexHalfopenInterval_ok b _ g1 (le_of_lt g2)]
  have e3 : ((upperBound b.knots (knotAt ref i) : Int) - 1).toNat
      = upperBound b.knots (knotAt ref i) - 1 := by omega
  dsimp only
  rw [e3, insertionProductLoop_ok]
  · have hc := insertionRowT_cols (knotAt b.knots) (knotAt ref) i
      (upperBound b.knots (knotAt ref i) - 1) b.degree
    have hr := insertionRowT_rows (knotAt b.knots) (knotAt ref) i
      (upperBound b.knots (knotAt ref i) - 1) b.degree
    unfold insertionRowT at hc hr ⊢
    dsimp only
    rw [if_neg (by rw [hc, hr]; simp)]
    rfl
  · intro j hj
    rw [List.mem_map] at hj
    obtain ⟨j', hj', rfl⟩ := hj
    rw [List.mem_range] at hj'
    omega

theorem knotInsertionRows_ok (b : BSplineBasis1D) (ref : List ℚ)
    (hreg : Regular b.degree b.knots) (href : Regular b.degree ref)
    (hf : front b.knots = front ref) (hb : back b.knots = back ref) (m : Nat)
    (hm : m + b.degree + 1 ≤ ref.length) :
    b.knotInsertionRows ref m
      = Except.ok ((List.range m).map (fun i =>
          (((upperBound b.knots (knotAt ref i) : Int) - 1 - (b.degree : Int)),
            insertionRowT (knotAt b.knots) (knotAt ref) i
              (upperBound b.knots (knotAt ref i) - 1) b.degree))) := by
  induction m with
  | zero => rfl
  | succ m ih =>
    rw [BSplineBasis1D.knotInsertionRows, ih (by omega),
      knotInsertionRow_ok b ref hreg href hf hb m (by omega), List.range_succ, List.map_append]
    rfl

/-- On a regular knot vector `buildKnotInsertionMatrix` succeeds on every
sequence that passes `isRefinement`. -/
theorem buildKnotInsertionMatrix_ok (b : BSplineBasis1D) (ref : List ℚ)
    (hreg : Regular b.degree b.knots) (href : b.isRefinement ref = true) :
    b.buildKnotInsertionMatrix ref = Except.ok (insertionMatrixT b.degree b.knots ref) := by
  obtain ⟨_, h2, _, h4, h5⟩ := (isRefinement_iff b ref).1 href
  have hr := regular_of_isKnotVectorRegular b ref h2
  have hlen := hr.len
  unfold BSplineBasis1D.buildKnotInsertionMatrix
  rw [if_neg (by simp [href])]
  dsimp only
  rw [knotInsertionRows_ok b ref hreg hr h4 h5 _ (by omega)]
  rfl

theorem buildKnotInsertionMatrix_error (b : BSplineBasis1D) (ref : List ℚ)
    (href : b.isRefinement ref = false) :
    b.buildKnotInsertionMatrix ref = Except.error Error.notProperRefinement := by
  unfold BSplineBasis1D.buildKnotInsertionMatrix
  rw [if_pos (by simp [href])]

/-! ## `insertKnots` -/

theorem insideSupport_iff (b : BSplineBasis1D) (x : ℚ) :
    b.insideSupport x = true ↔ front b.knots ≤ x ∧ x ≤ back b.knots := by
  simp [BSplineBasis1D.insideSupport]

/-- The run of `insertKnots` past its two precondition checks. -/
theorem insertKnots_inside (b : BSplineBasis1D) (tau : ℚ) (m : Nat)
    (h1 : front b.knots ≤ tau) (h2 : tau ≤ back b.knots)
    (h3 : (b.knotMultiplicity tau + m) % 2 ^ 32 ≤ b.degree + 1) (hne : b.knots ≠ []) :
    b.insertKnots tau m =
      (if !b.isKnotVectorRegular (insertLoop (upperBound b.knots tau) tau m b.knots) then
        Except.error Error.newKnotVectorNotRegular
      else
        (b.buildKnotInsertionMatrix (insertLoop (upperBound b.knots tau) tau m b.knots)).bind
          (fun A => Except.ok
            (A, { b with knots := insertLoop (upperBound b.knots tau) tau m b.knots }))) := by
  have hin : b.insideSupport tau = true := (insideSupport_iff b tau).2 ⟨h1, h2⟩
  have hU := one_le_upperBound b.knots tau hne h1
  have e : ((upperBound b.knots tau : Int) - 1 + 1).toNat = upperBound b.knots tau := by omega
  unfold BSplineBasis1D.insertKnots
  rw [if_neg (by simp [hin]), if_neg (by omega), indexHalfopenInterval_ok b tau h1 h2]
  simp only [bind, Except.bind, e]
  rfl

/-- Past both precondition checks `insertKnots` succeeds: the extended knot
vector is regular and a refinement, and the call returns its insertion matrix. -/
theorem insertKnots_good (b : BSplineBasis1D) (hreg : b.isKnotVectorRegular b.knots = true)
    (tau : ℚ) (m : Nat) (h1 : front b.knots ≤ tau) (h2 : tau ≤ back b.knots)
    (h3 : b.knotMultiplicity tau + m ≤ b.degree + 1) :
    b.isKnotVectorRegular (insertLoop (upperBound b.knots tau) tau m b.knots) = true
      ∧ b.isRefinement (insertLoop (upperBound b.knots tau) tau m b.knots) = true
      ∧ b.buildKnotInsertionMatrix (insertLoop (upperBound b.knots tau) tau m b.knots)
        = Except.ok (insertionMatrixT b.degree b.knots
            (insertLoop (upperBound b.knots tau) tau m b.knots))
      ∧ b.insertKnots tau m = Except.ok
          (insertionMatrixT b.degree b.knots (insertLoop (upperBound b.knots tau) tau m b.knots),
            { b with knots := insertLoop (upperBound b.knots tau) tau m b.knots }) := by
  have hr := regular_of_isKnotVectorRegular b b.knots hreg
  have hlen := hr.len
  have hne : b.knots ≠ [] := by
    intro e; rw [e] at hlen; simp at hlen
  have h3' : b.knots.count tau + m ≤ b.degree + 1 := h3
  obtain ⟨hc, hl, _, hfb⟩ := extKnots_spec b.degree b.knots hr tau m h1 h2
  obtain ⟨hf, hb⟩ := hfb h3'
  have hext := extKnots_regular b.degree b.knots hr tau m h1 h2 h3'
  have hextb := isKnotVectorRegular_of_regular b _ hext
  have href : b.isRefinement (insertLoop (upperBound b.knots tau) tau m b.knots) = true := by
    rw [isRefinement_iff]
    refine ⟨by omega, hextb, ?_, hf.symm, hb.symm⟩
    intro t _
    rw [hc]
    omega
  have hA := buildKnotInsertionMatrix_ok b _ hr href
  refine ⟨hextb, href, hA, ?_⟩
  rw [insertKnots_inside b tau m h1 h2 (le_trans (Nat.mod_le _ _) h3) hne,
    if_neg (by simp [hextb]), hA]
  rfl

/-- When a precondition of `insertKnots` fails the call throws. -/
theorem insertKnots_bad (b : BSplineBasis1D) (hreg : b.isKnotVectorRegular b.knots = true)
    (tau : ℚ) (m : Nat)
    (h : tau < front b.knots ∨ tau > back b.knots
      ∨ b.knotMultiplicity tau + m > b.degree + 1) :
    ∃ e, b.insertKnots tau m = Except.error e := by
  have hr := regular_of_isKnotVectorRegular b b.knots hreg
  have hlen := hr.len
  have hne : b.knots ≠ [] := by
    intro e; rw [e] at hlen; simp at hlen
  by_cases hin : b.insideSupport tau = true
  swap
  · refine ⟨Error.insertOutsideDomain, ?_⟩
    unfold BSplineBasis1D.insertKnots
    rw [if_pos (by simpa using hin)]
  obtain ⟨h1, h2⟩ := (insideSupport_iff b tau).1 hin
  have h3 : b.knotMultiplicity tau + m > b.degree + 1 := by
    rcases h with h | h | h
    · linarith
    · linarith
    · exact h
  by_cases hw : (b.knotMultiplicity tau + m) % 2 ^ 32 > b.degree + 1
  · refine ⟨Error.multiplicityTooHigh, ?_⟩
    unfold BSplineBasis1D.insertKnots
    rw [if_neg (by simp [hin]), if_pos hw]
  · refine ⟨Error.newKnotVectorNotRegular, ?_⟩
    rw [insertKnots_inside b tau m h1 h2 (by omega) hne]
    have hirr : b.isKnotVectorRegular
        (insertLoop (upperBound b.knots tau) tau m b.knots) = false := by
      by_contra hc
      have hc' := regular_of_isKnotVectorRegular b _ (by simpa using hc)
      have := hc'.mult tau
      rw [(extKnots_spec b.degree b.knots hr tau m h1 h2).1 tau, if_pos rfl] at this
      have h3' : b.knots.count tau + m > b.degree + 1 := h3
      omega
    rw [if_pos (by simp [hirr])]

/-- Claim C10 (failure conditions of `insertKnots`): on a regular knot vector,
`insertKnots(tau, m)` throws if and only if `tau` is outside
`[knots.front(), knots.back()]` or `knotMultiplicity(tau) + m > p+1`; when both
preconditions hold, the new knot vector passes the regularity check and the
refinement check, the matrix is built, and the call returns it. -/
theorem insertKnots_fails_iff (b : BSplineBasis1D)
    (hreg : b.isKnotVectorRegular b.knots = true) (tau : ℚ) (m : Nat) :
    ((∃ e, b.insertKnots tau m = Except.error e) ↔
        (tau < front b.knots ∨ tau > back b.knots
          ∨ b.knotMultiplicity tau + m > b.degree + 1))
      ∧ (front b.knots ≤ tau → tau ≤ back b.knots →
        b.knotMultiplicity tau + m ≤ b.degree + 1 →
        b.isKnotVectorRegular (insertLoop (upperBound b.knots tau) tau m b.knots) = true
          ∧ b.isRefinement (insertLoop (upperBound b.knots tau) tau m b.knots) = true
          ∧ ∃ A, b.buildKnotInsertionMatrix
                (insertLoop (upperBound b.knots tau) tau m b.knots) = Except.ok A
            ∧ b.insertKnots tau m = Except.ok
                (A, { b with knots := insertLoop (upperBound b.knots tau) tau m b.knots })) := by
  refine ⟨⟨?_, insertKnots_bad b hreg tau m⟩, ?_⟩
  · rintro ⟨e, he⟩
    by_contra hc
    have h1 : front b.knots ≤ tau := by
      by_contra h; exact hc (Or.inl (not_le.1 h))
    have h2 : tau ≤ back b.knots := by
      by_contra h; exact hc (Or.inr (Or.inl (not_le.1 h)))
    have h3 : b.knotMultiplicity tau + m ≤ b.degree + 1 := by
      by_contra h; exact hc (Or.inr (Or.inr (not_le.1 h)))
    rw [(insertKnots_good b hreg tau m h1 h2 h3).2.2.2] at he
    cases he
  · intro h1 h2 h3
    obtain ⟨g1, g2, g3, g4⟩ := insertKnots_good b hreg tau m h1 h2 h3
    exact ⟨g1, g2, _, g3, g4⟩

/-- Claim C10 at the knot vector `{0,0,0,0,1,2,3,3,3,3}` of degree 3:
`insertKnots(0, 4)` throws on the multiplicity check. -/
theorem insertKnots_fails_iff_witness :
    cubicBasis.isKnotVectorRegular cubicBasis.knots = true
      ∧ cubicBasis.insertKnots 0 4 = Except.error Error.multiplicityTooHigh
      ∧ ∃ e, cubicBasis.insertKnots 0 4 = Except.error e :=
  ⟨by decide, by rfl,
    (insertKnots_fails_iff cubicBasis (by decide) 0 4).1.2 (Or.inr (Or.inr (by decide)))⟩

/-! ## The blossom: symmetry, affinity and the de Boor recursion -/

theorem suppWindow_unitAt (u : Nat) : SuppWindow u 0 (unitAt u) := by
  intro j hj
  unfold unitAt at hj
  by_cases h : j = u
  · omega
  · rw [if_neg h] at hj; exact absurd rfl hj

theorem suppWindow_levelStep (t : Nat → ℚ) (u k : Nat) (y : ℚ) (v : Nat → ℚ)
    (h : SuppWindow u k v) : SuppWindow u (k + 1) (levelStep t (k + 1) y v) := by
  intro j hj
  unfold levelStep at hj
  by_cases h1 : v j = 0
  · by_cases h2 : v (j + 1) = 0
    · rw [h1, h2] at hj; simp at hj
    · have := h (j + 1) h2; omega
  · have := h j h1; omega

theorem suppWindow_blossomFrom (t : Nat → ℚ) (u : Nat) (ys : List ℚ) :
    ∀ k v, SuppWindow u k v → SuppWindow u (k + ys.length) (blossomFrom t k v ys) := by
  induction ys with
  | nil => intro k v h; simpa [blossomFrom] using h
  | cons y ys ih =>
    intro k v h
    rw [blossomFrom]
    have := ih (k + 1) _ (suppWindow_levelStep t u k y v h)
    rw [List.length_cons]
    have e : k + (ys.length + 1) = k + 1 + ys.length := by omega
    rw [e]; exact this

theorem blossomFrom_append (t : Nat → ℚ) (ys zs : List ℚ) :
    ∀ k v, blossomFrom t k v (ys ++ zs) = blossomFrom t (k + ys.length) (blossomFrom t k v ys) zs := by
  induction ys with
  | nil => intro k v; rfl
  | cons y ys ih =>
    intro k v
    rw [List.cons_append, blossomFrom, ih, blossomFrom, List.length_cons]
    have e : k + 1 + ys.length = k + (ys.length + 1) := by omega
    rw [e]

/-- Two consecutive levels commute. -/
theorem levelStep_swap (t : Nat → ℚ) (N u k : Nat) (ha : Anchor t N u) (hN : u + k + 2 < N)
    (y z : ℚ) (v : Nat → ℚ) (hv : SuppWindow u k v) :
    levelStep t (k + 2) z (levelStep t (k + 1) y v)
      = levelStep t (k + 2) y (levelStep t (k + 1) z v) := by
  funext j
  unfold levelStep
  by_cases h : v (j + 1) = 0
  · rw [h]; ring_nf
  · obtain ⟨h1, h2⟩ := hv (j + 1) h
    have hle : t (j + 1) ≤ t u := ha.mono (j + 1) u h2 (by omega)
    have hle2 : t (u + 1) ≤ t (j + 1 + (k + 1)) := ha.mono _ _ (by omega) (by omega)
    have hle3 : t (j + 1 + (k + 1)) ≤ t (j + 1 + (k + 2)) := ha.mono _ _ (by omega) (by omega)
    have hle4 : t j ≤ t (j + 1) := ha.mono _ _ (by omega) (by omega)
    have hlt := ha.lt
    have e1 : j + 1 + (k + 1) = j + (k + 2) := by omega
    have e2 : j + 1 + 1 + (k + 1) = j + 1 + (k + 2) := by omega
    rw [e1] at hle2 hle3
    have d1 : t (j + (k + 2)) - t (j + 1) ≠ 0 := by
      have : t (j + 1) < t (j + (k + 2)) := by linarith
      exact ne_of_gt (by linarith)
    have d2 : t (j + (k + 2)) - t j ≠ 0 := by
      have : t j < t (j + (k + 2)) := by linarith
      exact ne_of_gt (by linarith)
    have d3 : t (j + 1 + (k + 2)) - t (j + 1) ≠ 0 := by
      have : t (j + 1) < t (j + 1 + (k + 2)) := by linarith
      exact ne_of_gt (by linarith)
    have e3 : j + 1 + (k + 1) = j + (k + 2) := by omega
    rw [e3, e2]
    field_simp
    ring

/-- The blossom does not depend on the order of its arguments. -/
theorem blossomFrom_perm (t : Nat → ℚ) (N u : Nat) (ha : Anchor t N u) {l1 l2 : List ℚ}
    (hp : l1.Perm l2) :
    ∀ k v, SuppWindow u k v → u + k + l1.length < N →
      blossomFrom t k v l1 = blossomFrom t k v l2 := by
  induction hp with
  | nil => intro k v _ _; rfl
  | cons x _ ih =>
    intro k v hv hN
    rw [blossomFrom, blossomFrom]
    exact ih (k + 1) _ (suppWindow_levelStep t u k x v hv) (by
      rw [List.length_cons] at hN; omega)
  | swap x y l =>
    intro k v hv hN
    rw [blossomFrom, blossomFrom, blossomFrom, blossomFrom]
    rw [levelStep_swap t N u k ha (by simp at hN; omega) y x v hv]
  | trans h1 _ ih1 ih2 =>
    intro k v hv hN
    rw [ih1 k v hv hN]
    exact ih2 k v hv (by rw [← h1.length_eq]; exact hN)

theorem blossom_perm (t : Nat → ℚ) (N u : Nat) (ha : Anchor t N u) {l1 l2 : List ℚ}
    (hp : l1.Perm l2) (hN : u + l1.length < N) : blossom t u l1 = blossom t u l2 := by
  unfold blossom
  exact blossomFrom_perm t N u ha hp 0 _ (suppWindow_unitAt u) (by omega)

theorem blossom_concat (t : Nat → ℚ) (u : Nat) (ys : List ℚ) (z : ℚ) :
    blossom t u (ys ++ [z]) = levelStep t (ys.length + 1) z (blossom t u ys) := by
  unfold blossom
  rw [blossomFrom_append, blossomFrom, blossomFrom]
  simp

/-- A level is affine in its argument. -/
theorem levelStep_affine (t : Nat → ℚ) (k : Nat) (w a c : ℚ) (v : Nat → ℚ) (j : Nat) :
    levelStep t k (w * a + (1 - w) * c) v j
      = w * levelStep t k a v j + (1 - w) * levelStep t k c v j := by
  unfold levelStep
  ring

theorem suppWindow_blossom (t : Nat → ℚ) (u : Nat) (ys : List ℚ) :
    SuppWindow u ys.length (blossom t u ys) := by
  have := suppWindow_blossomFrom t u ys 0 _ (suppWindow_unitAt u)
  simpa using this

/-- On its knot interval the de Boor-Cox value is the blossom at `(x, .., x)`. -/
theorem bspl_eq_blossom (t : Nat → ℚ) (N u : Nat) (ha : Anchor t N u) (x : ℚ)
    (hx : t u ≤ x ∧ x < t (u + 1)) (k : Nat) :
    ∀ j, j + k + 1 < N → u + k < N → bspl t x j k = blossom t u (List.replicate k x) j := by
  induction k with
  | zero =>
    intro j hj hu
    have e0 : blossom t u (List.replicate 0 x) = unitAt u := rfl
    rw [e0]
    unfold bspl unitAt
    by_cases h : j = u
    · subst h; rw [if_pos hx, if_pos rfl]
    · rw [if_neg h, if_neg]
      rintro ⟨h1, h2⟩
      rcases Nat.lt_or_gt_of_ne h with hlt | hgt
      · have := ha.mono (j + 1) u (by omega) (by omega)
        linarith
      · have := ha.mono (u + 1) j (by omega) (by omega)
        linarith
  | succ k ih =>
    intro j hj hu
    have hv := suppWindow_blossom t u (List.replicate k x)
    rw [List.length_replicate] at hv
    rw [List.replicate_succ', blossom_concat, List.length_replicate, bspl,
      ih j (by omega) (by omega), ih (j + 1) (by omega) (by omega)]
    unfold levelStep
    have e1 : j + 1 + (k + 1) = j + (k + 1) + 1 := by omega
    rw [e1]
    congr 1
    · by_cases h0 : blossom t u (List.replicate k x) j = 0
      · rw [h0]; simp
      · obtain ⟨g1, g2⟩ := hv j h0
        have a1 : t j ≤ t u := ha.mono j u g2 (by omega)
        have a2 : t (u + 1) ≤ t (j + (k + 1)) := ha.mono _ _ (by omega) (by omega)
        unfold BSplineBasis1D.deBoorCoxCoeff
        rw [if_pos ⟨by linarith, by linarith, by linarith⟩]
    · by_cases h0 : blossom t u (List.replicate k x) (j + 1) = 0
      · rw [h0]; simp
      · obtain ⟨g1, g2⟩ := hv (j + 1) h0
        have a1 : t (j + 1) ≤ t u := ha.mono _ u g2 (by omega)
        have a2 : t (u + 1) ≤ t (j + (k + 1) + 1) := ha.mono _ _ (by omega) (by omega)
        unfold BSplineBasis1D.deBoorCoxCoeff
        rw [if_pos ⟨by linarith, by linarith, by linarith⟩]
        have d : t (j + (k + 1) + 1) - t (j + 1) ≠ 0 := ne_of_gt (by linarith)
        congr 1
        field_simp

/-- Arguments equal to a knot of multiplicity at least `k` right of the interval
`u` leave the unit sequence at `u` unchanged. -/
theorem blossom_left_of_knot (t : Nat → ℚ) (u r : Nat) (ξ : ℚ) (h1 : t u < ξ)
    (h2 : ∀ g, u + 1 ≤ g → g ≤ u + r → t g = ξ) (k : Nat) (hk : k ≤ r) :
    blossom t u (List.replicate k ξ) = unitAt u := by
  induction k with
  | zero => rfl
  | succ k ih =>
    rw [List.replicate_succ', blossom_concat, List.length_replicate, ih (by omega)]
    funext j
    unfold levelStep unitAt
    by_cases ha : j = u
    · subst ha
      rw [if_pos rfl, if_neg (by omega), h2 (j + (k + 1)) (by omega) (by omega)]
      have : ξ - t j ≠ 0 := ne_of_gt (by linarith)
      rw [div_self this]
      ring
    · rw [if_neg ha]
      by_cases hb : j + 1 = u
      · subst hb
        rw [if_pos rfl, h2 (j + 1 + (k + 1)) (by omega) (by omega)]
        simp
      · rw [if_neg hb]
        ring

/-- Arguments equal to a knot of multiplicity at least `k` left of the interval
`u + r` move the unit sequence `k` places to the left. -/
theorem blossom_right_of_knot (t : Nat → ℚ) (u r : Nat) (ξ : ℚ)
    (h2 : ∀ g, u + 1 ≤ g → g ≤ u + r → t g = ξ) (h3 : ξ < t (u + r + 1)) (k : Nat)
    (hk : k ≤ r) :
    blossom t (u + r) (List.replicate k ξ) = unitAt (u + r - k) := by
  induction k with
  | zero => rfl
  | succ k ih =>
    rw [List.replicate_succ', blossom_concat, List.length_replicate, ih (by omega)]
    funext j
    unfold levelStep unitAt
    by_cases ha : j = u + r - k
    · subst ha
      rw [if_pos rfl, if_neg (by omega), if_neg (by omega), h2 (u + r - k) (by omega) (by omega)]
      simp
    · rw [if_neg ha]
      by_cases hb : j + 1 = u + r - k
      · have hj : j = u + r - (k + 1) := by omega
        rw [if_pos hb, if_pos hj]
        have e1 : j + 1 + (k + 1) = u + r + 1 := by omega
        rw [e1, hb, h2 (u + r - k) (by omega) (by omega)]
        have : t (u + r + 1) - ξ ≠ 0 := ne_of_gt (by linarith)
        rw [div_self this]
        ring
      · rw [if_neg hb, if_neg (by omega)]
        ring

theorem perm_replicate_append_of_le_count (l : List ℚ) (a : ℚ) (r : Nat)
    (h : r ≤ l.count a) : ∃ rest, l.Perm (List.replicate r a ++ rest) := by
  refine ⟨List.replicate (l.count a - r) a ++ l.filter (fun c => !(c == a)), ?_⟩
  have h1 := (List.filter_append_perm (fun c => c == a) l).symm
  rw [List.filter_beq] at h1
  have e : List.replicate (l.count a) a
      = List.replicate r a ++ List.replicate (l.count a - r) a := by
    rw [← List.replicate_add]; congr 1; omega
  rw [e, List.append_assoc] at h1
  exact h1

/-- The blossom at the interval left of a knot of multiplicity `r` and at the
interval right of it agree when `r` of the arguments equal the knot. -/
theorem blossom_anchor_shift (t : Nat → ℚ) (N u r : Nat) (ξ : ℚ) (hm : MonoUpTo t N)
    (h1 : t u < ξ) (h2 : ∀ g, u + 1 ≤ g → g ≤ u + r → t g = ξ) (h3 : ξ < t (u + r + 1))
    (ys : List ℚ) (hc : r ≤ ys.count ξ) (hN : u + r + ys.length < N) :
    blossom t u ys = blossom t (u + r) ys := by
  rcases Nat.eq_zero_or_pos r with h0 | hpos
  · subst h0; rfl
  obtain ⟨rest, hperm⟩ := perm_replicate_append_of_le_count ys ξ r hc
  have ha1 : Anchor t N u := ⟨hm, by rw [h2 (u + 1) le_rfl (by omega)]; exact h1⟩
  have ha2 : Anchor t N (u + r) := ⟨hm, by rw [h2 (u + r) (by omega) le_rfl]; exact h3⟩
  rw [blossom_perm t N u ha1 hperm (by omega), blossom_perm t N (u + r) ha2 hperm (by omega)]
  unfold blossom
  rw [blossomFrom_append, blossomFrom_append]
  have e1 := blossom_left_of_knot t u r ξ h1 h2 r le_rfl
  have e2 := blossom_right_of_knot t u r ξ h2 h3 r le_rfl
  unfold blossom at e1 e2
  rw [e1, e2]
  have : u + r - r = u := by omega
  rw [this]

theorem length_deBoorArgs (s : Nat → ℚ) (x : ℚ) (p k i : Nat) (hk : k ≤ p) :
    (deBoorArgs s x p k i).length = p := by
  unfold deBoorArgs
  rw [List.length_append, List.length_map, List.length_range, List.length_replicate]
  omega

/-- One step of the de Boor recursion on blossoms. -/
theorem blossom_deBoor_step (t : Nat → ℚ) (N u : Nat) (ha : Anchor t N u)
    (s : Nat → ℚ) (x : ℚ) (p k i0 : Nat) (hk : k + 1 ≤ p) (hN : u + p < N)
    (hd : s (i0 + 1) < s (i0 + 1 + (k + 1))) (j : Nat) :
    (x - s (i0 + 1)) / (s (i0 + 1 + (k + 1)) - s (i0 + 1))
        * blossom t u (deBoorArgs s x p (k + 1) (i0 + 1)) j
      + (1 - (x - s (i0 + 1)) / (s (i0 + 1 + (k + 1)) - s (i0 + 1)))
        * blossom t u (deBoorArgs s x p (k + 1) i0) j
      = blossom t u (deBoorArgs s x p k (i0 + 1)) j := by
  have hL : ((List.range k).map (fun r => s (i0 + 1 + 1 + r))
      ++ List.replicate (p - k - 1) x).length + 1 = p := by
    rw [List.length_append, List.length_map, List.length_range, List.length_replicate]
    omega
  have e0 : deBoorArgs s x p k (i0 + 1)
      = ((List.range k).map (fun r => s (i0 + 1 + 1 + r)) ++ List.replicate (p - k - 1) x)
        ++ [x] := by
    unfold deBoorArgs
    have : p - k = p - k - 1 + 1 := by omega
    rw [this, List.replicate_succ', List.append_assoc]
    simp
  have p1 : (deBoorArgs s x p (k + 1) (i0 + 1)).Perm
      (((List.range k).map (fun r => s (i0 + 1 + 1 + r)) ++ List.replicate (p - k - 1) x)
        ++ [s (i0 + 1 + (k + 1))]) := by
    unfold deBoorArgs
    have : p - (k + 1) = p - k - 1 := by omega
    rw [this, List.range_succ, List.map_append, List.append_assoc, List.append_assoc]
    apply List.Perm.append_left
    have e : i0 + 1 + 1 + k = i0 + 1 + (k + 1) := by omega
    simp only [List.map_cons, List.map_nil, e]
    exact List.perm_append_comm
  have p2 : (deBoorArgs s x p (k + 1) i0).Perm
      (((List.range k).map (fun r => s (i0 + 1 + 1 + r)) ++ List.replicate (p - k - 1) x)
        ++ [s (i0 + 1)]) := by
    unfold deBoorArgs
    have : p - (k + 1) = p - k - 1 := by omega
    rw [this, List.range_succ_eq_map, List.map_cons, List.map_map]
    have ef : ((fun r => s (i0 + 1 + r)) ∘ Nat.succ) = fun r => s (i0 + 1 + 1 + r) := by
      funext r
      show s (i0 + 1 + (r + 1)) = s (i0 + 1 + 1 + r)
      congr 1
      omega
    rw [ef]
    exact (List.perm_append_singleton _ _).symm
  have hlen1 : u + (deBoorArgs s x p (k + 1) (i0 + 1)).length < N := by
    rw [length_deBoorArgs _ _ _ _ _ hk]; exact hN
  have hlen2 : u + (deBoorArgs s x p (k + 1) i0).length < N := by
    rw [length_deBoorArgs _ _ _ _ _ hk]; exact hN
  rw [blossom_perm t N u ha p1 hlen1, blossom_perm t N u ha p2 hlen2, e0,
    blossom_concat, blossom_concat, blossom_concat, hL]
  have hne : s (i0 + 1 + (k + 1)) - s (i0 + 1) ≠ 0 := ne_of_gt (by linarith)
  have hx : x = (x - s (i0 + 1)) / (s (i0 + 1 + (k + 1)) - s (i0 + 1)) * s (i0 + 1 + (k + 1))
      + (1 - (x - s (i0 + 1)) / (s (i0 + 1 + (k + 1)) - s (i0 + 1))) * s (i0 + 1) := by
    field_simp
    ring
  have haff := levelStep_affine t p
    ((x - s (i0 + 1)) / (s (i0 + 1 + (k + 1)) - s (i0 + 1))) (s (i0 + 1 + (k + 1))) (s (i0 + 1))
    (blossom t u ((List.range k).map (fun r => s (i0 + 1 + 1 + r))
      ++ List.replicate (p - k - 1) x)) j
  rw [← hx] at haff
  exact haff.symm

theorem deBoorCoxCoeff_inside (x a c : ℚ) (h1 : a < c) (h2 : a ≤ x) (h3 : x ≤ c) :
    BSplineBasis1D.deBoorCoxCoeff x a c = (x - a) / (c - a) := by
  unfold BSplineBasis1D.deBoorCoxCoeff
  rw [if_pos ⟨h1, h2, h3⟩]

/-- The de Boor recursion on blossoms: the blossom at `(x, .., x)` is the
combination of the blossoms at consecutive refined knots with the basis values
over the refined knots as weights. -/
theorem blossom_deBoor (t : Nat → ℚ) (N u : Nat) (ha : Anchor t N u)
    (s : Nat → ℚ) (M ν : Nat) (hs : MonoUpTo s M) (x : ℚ) (hx : s ν ≤ x ∧ x < s (ν + 1))
    (p : Nat) (hN : u + p < N) (j : Nat) (k : Nat) :
    k ≤ p → k ≤ ν → ν + k + 1 < M →
      ∑ i in Finset.range (k + 1),
          bspl s x (ν - k + i) k * blossom t u (deBoorArgs s x p k (ν - k + i)) j
        = blossom t u (List.replicate p x) j := by
  induction k with
  | zero =>
    intro _ _ _
    rw [Finset.sum_range_one]
    simp only [Nat.sub_zero, add_zero, bspl, deBoorArgs, List.range_zero, List.map_nil,
      List.nil_append]
    rw [if_pos hx, one_mul]
  | succ k ih =>
    intro hkp hkν hM
    rw [← ih (by omega) (by omega) (by omega)]
    obtain ⟨a, ha'⟩ : ∃ a, ν = a + (k + 1) := ⟨ν - (k + 1), by omega⟩
    subst ha'
    have ea : a + (k + 1) - (k + 1) = a := by omega
    have eb : a + (k + 1) - k = a + 1 := by omega
    rw [ea, eb]
    have hsplit : ∀ i, bspl s x (a + i) (k + 1) * blossom t u (deBoorArgs s x p (k + 1) (a + i)) j
        = BSplineBasis1D.deBoorCoxCoeff x (s (a + i)) (s (a + i + (k + 1))) * bspl s x (a + i) k
            * blossom t u (deBoorArgs s x p (k + 1) (a + i)) j
          + (1 - BSplineBasis1D.deBoorCoxCoeff x (s (a + i + 1)) (s (a + i + (k + 1) + 1)))
            * bspl s x (a + i + 1) k * blossom t u (deBoorArgs s x p (k + 1) (a + i)) j := by
      intro i
      rw [bspl]
      ring
    rw [Finset.sum_congr rfl (fun i _ => hsplit i), Finset.sum_add_distrib,
      Finset.sum_range_succ' (fun i =>
        BSplineBasis1D.deBoorCoxCoeff x (s (a + i)) (s (a + i + (k + 1))) * bspl s x (a + i) k
          * blossom t u (deBoorArgs s x p (k + 1) (a + i)) j),
      Finset.sum_range_succ (fun i =>
        (1 - BSplineBasis1D.deBoorCoxCoeff x (s (a + i + 1)) (s (a + i + (k + 1) + 1)))
          * bspl s x (a + i + 1) k * blossom t u (deBoorArgs s x p (k + 1) (a + i)) j)]
    have z1 : bspl s x (a + 0) k = 0 :=
      bspl_support s M hs x k (a + 0) (by omega) (Or.inr (by
        have e : a + 0 + k + 1 = a + (k + 1) := by omega
        rw [e]; exact hx.1))
    have z2 : bspl s x (a + (k + 1) + 1) k = 0 :=
      bspl_support s M hs x k _ (by omega) (Or.inl hx.2)
    rw [z1, z2]
    simp only [mul_zero, zero_mul, add_zero]
    rw [← Finset.sum_add_distrib]
    apply Finset.sum_congr rfl
    intro i hi
    rw [Finset.mem_range] at hi
    have g1 : s (a + i + 1) ≤ s (a + (k + 1)) := hs _ _ (by omega) (by omega)
    have g2 : s (a + (k + 1) + 1) ≤ s (a + i + 1 + (k + 1)) := hs _ _ (by omega) (by omega)
    have hd : s (a + i + 1) < s (a + i + 1 + (k + 1)) := by linarith [hx.1, hx.2]
    have hstep := blossom_deBoor_step t N u ha s x p k (a + i) (by omega) hN hd j
    have e1 : a + (i + 1) = a + i + 1 := rfl
    have e2 : a + i + (k + 1) + 1 = a + i + 1 + (k + 1) := by omega
    have e3 : a + 1 + i = a + i + 1 := by omega
    rw [e1, e2, e3, deBoorCoxCoeff_inside x _ _ hd (by linarith [hx.1]) (by linarith [hx.2]),
      ← hstep]
    ring

/-! ## The matrix loops compute the blossom -/

theorem basisRowT_eq (t : Nat → ℚ) (y : ℚ) (u k l : Nat) :
    basisRowT t y u k false l
      = ((t (u + 1 + l) - y) / (t (u + 1 + l) - t (u + 1 + l - k)),
          (y - t (u + 1 + l - k)) / (t (u + 1 + l) - t (u + 1 + l - k))) := by
  unfold basisRowT
  by_cases h : t (u + 1 + l) - t (u + 1 + l - k) = 0
  · rw [if_pos h, h, div_zero, div_zero]
  · rw [if_neg h]
    rfl

theorem sum_bidiagonal (K c : Nat) (F G : Nat → ℚ) :
    ∑ l in Finset.range K, (if c = l then F l else if c = l + 1 then G l else 0)
      = (if c < K then F c else 0) + (if 1 ≤ c ∧ c ≤ K then G (c - 1) else 0) := by
  induction K with
  | zero =>
    rw [Finset.sum_range_zero, if_neg (by omega), if_neg (by omega)]
    ring
  | succ K ih =>
    rw [Finset.sum_range_succ, ih]
    by_cases h1 : c = K
    · subst h1
      simp only [lt_self_iff_false, if_false, if_true, Nat.lt_succ_self, le_refl, and_true]
      by_cases h0 : 1 ≤ c
      · simp [h0]
        ring
      · have : c = 0 := by omega
        subst this
        simp
    · by_cases h2 : c = K + 1
      · subst h2
        simp
      · have a1 : c < K + 1 ↔ c < K := by
          constructor <;> intro h <;> omega
        have a2 : (1 ≤ c ∧ c ≤ K + 1) ↔ (1 ≤ c ∧ c ≤ K) := by
          constructor <;> intro h <;> omega
        rw [if_neg h1, if_neg h2]
        simp only [a1, a2]
        ring

/-- One product `B * R_K(y)` of the matrix loops, on the coefficients of row 0:
it is one level of the recursion on the window that ends at `u`. -/
theorem mul_basisMatrixT_coeff (t : Nat → ℚ) (y : ℚ) (u K : Nat) (B : SparseMatrix)
    (w : Nat → ℚ) (hK : 1 ≤ K) (hu : K ≤ u) (hcols : B.cols = K)
    (hw : SuppWindow u (K - 1) w)
    (hB : ∀ c, c < K → B.coeff 0 c = w (u - (K - 1) + c)) (c : Nat) (hc : c ≤ K) :
    (B.mul (basisMatrixT t y u K false)).coeff 0 c = levelStep t K y w (u - K + c) := by
  have hdef : (B.mul (basisMatrixT t y u K false)).coeff 0 c
      = ∑ l in Finset.range K, B.coeff 0 l * (basisMatrixT t y u K false).coeff l c := by
    unfold SparseMatrix.mul
    rw [hcols]
  rw [hdef]
  have hterm : ∀ l ∈ Finset.range K,
      B.coeff 0 l * (basisMatrixT t y u K false).coeff l c
        = if c = l then
            w (u - (K - 1) + l) * ((t (u + 1 + l) - y) / (t (u + 1 + l) - t (u + 1 + l - K)))
          else if c = l + 1 then
            w (u - (K - 1) + l) * ((y - t (u + 1 + l - K)) / (t (u + 1 + l) - t (u + 1 + l - K)))
          else 0 := by
    intro l hl
    rw [Finset.mem_range] at hl
    rw [basisMatrixT_coeff, if_pos hl, basisRowT_eq, hB l hl]
    split_ifs <;> simp
  rw [Finset.sum_congr rfl hterm, sum_bidiagonal]
  unfold levelStep
  have e1 : u - K + c + 1 + K = u + 1 + c := by omega
  have e2 : u - K + c + K = u + c := by omega
  rw [e1, e2]
  by_cases h1 : c < K
  · rw [if_pos h1]
    have e3 : u - (K - 1) + c = u - K + c + 1 := by omega
    have e4 : u + 1 + c - K = u - K + c + 1 := by omega
    rw [e3, e4]
    by_cases h0 : 1 ≤ c
    · rw [if_pos ⟨h0, hc⟩]
      have e5 : u - (K - 1) + (c - 1) = u - K + c := by omega
      have e6 : u + 1 + (c - 1) = u + c := by omega
      have e7 : u + c - K = u - K + c := by omega
      rw [e5, e6, e7]
      ring
    · rw [if_neg (by omega)]
      have hz : w (u - K + c) = 0 := by
        by_contra hne
        have := hw _ hne
        omega
      rw [hz]
      ring
  · have hcK : c = K := by omega
    rw [if_neg h1, if_pos ⟨by omega, hc⟩]
    have hz : w (u - K + c + 1) = 0 := by
      by_contra hne
      have := hw _ hne
      omega
    have e5 : u - (K - 1) + (c - 1) = u - K + c := by omega
    have e6 : u + 1 + (c - 1) = u + c := by omega
    have e7 : u + c - K = u - K + c := by omega
    rw [hz, e5, e6, e7]
    ring

/-- The matrix loops compute the blossom: after the levels `a+1 .. a+n` row 0 of
the product holds the recursion applied to the sequence that row 0 held before. -/
theorem foldl_mul_coeff (t : Nat → ℚ) (xs : Nat → ℚ) (u a : Nat) (B : SparseMatrix)
    (v : Nat → ℚ) (hcols : B.cols = a + 1) (hv : SuppWindow u a v)
    (hB : ∀ c, c < a + 1 → B.coeff 0 c = v (u - a + c)) (n : Nat) :
    a + n ≤ u → ∀ c, c ≤ a + n →
      (((List.range n).map (fun i => a + 1 + i)).foldl
          (fun B k => B.mul (basisMatrixT t (xs k) u k false)) B).coeff 0 c
        = blossomFrom t a v ((List.range n).map (fun i => xs (a + 1 + i))) (u - (a + n) + c) := by
  induction n with
  | zero =>
    intro _ c hc
    exact hB c (by omega)
  | succ n ih =>
    intro hu c hc
    have hw := suppWindow_blossomFrom t u ((List.range n).map (fun i => xs (a + 1 + i))) a v hv
    rw [List.length_map, List.length_range] at hw
    rw [List.range_succ, List.map_append, List.map_append, List.foldl_append, blossomFrom_append,
      List.length_map, List.length_range]
    simp only [List.map_cons, List.map_nil, List.foldl_cons, List.foldl_nil, blossomFrom]
    have e : a + (n + 1) = a + 1 + n := by omega
    have e' : a + n + 1 = a + 1 + n := by omega
    rw [e, e']
    apply mul_basisMatrixT_coeff t (xs (a + 1 + n)) u (a + 1 + n) _ _ (by omega) (by omega)
      (by rw [foldl_mul_cols t xs u false a n B hcols]; omega)
      (by
        have e2 : a + 1 + n - 1 = a + n := by omega
        rw [e2]; exact hw)
      (by
        intro c' hc'
        have e2 : a + 1 + n - 1 = a + n := by omega
        rw [e2]
        exact ih (by omega) c' (by omega)) c (by omega)

/-- The coefficients of the row that `buildKnotInsertionMatrix` computes for
the refined knot `i`: the blossom at the `p` refined knots after `i`. -/
theorem insertionRowT_coeff (t s : Nat → ℚ) (i u p : Nat) (hu : p ≤ u) (c : Nat) (hc : c ≤ p) :
    (insertionRowT t s i u p).coeff 0 c
      = blossom t u ((List.range p).map (fun r => s (i + 1 + r))) (u - p + c) := by
  unfold insertionRowT blossom
  have e : (fun j : Nat => j + 1) = fun j => 0 + 1 + j := by
    funext j; omega
  have e2 : (fun r : Nat => s (i + 1 + r)) = fun r => (fun j => s (i + j)) (0 + 1 + r) := by
    funext r
    show s (i + 1 + r) = s (i + (0 + 1 + r))
    congr 1
    omega
  rw [e, e2]
  have := foldl_mul_coeff t (fun j => s (i + j)) u 0 SparseMatrix.one11 (unitAt u) rfl
    (suppWindow_unitAt u) (by
      intro c' hc'
      have : c' = 0 := by omega
      subst this
      simp [SparseMatrix.one11, unitAt]) p (by omega) c (by omega)
  simpa using this

/-- The coefficients of the knot insertion matrix: row `i` holds the blossom at
the interval of the refined knot `i`, taken at the `p` refined knots after it. -/
theorem insertionMatrixT_coeff (p : Nat) (knots ref : List ℚ) (i j : Nat)
    (hi : i + p + 1 < ref.length) (hU : p + 1 ≤ upperBound knots (knotAt ref i)) :
    (insertionMatrixT p knots ref).coeff i j
      = blossom (knotAt knots) (upperBound knots (knotAt ref i) - 1)
          ((List.range p).map (fun r => knotAt ref (i + 1 + r))) j := by
  unfold insertionMatrixT scatterMatrix
  dsimp only
  rw [List.getElem?_map, List.getElem?_range (by omega)]
  dsimp only [Option.map]
  rw [insertionRowT_cols]
  by_cases hw : ((upperBound knots (knotAt ref i) : Int) - 1 - (p : Int)) ≤ (j : Int)
      ∧ (j : Int) < ((upperBound knots (knotAt ref i) : Int) - 1 - (p : Int)) + ((p + 1 : Nat) : Int)
  · rw [if_pos hw]
    have e : ((j : Int) - ((upperBound knots (knotAt ref i) : Int) - 1 - (p : Int))).toNat
        = j - (upperBound knots (knotAt ref i) - 1 - p) := by omega
    rw [e, insertionRowT_coeff _ _ _ _ _ (by omega) _ (by omega)]
    congr 1
    omega
  · rw [if_neg hw]
    by_contra hne
    have hs := suppWindow_blossom (knotAt knots) (upperBound knots (knotAt ref i) - 1)
      ((List.range p).map (fun r => knotAt ref (i + 1 + r))) j (Ne.symm hne)
    rw [List.length_map, List.length_range] at hs
    apply hw
    omega

/-! ## The Oslo algorithm: the knot insertion matrix preserves the basis -/

theorem upperBound_mono (vec : List ℚ) (a c : ℚ) (h : a ≤ c) :
    upperBound vec a ≤ upperBound vec c := by
  by_contra hc
  have h1 : upperBound vec c < vec.length := by
    have := upperBound_le_length vec a
    omega
  have h2 := lt_knotAt_upperBound vec c h1
  have h3 := knotAt_le_of_lt_upperBound vec a (upperBound vec c) (by omega)
  linarith

/-- The blossoms at the intervals of two points `a ≤ ξ` of the domain agree when
every knot in `(a, ξ]` equals `ξ` and the arguments hold `ξ` as often as the
knot vector does. -/
theorem blossom_anchor_step (p : Nat) (knots : List ℚ) (hreg : Regular p knots) (a ξ : ℚ)
    (h1 : front knots ≤ a) (h2 : a ≤ ξ) (h3 : ξ < back knots)
    (hno : ∀ v ∈ knots, a < v → v ≤ ξ → v = ξ) (ys : List ℚ) (hlen : ys.length = p)
    (hc : a < ξ → knots.count ξ ≤ ys.count ξ) :
    blossom (knotAt knots) (upperBound knots a - 1) ys
      = blossom (knotAt knots) (upperBound knots ξ - 1) ys := by
  rcases eq_or_lt_of_le h2 with heq | hlt
  · rw [heq]
  obtain ⟨a1, a2⟩ := hreg.upperBound_bounds a h1 (by linarith)
  obtain ⟨b1, b2⟩ := hreg.upperBound_bounds ξ (by linarith) h3
  have hle := upperBound_mono knots a ξ h2
  have hblock : ∀ g, upperBound knots a - 1 + 1 ≤ g →
      g ≤ upperBound knots a - 1 + (upperBound knots ξ - upperBound knots a) →
      knotAt knots g = ξ := by
    intro g g1 g2
    apply hno _ (knotAt_mem knots g (by omega))
    · exact lt_knotAt_of_upperBound_le knots hreg.sorted a g (by omega) (by omega)
    · exact knotAt_le_of_lt_upperBound knots ξ g (by omega)
  have hr : upperBound knots ξ - upperBound knots a ≤ knots.count ξ :=
    count_ge_of_run knots ξ (upperBound knots a) _ (by omega) (by
      intro g g1 g2
      exact hblock g (by omega) (by omega))
  have := blossom_anchor_shift (knotAt knots) knots.length (upperBound knots a - 1)
    (upperBound knots ξ - upperBound knots a) ξ hreg.mono
    (lt_of_le_of_lt (knotAt_le_of_lt_upperBound knots a _ (by omega)) hlt) hblock
    (by
      have e : upperBound knots a - 1 + (upperBound knots ξ - upperBound knots a) + 1
          = upperBound knots ξ := by omega
      rw [e]
      exact lt_knotAt_upperBound knots ξ (by omega))
    ys (le_trans hr (hc hlt)) (by rw [hlen]; omega)
  have e : upperBound knots a - 1 + (upperBound knots ξ - upperBound knots a)
      = upperBound knots ξ - 1 := by omega
  rw [e] at this
  exact this

theorem map_range_eq_take_drop (vec : List ℚ) (i p : Nat) (h : i + 1 + p ≤ vec.length) :
    (List.range p).map (fun r => knotAt vec (i + 1 + r)) = (vec.drop (i + 1)).take p := by
  apply List.ext_getElem?
  intro n
  by_cases hn : n < p
  · rw [List.getElem?_map, List.getElem?_range hn, List.getElem?_take, if_pos hn,
      List.getElem?_drop]
    simp only [Option.map, knotAt]
    rw [List.getElem?_eq_getElem (by omega)]
    rfl
  · rw [List.getElem?_eq_none (by simp; omega), List.getElem?_eq_none (by
      rw [List.length_take, List.length_drop]; omega)]

/-- Every copy of a value `ξ` of the sorted vector that lies after position `i`
and before position `i + p + 1` is among the `p` entries after position `i`. -/
theorem count_window (vec : List ℚ) (hs : vec.Sorted (· ≤ ·)) (i p : Nat) (ξ : ℚ)
    (h : i + 1 + p < vec.length) (hlo : knotAt vec i < ξ) (hhi : ξ < knotAt vec (i + 1 + p)) :
    vec.count ξ = ((List.range p).map (fun r => knotAt vec (i + 1 + r))).count ξ := by
  have hm := monoUpTo_of_sorted vec hs
  rw [map_range_eq_take_drop vec i p (by omega)]
  have e : vec = vec.take (i + 1) ++ ((vec.drop (i + 1)).take p ++ (vec.drop (i + 1)).drop p) := by
    rw [List.take_append_drop, List.take_append_drop]
  have c1 : (vec.take (i + 1)).count ξ = 0 := by
    apply List.count_eq_zero_of_not_mem
    intro hmem
    obtain ⟨g, hg, eg⟩ := exists_knotAt_of_mem _ _ hmem
    rw [List.length_take] at hg
    rw [knotAt_take _ _ _ (by omega)] at eg
    have := hm g i (by omega) (by omega)
    rw [eg] at this
    linarith
  have c2 : ((vec.drop (i + 1)).drop p).count ξ = 0 := by
    apply List.count_eq_zero_of_not_mem
    intro hmem
    obtain ⟨g, hg, eg⟩ := exists_knotAt_of_mem _ _ hmem
    rw [List.length_drop, List.length_drop] at hg
    rw [knotAt_drop, knotAt_drop] at eg
    have := hm (i + 1 + p) (i + 1 + (p + g)) (by omega) (by omega)
    rw [eg] at this
    linarith
  conv_lhs => rw [e]
  rw [List.count_append, List.count_append, c1, c2]
  omega

theorem exists_index_after (vec : List ℚ) (hs : vec.Sorted (· ≤ ·)) (v : ℚ) (hv : v ∈ vec)
    (h : Nat) (hh : h < vec.length) (hlt : knotAt vec h < v) :
    ∃ g, h < g ∧ g < vec.length ∧ knotAt vec g = v := by
  obtain ⟨g, hg, eg⟩ := exists_knotAt_of_mem vec v hv
  refine ⟨g, ?_, hg, eg⟩
  by_contra hc
  have := monoUpTo_of_sorted vec hs g h (by omega) hh
  rw [eg] at this
  linarith

theorem Refines.mem {p : Nat} {knots ref : List ℚ} (h : Refines p knots ref) (v : ℚ)
    (hv : v ∈ knots) : v ∈ ref := by
  have h1 := h.sub v hv
  have h2 : 0 < knots.count v := List.count_pos_iff.2 hv
  exact List.count_pos_iff.1 (by omega)

/-- The blossom at the interval of the refined knot `i` and at the interval of
a later refined knot `i + d ≤ ν` agree on the `p` refined knots after `i`. -/
theorem blossom_anchor_chain (p : Nat) (knots ref : List ℚ) (h : Refines p knots ref)
    (x : ℚ) (h2 : x < back knots) (i ν : Nat)
    (hν : knotAt ref ν ≤ x ∧ x < knotAt ref (ν + 1)) (hνM : ν + p + 1 < ref.length)
    (hiν : ν ≤ i + p) (d : Nat) :
    i + d ≤ ν →
      blossom (knotAt knots) (upperBound knots (knotAt ref i) - 1)
          ((List.range p).map (fun r => knotAt ref (i + 1 + r)))
        = blossom (knotAt knots) (upperBound knots (knotAt ref (i + d)) - 1)
          ((List.range p).map (fun r => knotAt ref (i + 1 + r))) := by
  have hm := h.regRef.mono
  induction d with
  | zero => intro _; rfl
  | succ d ih =>
    intro hd
    rw [ih (by omega)]
    have e : i + (d + 1) = i + d + 1 := rfl
    rw [e]
    have hξν : knotAt ref (i + d + 1) ≤ knotAt ref ν := hm _ _ (by omega) (by omega)
    apply blossom_anchor_step p knots h.reg
    · rw [h.front_eq]; exact h.regRef.front_le _ (by omega)
    · exact hm _ _ (by omega) (by omega)
    · linarith [hν.1]
    · intro v hv hlo hhi
      obtain ⟨g, g1, g2, g3⟩ := exists_index_after ref h.regRef.sorted v (h.mem v hv) (i + d)
        (by omega) hlo
      have := hm (i + d + 1) g (by omega) g2
      rw [g3] at this
      linarith
    · rw [List.length_map, List.length_range]
    · intro hlt
      by_cases hmem : knotAt ref (i + d + 1) ∈ knots
      · rw [← count_window ref h.regRef.sorted i p _ (by omega)
          (lt_of_le_of_lt (hm i (i + d) (by omega) (by omega)) hlt)
          (by
            have := hm (ν + 1) (i + 1 + p) (by omega) (by omega)
            linarith [hν.2])]
        exact h.sub _ hmem
      · rw [List.count_eq_zero_of_not_mem hmem]
        omega

/-- The blossom at the interval of a refined knot `i` with `ν - p ≤ i ≤ ν` and
the blossom at the interval of `x` agree on the `p` refined knots after `i`. -/
theorem blossom_anchor_of_point (p : Nat) (knots ref : List ℚ) (h : Refines p knots ref)
    (x : ℚ) (h2 : x < back knots) (i ν : Nat)
    (hν : knotAt ref ν ≤ x ∧ x < knotAt ref (ν + 1)) (hνM : ν + p + 1 < ref.length)
    (hiν : ν ≤ i + p) (hi : i ≤ ν) :
    blossom (knotAt knots) (upperBound knots (knotAt ref i) - 1)
        ((List.range p).map (fun r => knotAt ref (i + 1 + r)))
      = blossom (knotAt knots) (upperBound knots x - 1)
        ((List.range p).map (fun r => knotAt ref (i + 1 + r))) := by
  have hm := h.regRef.mono
  rw [blossom_anchor_chain p knots ref h x h2 i ν hν hνM hiν (ν - i) (by omega)]
  have e : i + (ν - i) = ν := by omega
  rw [e]
  have hnone : ∀ v ∈ knots, knotAt ref ν < v → v ≤ x → False := by
    intro v hv hlo hhi
    obtain ⟨g, g1, g2, g3⟩ := exists_index_after ref h.regRef.sorted v (h.mem v hv) ν
      (by omega) hlo
    have := hm (ν + 1) g (by omega) g2
    rw [g3] at this
    linarith [hν.2]
  apply blossom_anchor_step p knots h.reg
  · rw [h.front_eq]; exact h.regRef.front_le _ (by omega)
  · exact hν.1
  · exact h2
  · intro v hv hlo hhi
    exact absurd (hnone v hv hlo hhi) id
  · rw [List.length_map, List.length_range]
  · intro hlt
    have hmem : x ∉ knots := fun hx => hnone x hx hlt le_rfl
    rw [List.count_eq_zero_of_not_mem hmem]
    omega

theorem sum_range_window (f : Nat → ℚ) (lo len m : Nat) (h : lo + len ≤ m)
    (hz : ∀ i, i < m → (i < lo ∨ lo + len ≤ i) → f i = 0) :
    ∑ i in Finset.range m, f i = ∑ i in Finset.range len, f (lo + i) := by
  obtain ⟨rest, rfl⟩ : ∃ rest, m = lo + len + rest := ⟨m - (lo + len), by omega⟩
  rw [Finset.sum_range_add, Finset.sum_range_add]
  have z1 : ∑ i in Finset.range lo, f i = 0 := by
    apply Finset.sum_eq_zero
    intro i hi
    rw [Finset.mem_range] at hi
    exact hz i (by omega) (Or.inl hi)
  have z2 : ∑ i in Finset.range rest, f (lo + len + i) = 0 := by
    apply Finset.sum_eq_zero
    intro i hi
    rw [Finset.mem_range] at hi
    exact hz _ (by omega) (Or.inr (by omega))
  rw [z1, z2]
  ring

/-- The knot insertion matrix expresses every basis function over the current
knots in the basis over the refined knots (the Oslo algorithm is correct). -/
theorem refinement_basis (p : Nat) (knots ref : List ℚ) (h : Refines p knots ref) (x : ℚ)
    (h1 : front knots ≤ x) (h2 : x < back knots) (j : Nat) (hj : j + p + 1 < knots.length) :
    bspl (knotAt knots) x j p
      = ∑ i in Finset.range (ref.length - p - 1),
          (insertionMatrixT p knots ref).coeff i j * bspl (knotAt ref) x i p := by
  obtain ⟨a1, a2⟩ := h.reg.upperBound_bounds x h1 h2
  obtain ⟨b1, b2⟩ := h.regRef.upperBound_bounds x (by rw [← h.front_eq]; exact h1)
    (by rw [← h.back_eq]; exact h2)
  have hμ := h.reg.interval x h1 h2
  have hν := h.regRef.interval x (by rw [← h.front_eq]; exact h1) (by rw [← h.back_eq]; exact h2)
  have hanchor : Anchor (knotAt knots) knots.length (upperBound knots x - 1) :=
    ⟨h.reg.mono, by linarith [hμ.1, hμ.2]⟩
  have hmref := h.regRef.mono
  -- the window of the refined basis functions that do not vanish at `x`
  rw [sum_range_window _ (upperBound ref x - 1 - p) (p + 1) _ (by omega) (by
    intro i hi hout
    have hz : bspl (knotAt ref) x i p = 0 := by
      apply bspl_support _ _ hmref x p i (by omega)
      rcases hout with hlo | hhi
      · right
        exact le_trans (hmref (i + p + 1) (upperBound ref x - 1) (by omega) (by omega)) hν.1
      · left
        exact lt_of_lt_of_le hν.2 (hmref _ i (by omega) (by omega))
    rw [hz, mul_zero])]
  rw [bspl_eq_blossom _ _ _ hanchor x hμ p j hj (by omega),
    ← blossom_deBoor (knotAt knots) knots.length (upperBound knots x - 1) hanchor
      (knotAt ref) ref.length (upperBound ref x - 1) hmref x hν p (by omega) j p le_rfl
      (by omega) (by omega)]
  apply Finset.sum_congr rfl
  intro i hi
  rw [Finset.mem_range] at hi
  have hi1 : upperBound ref x - 1 - p + i ≤ upperBound ref x - 1 := by omega
  have hti : knotAt ref (upperBound ref x - 1 - p + i) < back knots :=
    lt_of_le_of_lt (le_trans (hmref _ _ hi1 (by omega)) hν.1) h2
  have hfi : front knots ≤ knotAt ref (upperBound ref x - 1 - p + i) := by
    rw [h.front_eq]; exact h.regRef.front_le _ (by omega)
  obtain ⟨c1, _⟩ := h.reg.upperBound_bounds _ hfi hti
  rw [insertionMatrixT_coeff p knots ref _ j (by omega) c1,
    blossom_anchor_of_point p knots ref h x h2 _ (upperBound ref x - 1) hν (by omega)
      (by omega) hi1]
  have e : deBoorArgs (knotAt ref) x p p (upperBound ref x - 1 - p + i)
      = (List.range p).map (fun r => knotAt ref (upperBound ref x - 1 - p + i + 1 + r)) := by
    unfold deBoorArgs
    simp
  rw [e]
  ring

/-! ## Knot insertion preserves the spline -/

theorem splineSum_ok (b : BSplineBasis1D) (coef : List ℚ) (x : ℚ) (n : Nat)
    (hn : n + b.degree + 1 ≤ b.knots.length) :
    b.splineSum coef x n
      = Except.ok (∑ j in Finset.range n, knotAt coef j * bspl (knotAt b.knots) x j b.degree) := by
  induction n with
  | zero => rfl
  | succ n ih =>
    rw [BSplineBasis1D.splineSum, ih (by omega), deBoorCox_eq_bspl b x b.degree n (by omega),
      Finset.sum_range_succ]
    rfl

theorem splineValue_ok (b : BSplineBasis1D) (coef : List ℚ) (x : ℚ)
    (hlen : b.degree + 1 ≤ b.knots.length) :
    b.splineValue coef x
      = Except.ok (∑ j in Finset.range (b.knots.length - b.degree - 1),
          knotAt coef j * bspl (knotAt b.knots) x j b.degree) := by
  unfold BSplineBasis1D.splineValue BSplineBasis1D.getNumBasisFunctions
  rw [splineSum_ok b coef x _ (by omega)]
  have e : b.knots.length - (b.degree + 1) = b.knots.length - b.degree - 1 := by omega
  rw [e]

theorem knotAt_mulVec (A : SparseMatrix) (coef : List ℚ) (i : Nat) (hi : i < A.rows) :
    knotAt (A.mulVec coef) i = ∑ j in Finset.range A.cols, A.coeff i j * knotAt coef j := by
  unfold knotAt SparseMatrix.mulVec
  rw [List.getElem?_map, List.getElem?_range hi]
  rfl

theorem refines_of_isRefinement (b : BSplineBasis1D) (ref : List ℚ)
    (hreg : Regular b.degree b.knots) (href : b.isRefinement ref = true) :
    Refines b.degree b.knots ref := by
  obtain ⟨_, h2, h3, h4, h5⟩ := (isRefinement_iff b ref).1 href
  exact ⟨hreg, regular_of_isKnotVectorRegular b ref h2, h3, h4, h5⟩

/-- The spline with coefficients `coef` over the current knots and the spline
with coefficients `A * coef` over a refinement have the same value on the
half-open domain, for the matrix `A` of `buildKnotInsertionMatrix`. -/
theorem refinement_spline (p : Nat) (knots ref : List ℚ) (h : Refines p knots ref)
    (coef : List ℚ) (x : ℚ) (h1 : front knots ≤ x) (h2 : x < back knots) :
    ∑ j in Finset.range (knots.length - p - 1), knotAt coef j * bspl (knotAt knots) x j p
      = ∑ i in Finset.range (ref.length - p - 1),
          knotAt ((insertionMatrixT p knots ref).mulVec coef) i * bspl (knotAt ref) x i p := by
  have hrows : (insertionMatrixT p knots ref).rows = ref.length - p - 1 := rfl
  have hcols : (insertionMatrixT p knots ref).cols = knots.length - p - 1 := rfl
  have hterm : ∀ i ∈ Finset.range (ref.length - p - 1),
      knotAt ((insertionMatrixT p knots ref).mulVec coef) i * bspl (knotAt ref) x i p
        = ∑ j in Finset.range (knots.length - p - 1),
            knotAt coef j * ((insertionMatrixT p knots ref).coeff i j * bspl (knotAt ref) x i p) := by
    intro i hi
    rw [Finset.mem_range] at hi
    rw [knotAt_mulVec _ _ _ (by rw [hrows]; exact hi), hcols, Finset.sum_mul]
    apply Finset.sum_congr rfl
    intro j _
    ring
  rw [Finset.sum_congr rfl hterm, Finset.sum_comm]
  apply Finset.sum_congr rfl
  intro j hj
  rw [Finset.mem_range] at hj
  rw [← Finset.mul_sum, ← refinement_basis p knots ref h x h1 h2 j (by omega)]

/-- Claim C2 (refinement value-preservation): on a regular knot vector, for
every coefficient vector `coef` of length `numBasisFunctions` and every call
`insertKnots(tau, m)` that returns a matrix `A`, the spline with coefficients
`coef` over the knots before the call and the spline with coefficients `A * coef`
over the knots after the call have the same value at every `x` with
`knots.front() ≤ x < knots.back()`; both values are sums of `deBoorCox` values
that are computed without an exception. -/
theorem insertKnots_preserves_spline (b : BSplineBasis1D)
    (hreg : b.isKnotVectorRegular b.knots = true) (coef : List ℚ)
    (_hcoef : coef.length = b.getNumBasisFunctions) (tau : ℚ) (m : Nat)
    (A : SparseMatrix) (b' : BSplineBasis1D)
    (hins : b.insertKnots tau m = Except.ok (A, b')) (x : ℚ)
    (h1 : front b.knots ≤ x) (h2 : x < back b.knots) :
    ∃ v, b.splineValue coef x = Except.ok v ∧ b'.splineValue (A.mulVec coef) x = Except.ok v := by
  have hr := regular_of_isKnotVectorRegular b b.knots hreg
  by_cases hbad : tau < front b.knots ∨ tau > back b.knots
      ∨ b.knotMultiplicity tau + m > b.degree + 1
  · obtain ⟨e, he⟩ := insertKnots_bad b hreg tau m hbad
    rw [he] at hins
    cases hins
  have g1 : front b.knots ≤ tau := by
    by_contra h; exact hbad (Or.inl (not_le.1 h))
  have g2 : tau ≤ back b.knots := by
    by_contra h; exact hbad (Or.inr (Or.inl (not_le.1 h)))
  have g3 : b.knotMultiplicity tau + m ≤ b.degree + 1 := by
    by_contra h; exact hbad (Or.inr (Or.inr (not_le.1 h)))
  obtain ⟨k1, k2, _, k4⟩ := insertKnots_good b hreg tau m g1 g2 g3
  rw [k4] at hins
  injection hins with hins
  injection hins with hA hb'
  have href := refines_of_isRefinement b _ hr k2
  have hlen := hr.len
  have hlen' := href.regRef.len
  refine ⟨_, splineValue_ok b coef x (by omega), ?_⟩
  rw [← hb', ← hA]
  rw [splineValue_ok _ _ x (by
    show b.degree + 1 ≤ (insertLoop (upperBound b.knots tau) tau m b.knots).length
    omega)]
  congr 1
  exact (refinement_spline b.degree b.knots _ href coef x h1 h2).symm

/-- Claim C2 at the knot vector `{0,0,0,0,1,2,3,3,3,3}` of degree 3 with the
coefficients `{1,5,-2,3,7,11}`, for the call `insertKnots(1, 2)` and `x = 2`. -/
theorem insertKnots_preserves_spline_witness :
    cubicBasis.isKnotVectorRegular cubicBasis.knots = true
      ∧ ∃ v, cubicBasis.splineValue [1, 5, -2, 3, 7, 11] 2 = Except.ok v
        ∧ BSplineBasis1D.splineValue
            { cubicBasis with
              knots := insertLoop (upperBound cubicBasis.knots 1) 1 2 cubicBasis.knots }
            ((insertionMatrixT cubicBasis.degree cubicBasis.knots
              (insertLoop (upperBound cubicBasis.knots 1) 1 2 cubicBasis.knots)).mulVec
                [1, 5, -2, 3, 7, 11]) 2 = Except.ok v :=
  ⟨by decide,
    insertKnots_preserves_spline cubicBasis (by decide) [1, 5, -2, 3, 7, 11] (by decide) 1 2 _ _
      (insertKnots_good cubicBasis (by decide) 1 2 (by decide) (by decide) (by decide)).2.2.2
      2 (by decide) (by decide)⟩

/-- A successful call `insertKnots(tau, m)` on a regular knot vector has passed
both precondition checks and returns the insertion matrix and the knots with
`m` copies of `tau` inserted. -/
theorem insertKnots_ok_inv (b : BSplineBasis1D) (hreg : b.isKnotVectorRegular b.knots = true)
    (tau : ℚ) (m : Nat) (A : SparseMatrix) (b' : BSplineBasis1D)
    (hins : b.insertKnots tau m = Except.ok (A, b')) :
    front b.knots ≤ tau ∧ tau ≤ back b.knots ∧ b.knotMultiplicity tau + m ≤ b.degree + 1
      ∧ A = insertionMatrixT b.degree b.knots (insertLoop (upperBound b.knots tau) tau m b.knots)
      ∧ b' = { b with knots := insertLoop (upperBound b.knots tau) tau m b.knots } := by
  by_cases hbad : tau < front b.knots ∨ tau > back b.knots
      ∨ b.knotMultiplicity tau + m > b.degree + 1
  · obtain ⟨e, he⟩ := insertKnots_bad b hreg tau m hbad
    rw [he] at hins
    cases hins
  have g1 : front b.knots ≤ tau := by
    by_contra h; exact hbad (Or.inl (not_le.1 h))
  have g2 : tau ≤ back b.knots := by
    by_contra h; exact hbad (Or.inr (Or.inl (not_le.1 h)))
  have g3 : b.knotMultiplicity tau + m ≤ b.degree + 1 := by
    by_contra h; exact hbad (Or.inr (Or.inr (not_le.1 h)))
  obtain ⟨_, _, _, k4⟩ := insertKnots_good b hreg tau m g1 g2 g3
  rw [k4] at hins
  injection hins with hins
  injection hins with hA hb'
  exact ⟨g1, g2, g3, hA.symm, hb'.symm⟩

/-- Claim C11 (postcondition of `insertKnots`): on a regular knot vector with `n`
basis functions, after a successful call `insertKnots(tau, m)` the knot vector
is sorted and has exactly `m` more knots, the multiplicity of `tau` is its
old multiplicity plus `m`, the multiplicity of every other value is unchanged,
and the returned matrix has `n + m` rows and `n` columns. -/
theorem insertKnots_postcondition (b : BSplineBasis1D)
    (hreg : b.isKnotVectorRegular b.knots = true) (tau : ℚ) (m : Nat)
    (A : SparseMatrix) (b' : BSplineBasis1D)
    (hins : b.insertKnots tau m = Except.ok (A, b')) :
    isSorted b'.knots = true
      ∧ b'.knots.length = b.knots.length + m
      ∧ b'.knotMultiplicity tau = b.knotMultiplicity tau + m
      ∧ (∀ t, t ≠ tau → b'.knotMultiplicity t = b.knotMultiplicity t)
      ∧ A.rows = b.getNumBasisFunctions + m
      ∧ A.cols = b.getNumBasisFunctions := by
  have hr := regular_of_isKnotVectorRegular b b.knots hreg
  obtain ⟨g1, g2, _, hA, hb'⟩ := insertKnots_ok_inv b hreg tau m A b' hins
  obtain ⟨hc, hl, hs, _⟩ := extKnots_spec b.degree b.knots hr tau m g1 g2
  have hlen := hr.len
  subst hA hb'
  refine ⟨(isSorted_iff _).2 hs, hl, ?_, ?_, ?_, ?_⟩
  · show (insertLoop (upperBound b.knots tau) tau m b.knots).count tau = b.knots.count tau + m
    rw [hc, if_pos rfl]
  · intro t ht
    show (insertLoop (upperBound b.knots tau) tau m b.knots).count t = b.knots.count t
    rw [hc, if_neg ht, Nat.add_zero]
  · show (insertLoop (upperBound b.knots tau) tau m b.knots).length - b.degree - 1
      = b.knots.length - (b.degree + 1) + m
    omega
  · show b.knots.length - b.degree - 1 = b.knots.length - (b.degree + 1)
    omega

/-- Claim C11 at the knot vector `{0,0,0,0,1,2,3,3,3,3}` of degree 3 and the call
`insertKnots(1, 2)`. -/
theorem insertKnots_postcondition_witness :
    cubicBasis.isKnotVectorRegular cubicBasis.knots = true
      ∧ isSorted (insertLoop (upperBound cubicBasis.knots 1) 1 2 cubicBasis.knots) = true
      ∧ (insertLoop (upperBound cubicBasis.knots 1) 1 2 cubicBasis.knots).length
          = cubicBasis.knots.length + 2
      ∧ (insertionMatrixT cubicBasis.degree cubicBasis.knots
          (insertLoop (upperBound cubicBasis.knots 1) 1 2 cubicBasis.knots)).rows
          = cubicBasis.getNumBasisFunctions + 2 :=
  have h := insertKnots_postcondition cubicBasis (by decide) 1 2 _ _
    (insertKnots_good cubicBasis (by decide) 1 2 (by decide) (by decide) (by decide)).2.2.2
  ⟨by decide, h.1, h.2.1, h.2.2.2.2.1⟩

/-- Claim C19 (derivative-order saturation): for every knot vector of degree `p`,
every order `r ≥ p` and every `x`, inside the domain or not,
`evaluateDerivative(x, r)` throws nothing and returns the vector of length
`numBasisFunctions` that holds no entry, so no nonzero entry. -/
theorem evaluateDerivative_saturation (b : BSplineBasis1D) (nextafter : ℚ → ℚ) (x : ℚ)
    (r : Int) (hr : (b.degree : Int) ≤ r) :
    ∃ v, b.evaluateDerivative nextafter x r = Except.ok v
      ∧ v.size = b.getNumBasisFunctions ∧ v.entries = [] ∧ v.nonzeros = [] :=
  ⟨_, evaluateDerivative_saturated b nextafter x r hr, rfl, rfl, rfl⟩

/-- Claim C19 at the knot vector `{0,0,0,0,1,2,3,3,3,3}` of degree 3, the order
`r = 3` and the point `x = 7` outside the domain. -/
theorem evaluateDerivative_saturation_witness :
    ((cubicBasis.degree : Int) ≤ 3)
      ∧ ∃ v, cubicBasis.evaluateDerivative id 7 3 = Except.ok v
        ∧ v.size = cubicBasis.getNumBasisFunctions ∧ v.entries = [] ∧ v.nonzeros = [] :=
  ⟨by decide, evaluateDerivative_saturation cubicBasis id 7 3 (by decide)⟩

theorem lowerBound_eq_upperBound (vec : List ℚ) (x : ℚ) (h : x ∉ vec) :
    lowerBound vec x = upperBound vec x := by
  induction vec with
  | nil => rfl
  | cons a l ih =>
    have ha : a ≠ x := fun e => h (by rw [e]; exact List.mem_cons_self _ _)
    have hl : x ∉ l := fun e => h (List.mem_cons_of_mem _ e)
    have ih2 := ih hl
    unfold lowerBound upperBound at ih2 ⊢
    rw [List.takeWhile_cons, List.takeWhile_cons]
    by_cases hax : a < x
    · have : ¬ x < a := not_lt.2 (le_of_lt hax)
      simp only [hax, this, decide_True, decide_False, Bool.not_false, if_true, List.length_cons]
      rw [ih2]
    · have : x < a := lt_of_le_of_ne (not_lt.1 hax) (Ne.symm ha)
      simp [hax, this]

theorem gap_nonneg (vec : List ℚ) (hs : vec.Sorted (· ≤ ·)) (j : Nat) (hj : j + 1 < vec.length) :
    0 ≤ gap vec j := by
  have := monoUpTo_of_sorted vec hs j (j + 1) (by omega) hj
  unfold gap
  linarith

/-- The state of the loop of `indexLongestInterval` after `n` passes over a
sorted vector. -/
theorem longestLoop_spec (vec : List ℚ) (hs : vec.Sorted (· ≤ ·)) :
    ∀ n, n + 1 ≤ vec.length →
      ∃ L idx, longestLoop vec n = Except.ok (L, idx)
        ∧ (∀ j, j < n → gap vec j ≤ L)
        ∧ (∀ j, j < idx → gap vec j < L)
        ∧ (n = 0 → L = 0 ∧ idx = 0)
        ∧ (0 < n → idx < n ∧ gap vec idx = L) := by
  intro n
  induction n with
  | zero =>
    intro _
    exact ⟨0, 0, rfl, by intro j hj; omega, by intro j hj; omega, fun _ => ⟨rfl, rfl⟩,
      by intro h; omega⟩
  | succ n ih =>
    intro hn
    obtain ⟨L, idx, hL, h1, h2, h3, h4⟩ := ih (by omega)
    have hg := gap_nonneg vec hs n (by omega)
    have e : longestLoop vec (n + 1)
        = if L < gap vec n then Except.ok (gap vec n, n) else Except.ok (L, idx) := by
      rw [longestLoop, hL]
      simp only [bind, Except.bind]
      rw [atIdx_ok vec (n + 1) (by omega), atIdx_ok vec n (by omega)]
      rfl
    by_cases hlt : L < gap vec n
    · refine ⟨gap vec n, n, by rw [e, if_pos hlt], ?_, ?_, by intro h; omega, fun _ => ⟨by omega, rfl⟩⟩
      · intro j hj
        by_cases hjn : j = n
        · rw [hjn]
        · exact le_of_lt (lt_of_le_of_lt (h1 j (by omega)) hlt)
      · intro j hj
        exact lt_of_le_of_lt (h1 j hj) hlt
    · refine ⟨L, idx, by rw [e, if_neg hlt], ?_, h2, by intro h; omega, ?_⟩
      · intro j hj
        by_cases hjn : j = n
        · rw [hjn]; exact not_lt.1 hlt
        · exact h1 j (by omega)
      · intro _
        by_cases hn0 : n = 0
        · obtain ⟨hL0, hi0⟩ := h3 hn0
          subst hn0
          refine ⟨by omega, ?_⟩
          rw [hi0, hL0]
          rw [hL0] at hlt
          linarith
        · obtain ⟨hi, hgi⟩ := h4 (by omega)
          exact ⟨by omega, hgi⟩

/-- On a sorted vector with two knots or more `indexLongestInterval` returns
the first longest interval. -/
theorem indexLongestInterval_spec (vec : List ℚ) (hs : vec.Sorted (· ≤ ·))
    (hlen : 2 ≤ vec.length) :
    ∃ i, indexLongestInterval vec = Except.ok i ∧ FirstLongestInterval vec i := by
  obtain ⟨L, idx, hL, h1, h2, _, h4⟩ := longestLoop_spec vec hs (vec.length - 1) (by omega)
  obtain ⟨hi, hgi⟩ := h4 (by omega)
  refine ⟨idx, ?_, by omega, ?_, ?_⟩
  · unfold indexLongestInterval
    rw [if_neg (by omega), hL]
    rfl
  · intro j hj
    rw [hgi]
    exact h1 j (by omega)
  · intro j hj
    rw [hgi]
    exact h2 j hj

/-- The longest interval of a regular knot vector has positive length. -/
theorem Regular.gap_pos {p : Nat} {vec : List ℚ} (h : Regular p vec) (i : Nat)
    (hi : FirstLongestInterval vec i) : 0 < gap vec i := by
  by_contra hc
  have hle : ∀ j, j + 1 < vec.length → knotAt vec (j + 1) ≤ knotAt vec j := by
    intro j hj
    have := hi.2.1 j hj
    unfold gap at this hc
    linarith
  have hall : ∀ j, j < vec.length → knotAt vec j ≤ knotAt vec 0 := by
    intro j
    induction j with
    | zero => intro _; exact le_refl _
    | succ j ih =>
      intro hj
      exact le_trans (hle j hj) (ih (by omega))
  have hlen := h.len
  have h1 := hall (vec.length - 1) (by omega)
  rw [← back_eq_knotAt, ← front_eq_knotAt] at h1
  have := h.front_lt_back
  linarith

/-- One pass of the loop of `refineKnots` over a regular knot vector: the
midpoint of the first longest interval goes between the two knots of the
interval, and the vector stays regular. -/
theorem refineLoop_step (p : Nat) (vec : List ℚ) (h : Regular p vec) (i : Nat)
    (hi : FirstLongestInterval vec i) :
    vecInsert vec (lowerBound vec ((knotAt vec i + knotAt vec (i + 1)) / 2))
        ((knotAt vec i + knotAt vec (i + 1)) / 2) = withMidpoint vec i
      ∧ Regular p (withMidpoint vec i)
      ∧ (withMidpoint vec i).length = vec.length + 1
      ∧ (∀ t, vec.count t ≤ (withMidpoint vec i).count t)
      ∧ front (withMidpoint vec i) = front vec
      ∧ back (withMidpoint vec i) = back vec := by
  have hpos := h.gap_pos i hi
  unfold gap at hpos
  unfold withMidpoint
  have hi1 := hi.1
  have hmono := h.mono
  have hlo : knotAt vec i < (knotAt vec i + knotAt vec (i + 1)) / 2 := by linarith
  have hhi : (knotAt vec i + knotAt vec (i + 1)) / 2 < knotAt vec (i + 1) := by linarith
  generalize (knotAt vec i + knotAt vec (i + 1)) / 2 = mid at hlo hhi ⊢
  have hnot : mid ∉ vec := by
    intro hm
    obtain ⟨j, hj, hje⟩ := exists_knotAt_of_mem vec mid hm
    by_cases hji : j ≤ i
    · have := hmono j i hji (by omega)
      linarith
    · have := hmono (i + 1) j (by omega) hj
      linarith
  have hU : upperBound vec mid = i + 1 := by
    have h1 := upperBound_le_of_lt_knotAt vec mid (i + 1) hhi
    have h2 := lt_upperBound_of_knotAt_le vec h.sorted mid i (by omega) (le_of_lt hlo)
    omega
  have hcount : vec.count mid = 0 := List.count_eq_zero.2 hnot
  have hf : front vec ≤ mid := le_trans (h.front_le i (by omega)) (le_of_lt hlo)
  have hb : mid ≤ back vec := le_trans (le_of_lt hhi) (h.le_back (i + 1) hi1)
  have e : insertLoop (upperBound vec mid) mid 1 vec = vec.take (i + 1) ++ mid :: vec.drop (i + 1) := by
    rw [hU]; rfl
  obtain ⟨hc, hl, _, hfb⟩ := extKnots_spec p vec h mid 1 hf hb
  have hreg := extKnots_regular p vec h mid 1 hf hb (by omega)
  obtain ⟨hf2, hb2⟩ := hfb (by omega)
  rw [e] at hc hl hreg hf2 hb2
  refine ⟨?_, hreg, hl, ?_, hf2, hb2⟩
  · rw [lowerBound_eq_upperBound vec mid hnot, hU]
    rfl
  · intro t
    rw [hc]
    omega

/-- The loop of `refineKnots` over a regular knot vector. -/
theorem refineLoop_spec (p : Nat) :
    ∀ n vec, Regular p vec →
      ∃ out, refineLoop n vec = Except.ok out
        ∧ Regular p out
        ∧ out.length = vec.length + n
        ∧ (∀ t, vec.count t ≤ out.count t)
        ∧ front out = front vec
        ∧ back out = back vec
        ∧ AddsMidpoints n vec out := by
  intro n
  induction n with
  | zero =>
    intro vec h
    exact ⟨vec, rfl, h, rfl, fun _ => le_refl _, rfl, rfl, AddsMidpoints.done vec⟩
  | succ n ih =>
    intro vec h
    have hlen := h.len
    obtain ⟨i, hidx, hi⟩ := indexLongestInterval_spec vec h.sorted (by omega)
    obtain ⟨e, hreg, hl, hc, hf, hb⟩ := refineLoop_step p vec h i hi
    obtain ⟨out, ho, hro, hlo, hco, hfo, hbo, hmo⟩ := ih (withMidpoint vec i) hreg
    refine ⟨out, ?_, hro, by omega, fun t => le_trans (hc t) (hco t), by rw [hfo, hf],
      by rw [hbo, hb], AddsMidpoints.step n vec out i hi hmo⟩
    rw [refineLoop, hidx]
    simp only [bind, Except.bind]
    rw [atIdx_ok vec i (by have := hi.1; omega), atIdx_ok vec (i + 1) hi.1]
    simp only [e]
    exact ho

/-- The method `refineKnots` on a regular knot vector returns the insertion
matrix of the knot vector that its loop builds. -/
theorem refineKnots_spec (b : BSplineBasis1D) (hreg : Regular b.degree b.knots) :
    ∃ out, b.refineKnots
        = Except.ok (insertionMatrixT b.degree b.knots out, { b with knots := out })
      ∧ Regular b.degree out
      ∧ b.isRefinement out = true
      ∧ out.length = b.knots.length
          + (b.targetNumBasisfunctions + b.degree + 1 - b.knots.length)
      ∧ AddsMidpoints (b.targetNumBasisfunctions + b.degree + 1 - b.knots.length) b.knots out := by
  obtain ⟨out, ho, hro, hlo, hco, hfo, hbo, hmo⟩ :=
    refineLoop_spec b.degree (b.targetNumBasisfunctions + b.degree + 1 - b.knots.length) b.knots hreg
  have hr1 : b.isKnotVectorRegular out = true := isKnotVectorRegular_of_regular b out hro
  have hr2 : b.isRefinement out = true :=
    (isRefinement_iff b out).2 ⟨by omega, hr1, fun t _ => hco t, hfo.symm, hbo.symm⟩
  refine ⟨out, ?_, hro, hr2, hlo, hmo⟩
  unfold BSplineBasis1D.refineKnots
  dsimp only
  rw [ho]
  simp only [bind, Except.bind]
  rw [if_neg (by simp [hr1, hr2]), buildKnotInsertionMatrix_ok b out hreg hr2]
  rfl

/-- Claim C18 (`refineKnots` reaches its target): on a regular knot vector of
degree `p` with `n` basis functions and the target `(p+1) + 2p + 1` set by the
constructor, `refineKnots` returns without an exception; afterwards the number
of basis functions is `max(n, 3p+2)`, and the new knot vector is built from the
old one by adding knots one at a time, each the midpoint of the first longest
interval of the sequence built so far. -/
theorem refineKnots_reaches_target (b : BSplineBasis1D)
    (hreg : b.isKnotVectorRegular b.knots = true)
    (htarget : b.targetNumBasisfunctions = (b.degree + 1) + 2 * b.degree + 1) :
    ∃ A b', b.refineKnots = Except.ok (A, b')
      ∧ b'.getNumBasisFunctions = max b.getNumBasisFunctions (3 * b.degree + 2)
      ∧ AddsMidpoints (b'.knots.length - b.knots.length) b.knots b'.knots := by
  have hr := regular_of_isKnotVectorRegular b b.knots hreg
  obtain ⟨out, ho, _, _, hl, hm⟩ := refineKnots_spec b hr
  have hlen := hr.len
  refine ⟨_, _, ho, ?_, ?_⟩
  · show out.length - (b.degree + 1) = max (b.knots.length - (b.degree + 1)) (3 * b.degree + 2)
    rw [hl, htarget]
    omega
  · show AddsMidpoints (out.length - b.knots.length) b.knots out
    have e : out.length - b.knots.length
        = b.targetNumBasisfunctions + b.degree + 1 - b.knots.length := by omega
    rw [e]
    exact hm

/-- Claim C18 at the knot vector `{0,0,0,0,1,2,3,3,3,3}` of degree 3, whose
target is 11 basis functions. -/
theorem refineKnots_reaches_target_witness :
    cubicBasis.isKnotVectorRegular cubicBasis.knots = true
      ∧ cubicBasis.targetNumBasisfunctions = (cubicBasis.degree + 1) + 2 * cubicBasis.degree + 1
      ∧ ∃ A b', cubicBasis.refineKnots = Except.ok (A, b')
        ∧ b'.getNumBasisFunctions = max cubicBasis.getNumBasisFunctions (3 * cubicBasis.degree + 2)
        ∧ AddsMidpoints (b'.knots.length - cubicBasis.knots.length) cubicBasis.knots b'.knots :=
  ⟨by decide, by decide, refineKnots_reaches_target cubicBasis (by decide) (by decide)⟩

/-- The position `upper_bound` returns in a vector whose first part is not above
`v` and whose second part is above `v`. -/
theorem upperBound_append_split (l1 l2 : List ℚ) (v : ℚ) (h1 : ∀ a ∈ l1, a ≤ v)
    (h2 : ∀ c ∈ l2, v < c) : upperBound (l1 ++ l2) v = l1.length := by
  induction l1 with
  | nil =>
    cases l2 with
    | nil => rfl
    | cons c l =>
      rw [List.nil_append, upperBound_cons, if_pos (h2 c (List.mem_cons_self _ _))]
      rfl
  | cons a l ih =>
    rw [List.cons_append, upperBound_cons,
      if_neg (not_lt.2 (h1 a (List.mem_cons_self _ _))),
      ih (fun x hx => h1 x (List.mem_cons_of_mem _ hx))]
    rfl

/-- A sorted vector that starts at `v` splits at `upper_bound(v)` into its copies
of `v` and its knots above `v`. -/
theorem sorted_split_at_upperBound (S : List ℚ) (hs : S.Sorted (· ≤ ·)) (v : ℚ)
    (hv : ∀ c ∈ S, v ≤ c) :
    S.take (upperBound S v) = List.replicate (upperBound S v) v
      ∧ (∀ c ∈ S.drop (upperBound S v), v < c)
      ∧ upperBound S v = S.count v := by
  have hU := upperBound_le_length S v
  have htl : (S.take (upperBound S v)).length = upperBound S v := by
    rw [List.length_take]; omega
  have hleft : ∀ a ∈ S.take (upperBound S v), a = v := by
    intro a ha
    have h1 := hv a (List.mem_of_mem_take ha)
    obtain ⟨i, hi, e⟩ := exists_knotAt_of_mem _ a ha
    rw [htl] at hi
    rw [knotAt_take _ _ _ hi] at e
    have h2 := knotAt_le_of_lt_upperBound S v i hi
    rw [e] at h2
    exact le_antisymm h2 h1
  have hright : ∀ c ∈ S.drop (upperBound S v), v < c := by
    intro c hc
    obtain ⟨i, hi, e⟩ := exists_knotAt_of_mem _ c hc
    rw [List.length_drop] at hi
    rw [knotAt_drop] at e
    rw [← e]
    exact lt_knotAt_of_upperBound_le S hs v _ (by omega) (by omega)
  have htake : S.take (upperBound S v) = List.replicate (upperBound S v) v := by
    rw [List.eq_replicate_iff]
    exact ⟨htl, hleft⟩
  refine ⟨htake, hright, ?_⟩
  conv_rhs => rw [← List.take_append_drop (upperBound S v) S]
  rw [List.count_append, htake, List.count_replicate_self,
    List.count_eq_zero.2 (fun h => lt_irrefl v (hright v h))]
  rfl

/-- The loop of `decomposeToBezierForm` from a position where the knots before
it are done, the knots `S` from it on are the knots of the stored knot vector
above them, and the pass budget covers `S`: the loop ends, and the knots `R`
it leaves from the position on hold every value of `S` exactly `p + 1` times. -/
theorem decomposeLoop_spec (b : BSplineBasis1D) (hmult : ∀ t, b.knots.count t ≤ b.degree + 1) :
    ∀ fuel (P S : List ℚ), S.Sorted (· ≤ ·) → (∀ a ∈ P, ∀ c ∈ S, a < c) →
      (∀ c ∈ S, S.count c = b.knots.count c) → S.length ≤ fuel →
      ∃ R, b.decomposeLoop fuel P.length (P ++ S) = some (P ++ R)
        ∧ R.Sorted (· ≤ ·)
        ∧ (∀ t, R.count t = if t ∈ S then b.degree + 1 else 0) := by
  intro fuel
  induction fuel with
  | zero =>
    intro P S _ _ _ hl
    have hS : S = [] := List.length_eq_zero.1 (by omega)
    subst hS
    refine ⟨[], ?_, List.sorted_nil, fun t => by simp⟩
    rw [decomposeLoop, if_pos (by simp)]
  | succ fuel ih =>
    intro P S hs hP hc hl
    cases S with
    | nil =>
      refine ⟨[], ?_, List.sorted_nil, fun t => by simp⟩
      rw [decomposeLoop, if_pos (by simp)]
    | cons v S' =>
      have hv : ∀ c ∈ v :: S', v ≤ c := by
        intro c hc'
        rcases List.mem_cons.1 hc' with e | e
        · rw [e]
        · exact List.rel_of_sorted_cons hs c e
      obtain ⟨htake, hright, hU⟩ := sorted_split_at_upperBound (v :: S') hs v hv
      have hUlen := upperBound_le_length (v :: S') v
      have hcv : (v :: S').count v = b.knots.count v := hc v (List.mem_cons_self _ _)
      have hcpos : 0 < (v :: S').count v := List.count_pos_iff.2 (List.mem_cons_self _ _)
      have hm := hmult v
      -- the vector after the insertion
      have hsplit : v :: S' = List.replicate (upperBound (v :: S') v) v
          ++ (v :: S').drop (upperBound (v :: S') v) := by
        conv_lhs => rw [← List.take_append_drop (upperBound (v :: S') v) (v :: S')]
        rw [htake]
      have hins : (if ((b.degree : Int) + 1) - (b.knotMultiplicity v : Int) > 0 then
            (P ++ v :: S').take P.length
              ++ List.replicate (((b.degree : Int) + 1) - (b.knotMultiplicity v : Int)).toNat v
              ++ (P ++ v :: S').drop P.length
          else P ++ v :: S')
          = (P ++ List.replicate (b.degree + 1) v) ++ (v :: S').drop (upperBound (v :: S') v) := by
        have hk : b.knotMultiplicity v = b.knots.count v := rfl
        have e1 : (((b.degree : Int) + 1) - (b.knotMultiplicity v : Int)).toNat
            = b.degree + 1 - b.knots.count v := by rw [hk]; omega
        have e2 : b.degree + 1 = (b.degree + 1 - b.knots.count v) + upperBound (v :: S') v := by
          omega
        have e3 : (P ++ List.replicate (b.degree + 1) v) ++ (v :: S').drop (upperBound (v :: S') v)
            = P ++ List.replicate (b.degree + 1 - b.knots.count v) v ++ (v :: S') := by
          conv_rhs => rw [hsplit]
          conv_lhs => rw [e2, List.replicate_add]
          simp only [List.append_assoc]
        rw [e3]
        split
        · rw [List.take_left, List.drop_left, e1]
        · rename_i hneg
          have : b.degree + 1 - b.knots.count v = 0 := by rw [hk] at hneg; omega
          rw [this]
          simp
      have hP' : ∀ a ∈ P ++ List.replicate (b.degree + 1) v,
          ∀ c ∈ (v :: S').drop (upperBound (v :: S') v), a < c := by
        intro a ha c hc'
        rcases List.mem_append.1 ha with ha | ha
        · exact hP a ha c (List.mem_of_mem_drop hc')
        · rw [List.eq_of_mem_replicate ha]
          exact hright c hc'
      have hc' : ∀ c ∈ (v :: S').drop (upperBound (v :: S') v),
          ((v :: S').drop (upperBound (v :: S') v)).count c = b.knots.count c := by
        intro c hcm
        rw [← hc c (List.mem_of_mem_drop hcm)]
        conv_rhs => rw [hsplit]
        rw [List.count_append, List.count_replicate]
        have hne : ¬ v = c := fun e => lt_irrefl v (by rw [← e] at hcm; exact hright v hcm)
        simp [hne]
      have hl' : ((v :: S').drop (upperBound (v :: S') v)).length ≤ fuel := by
        rw [List.length_drop]
        omega
      obtain ⟨R', hR', hsR', hcR'⟩ := ih (P ++ List.replicate (b.degree + 1) v)
        ((v :: S').drop (upperBound (v :: S') v)) (hs.sublist (List.drop_sublist _ _)) hP' hc' hl'
      have hmemR' : ∀ c ∈ R', v < c := by
        intro c hcm
        have h1 := hcR' c
        have h2 : 0 < R'.count c := List.count_pos_iff.2 hcm
        by_cases hin : c ∈ (v :: S').drop (upperBound (v :: S') v)
        · exact hright c hin
        · rw [if_neg hin] at h1
          omega
      refine ⟨List.replicate (b.degree + 1) v ++ R', ?_, ?_, ?_⟩
      · rw [decomposeLoop, if_neg (by simp)]
        have hk : knotAt (P ++ v :: S') P.length = v := by
          rw [knotAt_append_right _ _ _ (le_refl _), Nat.sub_self, knotAt_cons_zero]
        simp only [hk]
        rw [hins]
        rw [upperBound_append_split _ _ v (by
          intro a ha
          rcases List.mem_append.1 ha with ha | ha
          · exact le_of_lt (hP a ha v (List.mem_cons_self _ _))
          · rw [List.eq_of_mem_replicate ha]) hright]
        rw [hR', List.append_assoc]
      · unfold List.Sorted
        rw [List.pairwise_append]
        refine ⟨sorted_replicate _ _, hsR', ?_⟩
        intro a ha c hcm
        rw [List.eq_of_mem_replicate ha]
        exact le_of_lt (hmemR' c hcm)
      · intro t
        rw [List.count_append, List.count_replicate, hcR']
        by_cases htv : t = v
        · subst htv
          have : t ∉ (t :: S').drop (upperBound (t :: S') t) :=
            fun h => lt_irrefl t (hright t h)
          simp [this]
        · have hne : ¬ v = t := fun e => htv e.symm
          have hiff : t ∈ (v :: S').drop (upperBound (v :: S') v) ↔ t ∈ v :: S' := by
            constructor
            · exact List.mem_of_mem_drop
            · intro h
              rw [hsplit] at h
              rcases List.mem_append.1 h with h | h
              · exact absurd (List.eq_of_mem_replicate h) htv
              · exact h
          by_cases hin : t ∈ v :: S'
          · simp [hne, hin, hiff.2 hin]
          · have : t ∉ (v :: S').drop (upperBound (v :: S') v) := fun h => hin (hiff.1 h)
            simp [hne, hin, this]

theorem count_add_count_le_length (l : List ℚ) (a c : ℚ) (h : a ≠ c) :
    l.count a + l.count c ≤ l.length := by
  induction l with
  | nil => simp
  | cons x l ih =>
    rw [List.count_cons, List.count_cons, List.length_cons]
    by_cases h1 : x = a
    · have h2 : ¬ x = c := fun e => h (h1.symm.trans e)
      have e1 : (x == a) = true := by simpa using h1
      have e2 : (x == c) = false := by simpa using h2
      rw [e1, e2]
      simp only [if_true, Bool.false_eq_true, if_false]
      omega
    · have e1 : (x == a) = false := by simpa using h1
      rw [e1]
      simp only [Bool.false_eq_true, if_false]
      split <;> omega

theorem length_le_of_count_le (l1 l2 : List ℚ) (h : ∀ t, l1.count t ≤ l2.count t) :
    l1.length ≤ l2.length :=
  (List.subperm_ext_iff.2 (fun t _ => h t)).length_le

theorem front_mem (vec : List ℚ) (h : vec ≠ []) : front vec ∈ vec := by
  rw [front_eq_knotAt]
  exact knotAt_mem vec 0 (List.length_pos.2 h)

theorem back_mem (vec : List ℚ) (h : vec ≠ []) : back vec ∈ vec := by
  rw [back_eq_knotAt]
  have := List.length_pos.2 h
  exact knotAt_mem vec _ (by omega)

theorem front_le_of_mem (vec : List ℚ) (hs : vec.Sorted (· ≤ ·)) (a : ℚ) (h : a ∈ vec) :
    front vec ≤ a := by
  obtain ⟨i, hi, e⟩ := exists_knotAt_of_mem vec a h
  rw [front_eq_knotAt, ← e]
  exact monoUpTo_of_sorted vec hs 0 i (by omega) hi

theorem le_back_of_mem (vec : List ℚ) (hs : vec.Sorted (· ≤ ·)) (a : ℚ) (h : a ∈ vec) :
    a ≤ back vec := by
  obtain ⟨i, hi, e⟩ := exists_knotAt_of_mem vec a h
  rw [back_eq_knotAt, ← e]
  exact monoUpTo_of_sorted vec hs i _ (by omega) (by omega)

/-- Two sorted vectors with the same values have the same first and last knot. -/
theorem front_back_eq_of_mem_iff (l1 l2 : List ℚ) (h1 : l1.Sorted (· ≤ ·))
    (h2 : l2.Sorted (· ≤ ·)) (hne : l1 ≠ []) (h : ∀ t, t ∈ l1 ↔ t ∈ l2) :
    front l1 = front l2 ∧ back l1 = back l2 := by
  have hne2 : l2 ≠ [] := by
    intro e
    have := (h _).1 (front_mem l1 hne)
    rw [e] at this
    simp at this
  constructor
  · exact le_antisymm (front_le_of_mem l1 h1 _ ((h _).2 (front_mem l2 hne2)))
      (front_le_of_mem l2 h2 _ ((h _).1 (front_mem l1 hne)))
  · exact le_antisymm (le_back_of_mem l2 h2 _ ((h _).1 (back_mem l1 hne)))
      (le_back_of_mem l1 h1 _ ((h _).2 (back_mem l2 hne2)))

/-- The method `decomposeToBezierForm` on a regular knot vector, with a pass
budget of at least the number of knots: the loop ends, the checks pass and the
method returns the insertion matrix of the knot vector that holds every old
value `p + 1` times. -/
theorem decomposeToBezierForm_regular (b : BSplineBasis1D) (hreg : Regular b.degree b.knots)
    (fuel : Nat) (hfuel : b.knots.length ≤ fuel) :
    ∃ R, b.decomposeToBezierForm fuel
        = some (Except.ok (insertionMatrixT b.degree b.knots R, { b with knots := R }))
      ∧ R.Sorted (· ≤ ·)
      ∧ (∀ t, R.count t = if t ∈ b.knots then b.degree + 1 else 0)
      ∧ Regular b.degree R
      ∧ b.isRefinement R = true := by
  obtain ⟨R, hR, hsR, hcR⟩ := decomposeLoop_spec b hreg.mult fuel [] b.knots hreg.sorted
    (by intro a ha; cases ha) (fun _ _ => rfl) hfuel
  rw [List.nil_append, List.nil_append, List.length_nil] at hR
  have hlen := hreg.len
  have hne : b.knots ≠ [] := by
    intro e; rw [e] at hlen; simp at hlen
  have hmem : ∀ t, t ∈ b.knots ↔ t ∈ R := by
    intro t
    constructor
    · intro h
      apply List.count_pos_iff.1
      rw [hcR, if_pos h]
      omega
    · intro h
      by_contra hn
      have := List.count_pos_iff.2 h
      rw [hcR, if_neg hn] at this
      omega
  obtain ⟨hf, hb⟩ := front_back_eq_of_mem_iff b.knots R hreg.sorted hsR hne hmem
  have hle : ∀ t, b.knots.count t ≤ R.count t := by
    intro t
    rw [hcR]
    by_cases h : t ∈ b.knots
    · rw [if_pos h]; exact hreg.mult t
    · rw [if_neg h, List.count_eq_zero.2 h]
  have hregR : Regular b.degree R := by
    rw [regular_iff_counts]
    have h1 := hcR (front R)
    have h2 := hcR (back R)
    rw [← hf, if_pos (front_mem _ hne)] at h1
    rw [← hb, if_pos (back_mem _ hne)] at h2
    refine ⟨?_, hsR, by rw [← hf]; exact h1, by rw [← hb]; exact h2, ?_⟩
    · have := count_add_count_le_length R (front b.knots) (back b.knots)
        (ne_of_lt hreg.front_lt_back)
      omega
    · intro t
      rw [hcR]
      split <;> omega
  have hr1 : b.isKnotVectorRegular R = true := isKnotVectorRegular_of_regular b R hregR
  have hr2 : b.isRefinement R = true :=
    (isRefinement_iff b R).2 ⟨length_le_of_count_le _ _ hle, hr1, fun t _ => hle t, hf, hb⟩
  refine ⟨R, ?_, hsR, hcR, hregR, hr2⟩
  unfold BSplineBasis1D.decomposeToBezierForm
  rw [hR]
  dsimp only
  rw [if_neg (by simp [hr1, hr2]), buildKnotInsertionMatrix_ok b R hreg hr2]
  rfl

/-- The call `decomposeToBezierForm` at the knot vector `{0,0,0,0,1,2,3,3,3,3}`
of degree 3 adds three knots at 1 and three at 2. -/
theorem cubicBasis_decomposeToBezierForm :
    cubicBasis.decomposeToBezierForm 10
      = some (Except.ok
          (insertionMatrixT 3 cubicBasis.knots [0, 0, 0, 0, 1, 1, 1, 1, 2, 2, 2, 2, 3, 3, 3, 3],
            { cubicBasis with knots := [0, 0, 0, 0, 1, 1, 1, 1, 2, 2, 2, 2, 3, 3, 3, 3] })) := by
  have h : cubicBasis.decomposeLoop 10 0 cubicBasis.knots
      = some [0, 0, 0, 0, 1, 1, 1, 1, 2, 2, 2, 2, 3, 3, 3, 3] := by decide
  unfold BSplineBasis1D.decomposeToBezierForm
  rw [h]
  dsimp only
  rw [if_neg (by decide), buildKnotInsertionMatrix_ok cubicBasis _
    (regular_of_isKnotVectorRegular cubicBasis _ cubicBasis_regular) (by decide)]
  rfl

/-- A vector that holds every value of `K` exactly `m` times, and nothing else,
has `m` knots for each distinct value of `K`. -/
theorem length_of_uniform_counts (R K : List ℚ) (m : Nat)
    (h : ∀ t, R.count t = if t ∈ K then m else 0) (hm : 0 < m) :
    R.length = m * K.dedup.length := by
  have hmem : ∀ t, t ∈ R ↔ t ∈ K := by
    intro t
    constructor
    · intro ht
      by_contra hn
      have := List.count_pos_iff.2 ht
      rw [h, if_neg hn] at this
      omega
    · intro ht
      apply List.count_pos_iff.1
      rw [h, if_pos ht]
      exact hm
  have hperm : R.dedup.Perm K.dedup :=
    (List.perm_ext_iff_of_nodup (List.nodup_dedup R) (List.nodup_dedup K)).2 (fun a => by
      rw [List.mem_dedup, List.mem_dedup]
      exact hmem a)
  rw [← hperm.length_eq, ← List.sum_map_count_dedup_eq_length R]
  have e : R.dedup.map (fun x => R.count x) = R.dedup.map (fun _ => m) := by
    apply List.map_congr_left
    intro x hx
    rw [h, if_pos ((hmem x).1 (List.mem_dedup.1 hx))]
  rw [e, List.map_const', List.sum_replicate, smul_eq_mul, Nat.mul_comm]

/-- In the run in which every read through the invalidated iterator yields the
old knot value, `decomposeToBezierForm` on a regular knot vector of degree `p`
returns without an exception, its loop ending within as many passes as there
are knots; afterwards the knot vector has the same values as before and every
value occurs exactly `p + 1` times, so the knot vector is sorted with
`(p+1) * (number of distinct knots)` entries. -/
theorem decomposeLoop_old_value_full_multiplicity (b : BSplineBasis1D)
    (hreg : b.isKnotVectorRegular b.knots = true) (fuel : Nat) (hfuel : b.knots.length ≤ fuel) :
    ∃ A b', b.decomposeToBezierForm fuel = some (Except.ok (A, b'))
      ∧ (∀ t, t ∈ b'.knots ↔ t ∈ b.knots)
      ∧ (∀ t, t ∈ b'.knots → b'.knotMultiplicity t = b.degree + 1)
      ∧ isSorted b'.knots = true
      ∧ b'.knots.length = (b.degree + 1) * b.knots.dedup.length := by
  have hr := regular_of_isKnotVectorRegular b b.knots hreg
  obtain ⟨R, hR, hsR, hcR, _, _⟩ := decomposeToBezierForm_regular b hr fuel hfuel
  have hmem : ∀ t, t ∈ R ↔ t ∈ b.knots := by
    intro t
    constructor
    · intro h
      by_contra hn
      have := List.count_pos_iff.2 h
      rw [hcR, if_neg hn] at this
      omega
    · intro h
      apply List.count_pos_iff.1
      rw [hcR, if_pos h]
      omega
  refine ⟨_, _, hR, hmem, ?_, (isSorted_iff R).2 hsR,
    length_of_uniform_counts R b.knots (b.degree + 1) hcR (by omega)⟩
  intro t ht
  show R.count t = b.degree + 1
  rw [hcR, if_pos ((hmem t).1 ht)]

/-- In the run in which every read through the invalidated iterator yields the
old knot value, on a regular knot vector a second call of
`decomposeToBezierForm` after a first one returns without an exception and
leaves the knot vector, and so the number of basis functions, as the first call
left it. -/
theorem decomposeLoop_old_value_idempotent (b : BSplineBasis1D)
    (hreg : b.isKnotVectorRegular b.knots = true) (fuel : Nat) (hfuel : b.knots.length ≤ fuel)
    (A : SparseMatrix) (b' : BSplineBasis1D)
    (hfirst : b.decomposeToBezierForm fuel = some (Except.ok (A, b')))
    (fuel2 : Nat) (hfuel2 : b'.knots.length ≤ fuel2) :
    ∃ A2 b2, b'.decomposeToBezierForm fuel2 = some (Except.ok (A2, b2))
      ∧ b2.knots = b'.knots
      ∧ b2.getNumBasisFunctions = b'.getNumBasisFunctions := by
  have hr := regular_of_isKnotVectorRegular b b.knots hreg
  obtain ⟨R, hR, hsR, hcR, hregR, _⟩ := decomposeToBezierForm_regular b hr fuel hfuel
  rw [hR] at hfirst
  injection hfirst with hfirst
  injection hfirst with hfirst
  injection hfirst with hA hb'
  subst hb'
  obtain ⟨R2, hR2, hsR2, hcR2, _, _⟩ :=
    decomposeToBezierForm_regular { b with knots := R } hregR fuel2 hfuel2
  have hperm : R2.Perm R := by
    rw [List.perm_iff_count]
    intro t
    rw [hcR2]
    show (if t ∈ R then b.degree + 1 else 0) = R.count t
    by_cases h : t ∈ R
    · rw [if_pos h, hcR]
      have : t ∈ b.knots := by
        by_contra hn
        have := List.count_pos_iff.2 h
        rw [hcR, if_neg hn] at this
        omega
      rw [if_pos this]
    · rw [if_neg h, List.count_eq_zero.2 h]
  have heq : R2 = R := List.eq_of_perm_of_sorted hperm hsR2 hsR
  refine ⟨_, _, hR2, heq, ?_⟩
  show R2.length - (b.degree + 1) = R.length - (b.degree + 1)
  rw [heq]

theorem headD_intRange (a c : Int) (h : a ≤ c) : (intRange a c).headD 0 = a := by
  unfold intRange
  obtain ⟨n, hn⟩ : ∃ n : Nat, (c + 1 - a).toNat = n + 1 := ⟨(c - a).toNat, by omega⟩
  rw [hn, List.range_succ_eq_map]
  simp

theorem getLastD_intRange (a c : Int) (h : a ≤ c) : (intRange a c).getLastD 0 = c := by
  unfold intRange
  obtain ⟨n, hn⟩ : ∃ n : Nat, (c + 1 - a).toNat = n + 1 := ⟨(c - a).toNat, by omega⟩
  rw [hn, List.range_succ, List.map_append]
  simp
  omega

theorem atIdxInt_ok (vec : List ℚ) (i : Nat) (h : i < vec.length) :
    atIdxInt vec (i : Int) = Except.ok (knotAt vec i) := by
  unfold atIdxInt
  rw [if_neg (by omega), Int.toNat_ofNat, atIdx_ok vec i h]

/-- On a regular knot vector every point of the closed support has at least
`p + 1` knots that are not above it. -/
theorem Regular.succ_le_upperBound {p : Nat} {vec : List ℚ} (h : Regular p vec) (x : ℚ)
    (h1 : front vec ≤ x) : p + 1 ≤ upperBound vec x := by
  have hlen := h.len
  have := lt_upperBound_of_knotAt_le vec h.sorted x p (by omega)
    (by rw [h.first p le_rfl]; exact h1)
  omega

theorem length_knotRange_le (knots : List ℚ) (lo hi : Int) :
    (knotRange knots lo hi).length ≤ knots.length := by
  unfold knotRange
  rw [List.length_take, List.length_drop]
  omega

/-- The value of `adjustLower` at the first supported index of a point of the
closed support of a regular knot vector. -/
theorem adjustLower_regular (b : BSplineBasis1D) (hreg : Regular b.degree b.knots) (lb : ℚ)
    (h1 : front b.knots ≤ lb) :
    ∃ il : Nat, b.adjustLower ((upperBound b.knots lb : Int) - 1 - (b.degree : Int))
        = Except.ok (some (il : Int))
      ∧ (b.knots.count (knotAt b.knots (upperBound b.knots lb - 1 - b.degree)) = b.degree + 1 →
          il = upperBound b.knots lb - 1 - b.degree)
      ∧ (b.knots.count (knotAt b.knots (upperBound b.knots lb - 1 - b.degree)) ≠ b.degree + 1 →
          il + 1 = upperBound b.knots lb - 1 - b.degree) := by
  have hU := hreg.succ_le_upperBound lb h1
  have hUl := upperBound_le_length b.knots lb
  have e : (upperBound b.knots lb : Int) - 1 - (b.degree : Int)
      = ((upperBound b.knots lb - 1 - b.degree : Nat) : Int) := by omega
  unfold BSplineBasis1D.adjustLower
  rw [e, atIdxInt_ok _ _ (by omega)]
  simp only [Except.bind]
  by_cases hc : b.knots.count (knotAt b.knots (upperBound b.knots lb - 1 - b.degree))
      = b.degree + 1
  · refine ⟨upperBound b.knots lb - 1 - b.degree, ?_, fun _ => rfl, fun h => absurd hc h⟩
    have : b.degree + 1 = b.knotMultiplicity (knotAt b.knots (upperBound b.knots lb - 1 - b.degree)) :=
      hc.symm
    simp [this]
  · have hpos : 0 < upperBound b.knots lb - 1 - b.degree := by
      by_contra h0
      have h0' : upperBound b.knots lb - 1 - b.degree = 0 := by omega
      rw [h0', ← front_eq_knotAt, hreg.count_front] at hc
      exact hc rfl
    refine ⟨upperBound b.knots lb - 1 - b.degree - 1, ?_, fun h => absurd h hc, fun _ => by omega⟩
    have hne : ¬ b.degree + 1
        = b.knotMultiplicity (knotAt b.knots (upperBound b.knots lb - 1 - b.degree)) :=
      fun h => hc h.symm
    have e2 : ((upperBound b.knots lb - 1 - b.degree : Nat) : Int) - 1
        = ((upperBound b.knots lb - 1 - b.degree - 1 : Nat) : Int) := by omega
    simp only [hne, decide_False, Bool.not_false, if_true]
    rw [if_pos (by omega), e2]

/-- The value of `adjustUpper` at the last supported index of a point of the
closed support of a regular knot vector. -/
theorem adjustUpper_regular (b : BSplineBasis1D) (hreg : Regular b.degree b.knots) (ub : ℚ)
    (h3 : front b.knots ≤ ub) :
    b.adjustUpper ub ((upperBound b.knots ub : Int) - 1)
      = Except.ok (if b.knots.count ub = b.degree + 1
          then (upperBound b.knots ub : Int) - 1 - ((b.degree : Int) + 1)
          else (upperBound b.knots ub : Int) - 1) := by
  have hU := hreg.succ_le_upperBound ub h3
  have hUl := upperBound_le_length b.knots ub
  have e : (upperBound b.knots ub : Int) - 1 = ((upperBound b.knots ub - 1 : Nat) : Int) := by
    omega
  unfold BSplineBasis1D.adjustUpper
  by_cases hc : b.knots.count ub = b.degree + 1
  · have hk : b.knotMultiplicity ub = b.degree + 1 := hc
    rw [if_pos hk, if_pos hc, e, atIdxInt_ok _ _ (by omega)]
    simp only [Except.bind]
    have hmem : ub ∈ b.knots := List.count_pos_iff.1 (by omega)
    obtain ⟨i, hi, hie⟩ := exists_knotAt_of_mem b.knots ub hmem
    have hiU := lt_upperBound_of_knotAt_le b.knots hreg.sorted ub i hi (le_of_eq hie)
    have h5 := knotAt_le_of_lt_upperBound b.knots ub (upperBound b.knots ub - 1) (by omega)
    have h6 := hreg.mono i (upperBound b.knots ub - 1) (by omega) (by omega)
    rw [hie] at h6
    rw [if_pos (le_antisymm h5 h6)]
  · have hk : ¬ b.knotMultiplicity ub = b.degree + 1 := hc
    rw [if_neg hk, if_neg hc]

/-- The call `reduceSupport(lb, ub, A)` on a regular knot vector with both
bounds in the closed support returns `true`: no access throws, the lower index
is never rejected and the candidate is never longer than the knot vector. -/
theorem reduceSupport_regular (b : BSplineBasis1D) (hreg : Regular b.degree b.knots)
    (lb ub : ℚ) (A0 : SparseMatrix) (h1 : front b.knots ≤ lb) (h2 : lb ≤ back b.knots)
    (h3 : front b.knots ≤ ub) (h4 : ub ≤ back b.knots) :
    ∃ il iend : Nat,
      b.reduceSupport lb ub A0 = Except.ok (true,
          selectionMatrix ((b.knots.length : Int) - ((b.degree : Int) + 1))
            (((knotRange b.knots il iend).length : Int) - ((b.degree : Int) + 1)) il,
          { b with knots := knotRange b.knots il iend })
      ∧ (b.knots.count (knotAt b.knots (upperBound b.knots lb - 1 - b.degree)) = b.degree + 1 →
          il = upperBound b.knots lb - 1 - b.degree)
      ∧ (b.knots.count (knotAt b.knots (upperBound b.knots lb - 1 - b.degree)) ≠ b.degree + 1 →
          il + 1 = upperBound b.knots lb - 1 - b.degree)
      ∧ (b.knots.count ub = b.degree + 1 → iend = upperBound b.knots ub)
      ∧ (b.knots.count ub ≠ b.degree + 1 → iend = upperBound b.knots ub + b.degree + 1) := by
  have hUl := hreg.succ_le_upperBound lb h1
  have hUu := hreg.succ_le_upperBound ub h3
  obtain ⟨il, hil, hil1, hil2⟩ := adjustLower_regular b hreg lb h1
  have hiu := adjustUpper_regular b hreg ub h3
  have hm : max ((upperBound b.knots lb : Int) - 1 - (b.degree : Int)) 0
      = (upperBound b.knots lb : Int) - 1 - (b.degree : Int) := max_eq_left (by omega)
  refine ⟨il, if b.knots.count ub = b.degree + 1 then upperBound b.knots ub
    else upperBound b.knots ub + b.degree + 1, ?_, hil1, hil2, fun h => if_pos h, fun h => if_neg h⟩
  unfold BSplineBasis1D.reduceSupport
  rw [if_neg (by
    intro h
    rcases h with h | h
    · exact absurd h1 (not_le.2 h)
    · exact absurd h4 (not_le.2 h))]
  rw [indexSupportedBasisfunctions_inside b lb h1 h2 (by omega),
    indexSupportedBasisfunctions_inside b ub h3 h4 (by omega)]
  simp only [bind, Except.bind, pure, Except.pure]
  rw [hm, headD_intRange _ _ (by omega), getLastD_intRange _ _ (by omega), hil]
  simp only [hiu]
  have e : ∀ z : Int, z = ((if b.knots.count ub = b.degree + 1 then upperBound b.knots ub
      else upperBound b.knots ub + b.degree + 1 : Nat) : Int) →
      (if (b.knots.length : Int) - ((b.degree : Int) + 1)
            < ((knotRange b.knots il z).length : Int) - ((b.degree : Int) + 1) then
          (Except.ok (false, A0, b) : Except Error (Bool × SparseMatrix × BSplineBasis1D))
        else Except.ok (true,
          selectionMatrix ((b.knots.length : Int) - ((b.degree : Int) + 1))
            (((knotRange b.knots il z).length : Int) - ((b.degree : Int) + 1)) il,
          { b with knots := knotRange b.knots il z }))
      = Except.ok (true,
          selectionMatrix ((b.knots.length : Int) - ((b.degree : Int) + 1))
            (((knotRange b.knots il ((if b.knots.count ub = b.degree + 1 then upperBound b.knots ub
              else upperBound b.knots ub + b.degree + 1 : Nat) : Int)).length : Int)
                - ((b.degree : Int) + 1)) il,
          { b with knots := knotRange b.knots il ((if b.knots.count ub = b.degree + 1
              then upperBound b.knots ub else upperBound b.knots ub + b.degree + 1 : Nat) : Int) }) := by
    intro z hz
    rw [hz, if_neg (by
      have := length_knotRange_le b.knots il ((if b.knots.count ub = b.degree + 1
        then upperBound b.knots ub else upperBound b.knots ub + b.degree + 1 : Nat) : Int)
      omega)]
  exact e _ (by split <;> simp)

/-- Every call of `reduceSupport` that returns `true` has set `A` to a selection
matrix with one row for each old basis function and one column for each
new one, and has kept the degree. -/
theorem reduceSupport_true_shape (b : BSplineBasis1D) (lb ub : ℚ) (A0 A1 : SparseMatrix)
    (b' : BSplineBasis1D) (h : b.reduceSupport lb ub A0 = Except.ok (true, A1, b')) :
    A1.rows = b.getNumBasisFunctions ∧ A1.cols = b'.getNumBasisFunctions
      ∧ b'.degree = b.degree := by
  unfold BSplineBasis1D.reduceSupport at h
  split at h
  · simp [pure, Except.pure] at h
  cases h1 : b.indexSupportedBasisfunctions lb with
  | error e => rw [h1] at h; simp [bind, Except.bind] at h
  | ok sl =>
    cases h2 : b.indexSupportedBasisfunctions ub with
    | error e => rw [h1, h2] at h; simp [bind, Except.bind] at h
    | ok su =>
      rw [h1, h2] at h
      simp only [bind, Except.bind] at h
      cases h3 : b.adjustLower (sl.headD 0) with
      | error e => rw [h3] at h; simp at h
      | ok lower =>
        rw [h3] at h
        cases lower with
        | none => simp [pure, Except.pure] at h
        | some il =>
          simp only at h
          cases h4 : b.adjustUpper ub (su.getLastD 0) with
          | error e => rw [h4] at h; simp at h
          | ok iu =>
            rw [h4] at h
            simp only at h
            split at h
            · simp [pure, Except.pure] at h
            · simp only [pure, Except.pure] at h
              injection h with h
              injection h with _ h
              injection h with hA hb
              subst hA hb
              refine ⟨?_, ?_, rfl⟩
              · show ((b.knots.length : Int) - ((b.degree : Int) + 1)).toNat
                  = b.knots.length - (b.degree + 1)
                omega
              · show (((knotRange b.knots il (iu + ((b.degree : Int) + 1) + 1)).length : Int)
                    - ((b.degree : Int) + 1)).toNat
                  = (knotRange b.knots il (iu + ((b.degree : Int) + 1) + 1)).length
                    - (b.degree + 1)
                omega

/-- In a sorted vector the copies of `v` are the last knots before the position
`upper_bound(v)`. -/
theorem run_before_upperBound (vec : List ℚ) (hs : vec.Sorted (· ≤ ·)) (v : ℚ) :
    vec.count v ≤ upperBound vec v
      ∧ ∀ j, upperBound vec v - vec.count v ≤ j → j < upperBound vec v → knotAt vec j = v := by
  have hU := upperBound_le_length vec v
  have htl : (vec.take (upperBound vec v)).length = upperBound vec v := by
    rw [List.length_take]; omega
  have hright : ∀ c ∈ vec.drop (upperBound vec v), v < c := by
    intro c hc
    obtain ⟨i, hi, e⟩ := exists_knotAt_of_mem _ c hc
    rw [List.length_drop] at hi
    rw [knotAt_drop] at e
    rw [← e]
    exact lt_knotAt_of_upperBound_le vec hs v _ (by omega) (by omega)
  have hcount : (vec.take (upperBound vec v)).count v = vec.count v := by
    conv_rhs => rw [← List.take_append_drop (upperBound vec v) vec]
    rw [List.count_append, List.count_eq_zero.2 (fun h => lt_irrefl v (hright v h))]
    rfl
  have hle : vec.count v ≤ upperBound vec v := by
    have := List.count_le_length v (vec.take (upperBound vec v))
    rw [hcount, htl] at this
    exact this
  refine ⟨hle, ?_⟩
  intro j hj1 hj2
  have h1 := knotAt_le_of_lt_upperBound vec v j hj2
  by_contra hne
  have hlt : knotAt vec j < v := lt_of_le_of_ne h1 hne
  have hmono := monoUpTo_of_sorted vec hs
  have := count_le_of_absent_upto (vec.take (upperBound vec v)) v (j + 1) (by
    intro i hi1 hi2
    rw [htl] at hi2
    rw [knotAt_take _ _ _ hi2]
    have := hmono i j (by omega) (by omega)
    exact ne_of_lt (lt_of_le_of_lt this hlt))
  rw [hcount, htl] at this
  omega

theorem knotAt_knotRange (knots : List ℚ) (lo hi i : Nat) (h : i < hi - lo) :
    knotAt (knotRange knots (lo : Int) (hi : Int)) i = knotAt knots (lo + i) := by
  unfold knotRange
  rw [Int.toNat_ofNat, Int.toNat_ofNat, knotAt_take _ _ _ h, knotAt_drop]

theorem length_knotRange (knots : List ℚ) (lo hi : Nat) (h : hi ≤ knots.length) :
    (knotRange knots (lo : Int) (hi : Int)).length = hi - lo := by
  unfold knotRange
  rw [Int.toNat_ofNat, Int.toNat_ofNat, List.length_take, List.length_drop]
  omega

theorem knotRange_sublist (knots : List ℚ) (lo hi : Int) :
    (knotRange knots lo hi).Sublist knots :=
  (List.take_sublist _ _).trans (List.drop_sublist _ _)

/-- The knots of a regular knot vector from the first copy of a knot `lb` of
multiplicity `p + 1` to the last copy of a larger knot `ub` of multiplicity
`p + 1` are a regular knot vector. -/
theorem knotRange_regular (p : Nat) (knots : List ℚ) (hreg : Regular p knots) (lb ub : ℚ)
    (hlb : knots.count lb = p + 1) (hub : knots.count ub = p + 1) (hlt : lb < ub) :
    upperBound knots lb + (p + 1) ≤ upperBound knots ub
      ∧ Regular p (knotRange knots ((upperBound knots lb - 1 - p : Nat) : Int)
          ((upperBound knots ub : Nat) : Int)) := by
  obtain ⟨hl1, hl2⟩ := run_before_upperBound knots hreg.sorted lb
  obtain ⟨hu1, hu2⟩ := run_before_upperBound knots hreg.sorted ub
  rw [hlb] at hl1 hl2
  rw [hub] at hu1 hu2
  have hUu := upperBound_le_length knots ub
  have hsep : upperBound knots lb ≤ upperBound knots ub - (p + 1) :=
    upperBound_le_of_lt_knotAt knots lb _ (by
      rw [hu2 (upperBound knots ub - (p + 1)) (le_refl _) (by omega)]
      exact hlt)
  refine ⟨by omega, ?_⟩
  have hlen := length_knotRange knots (upperBound knots lb - 1 - p) (upperBound knots ub) hUu
  have hat : ∀ i, i < upperBound knots ub - (upperBound knots lb - 1 - p) →
      knotAt (knotRange knots ((upperBound knots lb - 1 - p : Nat) : Int)
        ((upperBound knots ub : Nat) : Int)) i = knotAt knots (upperBound knots lb - 1 - p + i) :=
    fun i hi => knotAt_knotRange knots _ _ i hi
  have hfront : front (knotRange knots ((upperBound knots lb - 1 - p : Nat) : Int)
      ((upperBound knots ub : Nat) : Int)) = lb := by
    rw [front_eq_knotAt, hat 0 (by omega)]
    exact hl2 _ (by omega) (by omega)
  have hback : back (knotRange knots ((upperBound knots lb - 1 - p : Nat) : Int)
      ((upperBound knots ub : Nat) : Int)) = ub := by
    rw [back_eq_knotAt, hlen, hat _ (by omega)]
    exact hu2 _ (by omega) (by omega)
  refine ⟨by omega, hreg.sorted.sublist (knotRange_sublist _ _ _), ?_, ?_, ?_⟩
  · intro i hi
    rw [hfront, hat i (by omega)]
    exact hl2 _ (by omega) (by omega)
  · intro i hi1 hi2
    rw [hlen] at hi1 hi2
    rw [hback, hat i hi2]
    exact hu2 _ (by omega) (by omega)
  · intro t
    exact le_trans ((knotRange_sublist _ _ _).count_le t) (hreg.mult t)

/-- Claim C13 fails as stated: at the regular knot vector `{0,0,0,0,1,2,3,3,3,3}`
of degree 3 the call `reduceSupport(1, 2, A)` returns `true` and stores the knot
vector `{0,0,0,1,2,3,3,3,3}`, which is not regular: its first knot occurs three
times. -/
theorem reduceSupport_irregular_counterexample :
    cubicBasis.isKnotVectorRegular cubicBasis.knots = true
      ∧ front cubicBasis.knots ≤ 1 ∧ (1 : ℚ) ≤ 2 ∧ 2 ≤ back cubicBasis.knots
      ∧ ∃ A b', cubicBasis.reduceSupport 1 2 (SparseMatrix.identity 0) = Except.ok (true, A, b')
        ∧ b'.knots = [0, 0, 0, 1, 2, 3, 3, 3, 3]
        ∧ b'.isKnotVectorRegular b'.knots = false :=
  ⟨by decide, by decide, by decide, by decide, _, _, rfl, rfl, by decide⟩

/-- Claim C13, amended: on a regular knot vector of degree `p`, for bounds
`lb < ub` that are both knots of multiplicity `p + 1`, `reduceSupport` returns
`true` and the stored knot vector, which runs from the first copy of `lb` to
the last copy of `ub`, is again regular. -/
theorem reduceSupport_keeps_regular (b : BSplineBasis1D)
    (hreg : b.isKnotVectorRegular b.knots = true) (lb ub : ℚ) (A0 : SparseMatrix)
    (hlb : b.knotMultiplicity lb = b.degree + 1) (hub : b.knotMultiplicity ub = b.degree + 1)
    (hlt : lb < ub) :
    ∃ A b', b.reduceSupport lb ub A0 = Except.ok (true, A, b')
      ∧ b'.isKnotVectorRegular b'.knots = true
      ∧ front b'.knots = lb ∧ back b'.knots = ub := by
  have hr := regular_of_isKnotVectorRegular b b.knots hreg
  have hlb' : b.knots.count lb = b.degree + 1 := hlb
  have hub' : b.knots.count ub = b.degree + 1 := hub
  have hml : lb ∈ b.knots := List.count_pos_iff.1 (by omega)
  have hmu : ub ∈ b.knots := List.count_pos_iff.1 (by omega)
  have h1 := front_le_of_mem b.knots hr.sorted lb hml
  have h2 := le_back_of_mem b.knots hr.sorted lb hml
  have h3 := front_le_of_mem b.knots hr.sorted ub hmu
  have h4 := le_back_of_mem b.knots hr.sorted ub hmu
  obtain ⟨il, iend, hres, hil, _, hiend, _⟩ := reduceSupport_regular b hr lb ub A0 h1 h2 h3 h4
  obtain ⟨hl1, hl2⟩ := run_before_upperBound b.knots hr.sorted lb
  rw [hlb'] at hl1 hl2
  have hat : knotAt b.knots (upperBound b.knots lb - 1 - b.degree) = lb :=
    hl2 _ (by omega) (by omega)
  rw [hat] at hil
  obtain ⟨_, hregR⟩ := knotRange_regular b.degree b.knots hr lb ub hlb' hub' hlt
  rw [← hil hlb', ← hiend hub'] at hregR
  refine ⟨_, _, hres, isKnotVectorRegular_of_regular b _ hregR, ?_, ?_⟩
  · show front (knotRange b.knots il iend) = lb
    rw [hil hlb', hiend hub', front_eq_knotAt, knotAt_knotRange _ _ _ 0 (by
      have := (knotRange_regular b.degree b.knots hr lb ub hlb' hub' hlt).1
      omega)]
    exact hat
  · show back (knotRange b.knots il iend) = ub
    obtain ⟨hu1, hu2⟩ := run_before_upperBound b.knots hr.sorted ub
    rw [hub'] at hu1 hu2
    have hsep := (knotRange_regular b.degree b.knots hr lb ub hlb' hub' hlt).1
    rw [hil hlb', hiend hub', back_eq_knotAt,
      length_knotRange _ _ _ (upperBound_le_length b.knots ub),
      knotAt_knotRange _ _ _ _ (by omega)]
    exact hu2 _ (by omega) (by omega)

/-- Claim C13, amended, at the knot vector `{0,0,1,1,2,2}` of degree 1 and the
bounds `lb = 0`, `ub = 1`. -/
theorem reduceSupport_keeps_regular_witness :
    doubleKnotBasis.isKnotVectorRegular doubleKnotBasis.knots = true
      ∧ doubleKnotBasis.knotMultiplicity 0 = doubleKnotBasis.degree + 1
      ∧ doubleKnotBasis.knotMultiplicity 1 = doubleKnotBasis.degree + 1
      ∧ ∃ A b', doubleKnotBasis.reduceSupport 0 1 (SparseMatrix.identity 0)
          = Except.ok (true, A, b')
        ∧ b'.isKnotVectorRegular b'.knots = true
        ∧ front b'.knots = 0 ∧ back b'.knots = 1 :=
  ⟨by decide, by decide, by decide,
    reduceSupport_keeps_regular doubleKnotBasis (by decide) 0 1 (SparseMatrix.identity 0)
      (by decide) (by decide) (by decide)⟩

/-- Claim C14 fails as stated: at the regular knot vector `{0,0,0,0,1,2,3,3,3,3}`
of degree 3 with `lb = knots.front()` and `ub = knots.back()` the candidate has
as many basis functions as the current knot vector, and `reduceSupport`
returns `true` and replaces the `0 × 0` matrix `A` by a matrix with 6 rows. -/
theorem reduceSupport_declines_counterexample :
    cubicBasis.isKnotVectorRegular cubicBasis.knots = true
      ∧ ∃ A b', cubicBasis.reduceSupport (front cubicBasis.knots) (back cubicBasis.knots)
          (SparseMatrix.identity 0) = Except.ok (true, A, b')
        ∧ b'.getNumBasisFunctions = cubicBasis.getNumBasisFunctions
        ∧ (SparseMatrix.identity 0).rows = 0 ∧ A.rows = 6 :=
  ⟨by decide, _, _, rfl, rfl, rfl, rfl⟩

/-- Claim C14, amended: on a regular knot vector with `n` basis functions and
bounds `lb ≤ ub` inside the support, `reduceSupport` never declines: it returns
`true`, and the new knot vector has no more basis functions than the old one.
With `lb = knots.front()` and `ub = knots.back()` the knot vector is left as it
was and `A` is set to the `n × n` identity. -/
theorem reduceSupport_never_declines (b : BSplineBasis1D)
    (hreg : b.isKnotVectorRegular b.knots = true) (lb ub : ℚ) (A0 : SparseMatrix)
    (h1 : front b.knots ≤ lb) (h2 : lb ≤ ub) (h3 : ub ≤ back b.knots) :
    ∃ A b', b.reduceSupport lb ub A0 = Except.ok (true, A, b')
      ∧ b'.getNumBasisFunctions ≤ b.getNumBasisFunctions
      ∧ (lb = front b.knots → ub = back b.knots →
          b'.knots = b.knots ∧ A.rows = b.getNumBasisFunctions
            ∧ A.cols = b.getNumBasisFunctions
            ∧ ∀ i j, A.coeff i j = (SparseMatrix.identity b.getNumBasisFunctions).coeff i j) := by
  have hr := regular_of_isKnotVectorRegular b b.knots hreg
  have hlen := hr.len
  obtain ⟨il, iend, hres, hil, _, hiend, _⟩ :=
    reduceSupport_regular b hr lb ub A0 h1 (le_trans h2 h3) (le_trans h1 h2) h3
  refine ⟨_, _, hres, ?_, ?_⟩
  · show (knotRange b.knots il iend).length - (b.degree + 1) ≤ b.knots.length - (b.degree + 1)
    have := length_knotRange_le b.knots il iend
    omega
  · intro hlb hub
    have hUf : upperBound b.knots lb = b.degree + 1 := by
      have ha := hr.succ_le_upperBound lb h1
      have hb := upperBound_le_of_lt_knotAt b.knots lb (b.degree + 1)
        (by rw [hlb]; exact hr.front_lt_succ)
      omega
    have h0 : upperBound b.knots lb - 1 - b.degree = 0 := by omega
    have hil0 : il = 0 := by
      rw [hil (by rw [h0, ← front_eq_knotAt]; exact hr.count_front), h0]
    have hie : iend = b.knots.length := by
      rw [hiend (by rw [hub]; exact hr.count_back), hub, upperBound_back b.knots hr.sorted]
    have hk : knotRange b.knots (il : Int) (iend : Int) = b.knots := by
      rw [hil0, hie]
      unfold knotRange
      simp
    refine ⟨hk, ?_, ?_, ?_⟩
    · show ((b.knots.length : Int) - ((b.degree : Int) + 1)).toNat
        = b.knots.length - (b.degree + 1)
      omega
    · show (((knotRange b.knots il iend).length : Int) - ((b.degree : Int) + 1)).toNat
        = b.knots.length - (b.degree + 1)
      rw [hk]
      omega
    · intro i j
      show (if (il : Int) ≤ (i : Int)
            ∧ (i : Int) < (il : Int) + (((knotRange b.knots il iend).length : Int)
                - ((b.degree : Int) + 1))
            ∧ (j : Int) < ((knotRange b.knots il iend).length : Int) - ((b.degree : Int) + 1)
            ∧ (i : Int) - (il : Int) = (j : Int) then (1 : ℚ) else 0)
        = if i = j ∧ i < b.knots.length - (b.degree + 1) then 1 else 0
      rw [hk, hil0]
      by_cases hc : i = j ∧ i < b.knots.length - (b.degree + 1)
      · rw [if_pos hc, if_pos (by omega)]
      · rw [if_neg hc, if_neg (by omega)]

/-- Claim C14, amended, at the knot vector `{0,0,0,0,1,2,3,3,3,3}` of degree 3 and
the bounds `lb = 0`, `ub = 3`. -/
theorem reduceSupport_never_declines_witness :
    cubicBasis.isKnotVectorRegular cubicBasis.knots = true
      ∧ ∃ A b', cubicBasis.reduceSupport 0 3 (SparseMatrix.identity 0) = Except.ok (true, A, b')
        ∧ b'.getNumBasisFunctions ≤ cubicBasis.getNumBasisFunctions
        ∧ ((0 : ℚ) = front cubicBasis.knots → (3 : ℚ) = back cubicBasis.knots →
            b'.knots = cubicBasis.knots ∧ A.rows = cubicBasis.getNumBasisFunctions
              ∧ A.cols = cubicBasis.getNumBasisFunctions
              ∧ ∀ i j, A.coeff i j
                  = (SparseMatrix.identity cubicBasis.getNumBasisFunctions).coeff i j) :=
  ⟨by decide,
    reduceSupport_never_declines cubicBasis (by decide) 0 3 (SparseMatrix.identity 0)
      (by decide) (by decide) (by decide)⟩

/-- Claim C15 fails as stated: at the regular knot vector `{0,0,1,1,2,2}` of degree
1 with 4 basis functions, `reduceSupport(0, 1, A)` returns `true`, leaves the
regular knot vector `{0,0,1,1}` with 2 basis functions, and sets `A` to a
matrix with 4 rows and 2 columns. -/
theorem reduceSupport_shape_counterexample :
    doubleKnotBasis.isKnotVectorRegular doubleKnotBasis.knots = true
      ∧ ∃ A b', doubleKnotBasis.reduceSupport 0 1 (SparseMatrix.identity 0)
          = Except.ok (true, A, b')
        ∧ doubleKnotBasis.getNumBasisFunctions = 4 ∧ b'.getNumBasisFunctions = 2
        ∧ A.rows = 4 ∧ A.cols = 2 :=
  ⟨by decide, _, _, rfl, rfl, rfl, rfl, rfl⟩

/-- Claim C15, amended: whenever `reduceSupport` returns `true` on a regular knot
vector, `A` has one row for each old basis function and one column for each
new basis function: the transpose of the shape of the other transformation
matrices. -/
theorem reduceSupport_matrix_shape (b : BSplineBasis1D)
    (_hreg : b.isKnotVectorRegular b.knots = true) (lb ub : ℚ) (A0 A : SparseMatrix)
    (b' : BSplineBasis1D) (h : b.reduceSupport lb ub A0 = Except.ok (true, A, b')) :
    A.rows = b.getNumBasisFunctions ∧ A.cols = b'.getNumBasisFunctions :=
  ⟨(reduceSupport_true_shape b lb ub A0 A b' h).1, (reduceSupport_true_shape b lb ub A0 A b' h).2.1⟩

/-- Claim C15, amended, at the knot vector `{0,0,1,1,2,2}` of degree 1 and the call
`reduceSupport(1, 2, A)`, which leaves the knot vector `{1,1,2,2}`. -/
theorem reduceSupport_matrix_shape_witness :
    doubleKnotBasis.isKnotVectorRegular doubleKnotBasis.knots = true
      ∧ ∃ A b', doubleKnotBasis.reduceSupport 1 2 (SparseMatrix.identity 0)
          = Except.ok (true, A, b')
        ∧ b'.knots = [1, 1, 2, 2]
        ∧ A.rows = doubleKnotBasis.getNumBasisFunctions ∧ A.cols = b'.getNumBasisFunctions :=
  ⟨by decide, _, _, rfl, rfl,
    reduceSupport_matrix_shape doubleKnotBasis (by decide) 1 2 (SparseMatrix.identity 0) _ _ rfl⟩

theorem basisRowT_diff_eq (t : Nat → ℚ) (y : ℚ) (u k l : Nat) :
    basisRowT t y u k true l
      = (-1 / (t (u + 1 + l) - t (u + 1 + l - k)), 1 / (t (u + 1 + l) - t (u + 1 + l - k))) := by
  unfold basisRowT
  by_cases h : t (u + 1 + l) - t (u + 1 + l - k) = 0
  · rw [if_pos h, h, div_zero, div_zero]
  · rw [if_neg h]
    rfl

/-- The row of `p` values of degree `p - 1` that the first loop of
`evaluateDerivative(x, 1)` computes. -/
theorem foldl_basis_coeff (t : Nat → ℚ) (N u : Nat) (ha : Anchor t N u) (x : ℚ)
    (hx : t u ≤ x ∧ x < t (u + 1)) (n : Nat) (hn : n ≤ u) (hN : u + n + 1 < N) (c : Nat)
    (hc : c ≤ n) :
    (((List.range n).map (fun i => i + 1)).foldl
        (fun B k => B.mul (basisMatrixT t x u k false)) SparseMatrix.one11).coeff 0 c
      = bspl t x (u - n + c) n := by
  have e : (fun i : Nat => i + 1) = fun i => 0 + 1 + i := by
    funext i; omega
  rw [e]
  have h := foldl_mul_coeff t (fun _ => x) u 0 SparseMatrix.one11 (unitAt u) rfl
    (suppWindow_unitAt u) (by
      intro c' hc'
      have : c' = 0 := by omega
      subst this
      simp [SparseMatrix.one11, unitAt]) n (by omega) c (by omega)
  simp only [Nat.zero_add] at h ⊢
  rw [h, bspl_eq_blossom t N u ha x hx n (u - n + c) (by omega) (by omega)]
  unfold blossom
  have hl : (List.range n).map (fun _ => x) = List.replicate n x := by
    rw [List.eq_replicate_iff]
    refine ⟨by simp, ?_⟩
    intro y hy
    rw [List.mem_map] at hy
    obtain ⟨_, _, rfl⟩ := hy
    rfl
  rw [hl]

theorem factorial_quotient (p : Nat) (hp : 1 ≤ p) :
    (p.factorial : ℚ) / ((p - 1).factorial : ℚ) = (p : ℚ) := by
  obtain ⟨q, rfl⟩ : ∃ q, p = q + 1 := ⟨p - 1, by omega⟩
  rw [Nat.add_sub_cancel, Nat.factorial_succ, Nat.cast_mul]
  have : ((q.factorial : Nat) : ℚ) ≠ 0 := by
    exact_mod_cast Nat.factorial_ne_zero q
  field_simp

/-- The row that `evaluateDerivative(x, 1)` scatters holds the difference
quotients of the values of degree `p - 1`. -/
theorem derivativeRowT_one_coeff (t : Nat → ℚ) (N u : Nat) (ha : Anchor t N u) (x : ℚ)
    (hx : t u ≤ x ∧ x < t (u + 1)) (p : Nat) (hp : 1 ≤ p) (hu : p ≤ u) (hN : u + p + 1 < N)
    (c : Nat) (hc : c ≤ p) :
    (derivativeRowT t x u p 1).coeff 0 c
      = (p : ℚ) * (bspl t x (u - p + c) (p - 1) / (t (u - p + c + p) - t (u - p + c))
          - bspl t x (u - p + c + 1) (p - 1)
            / (t (u - p + c + p + 1) - t (u - p + c + 1))) := by
  have hV : ∀ l, l < p →
      (((List.range (p - 1)).map (fun i => i + 1)).foldl
        (fun B k => B.mul (basisMatrixT t x u k false)) SparseMatrix.one11).coeff 0 l
        = bspl t x (u - (p - 1) + l) (p - 1) :=
    fun l hl => foldl_basis_coeff t N u ha x hx (p - 1) (by omega) (by omega) l (by omega)
  have hcols : (((List.range (p - 1)).map (fun i => i + 1)).foldl
        (fun B k => B.mul (basisMatrixT t x u k false)) SparseMatrix.one11).cols = p := by
    have e : (fun i : Nat => i + 1) = fun i => 0 + 1 + i := by
      funext i; omega
    rw [e, foldl_mul_cols t (fun _ => x) u false 0 (p - 1) _ rfl]
    omega
  have hlevel : p - 1 + 1 = p := by omega
  unfold derivativeRowT SparseMatrix.scale
  rw [show List.range 1 = [0] from rfl]
  simp only [List.map_cons, List.map_nil, List.foldl_cons, List.foldl_nil, Nat.add_zero]
  rw [hlevel, factorial_quotient p hp]
  generalize hVdef : ((List.range (p - 1)).map (fun i => i + 1)).foldl
        (fun B k => B.mul (basisMatrixT t x u k false)) SparseMatrix.one11 = V at hV hcols
  have hdef : (V.mul (basisMatrixT t x u p true)).coeff 0 c
      = ∑ l in Finset.range p, V.coeff 0 l * (basisMatrixT t x u p true).coeff l c := by
    unfold SparseMatrix.mul
    rw [hcols]
  rw [hdef]
  have hterm : ∀ l ∈ Finset.range p,
      V.coeff 0 l * (basisMatrixT t x u p true).coeff l c
        = if c = l then
            bspl t x (u - (p - 1) + l) (p - 1) * (-1 / (t (u + 1 + l) - t (u + 1 + l - p)))
          else if c = l + 1 then
            bspl t x (u - (p - 1) + l) (p - 1) * (1 / (t (u + 1 + l) - t (u + 1 + l - p)))
          else 0 := by
    intro l hl
    rw [Finset.mem_range] at hl
    rw [basisMatrixT_coeff, if_pos hl, basisRowT_diff_eq, hV l hl]
    split_ifs <;> simp
  rw [Finset.sum_congr rfl hterm, sum_bidiagonal]
  have hmono := ha.mono
  by_cases h1 : c < p
  · rw [if_pos h1]
    have e3 : u - (p - 1) + c = u - p + c + 1 := by omega
    have e4 : u + 1 + c - p = u - p + c + 1 := by omega
    have e1 : u - p + c + p + 1 = u + 1 + c := by omega
    rw [e3, e4, e1]
    by_cases h0 : 1 ≤ c
    · rw [if_pos ⟨h0, hc⟩]
      have e5 : u - (p - 1) + (c - 1) = u - p + c := by omega
      have e6 : u + 1 + (c - 1) = u + c := by omega
      have e7 : u + c - p = u - p + c := by omega
      have e2 : u - p + c + p = u + c := by omega
      rw [e5, e6, e7, e2]
      ring
    · rw [if_neg (by omega)]
      have hc0 : c = 0 := by omega
      have hz : bspl t x (u - p + c) (p - 1) = 0 :=
        bspl_support t N hmono x (p - 1) (u - p + c) (by omega) (Or.inr (by
          have e : u - p + c + (p - 1) + 1 = u := by omega
          rw [e]
          exact hx.1))
      rw [hz]
      ring
  · have hcp : c = p := by omega
    rw [if_neg h1, if_pos ⟨by omega, hc⟩]
    have hz : bspl t x (u - p + c + 1) (p - 1) = 0 :=
      bspl_support t N hmono x (p - 1) (u - p + c + 1) (by omega) (Or.inl (by
        have e : u - p + c + 1 = u + 1 := by omega
        rw [e]
        exact hx.2))
    have e5 : u - (p - 1) + (c - 1) = u - p + c := by omega
    have e6 : u + 1 + (c - 1) = u + c := by omega
    have e7 : u + c - p = u - p + c := by omega
    have e2 : u - p + c + p = u + c := by omega
    rw [hz, e5, e6, e7, e2]
    ring

/-- The loop of `evaluateFirstDerivative` over indices whose knots are inside
the knot vector: no access throws, and each value is the difference quotient
of the two values of degree `p - 1`. -/
theorem firstDerivativeLoop_ok (b : BSplineBasis1D) (hp : 1 ≤ b.degree) (x : ℚ) (l : List Nat)
    (h : ∀ i ∈ l, i + b.degree + 1 < b.knots.length) :
    b.firstDerivativeLoop x (l.map (fun (i : Nat) => (i : Int)))
      = Except.ok (l.map (fun (i : Nat) => ((i : Int), (b.degree : ℚ)
          * (bspl (knotAt b.knots) x i (b.degree - 1)
              / (knotAt b.knots (i + b.degree) - knotAt b.knots i)
            - bspl (knotAt b.knots) x (i + 1) (b.degree - 1)
              / (knotAt b.knots (i + b.degree + 1) - knotAt b.knots (i + 1)))))) := by
  induction l with
  | nil => rfl
  | cons i l ih =>
    have hi := h i (List.mem_cons_self _ _)
    have e1 : ((i : Int) + 1) = ((i + 1 : Nat) : Int) := by omega
    have e2 : ((i : Int) + (b.degree : Int)) = ((i + b.degree : Nat) : Int) := by omega
    have e3 : ((i : Int) + (b.degree : Int) + 1) = ((i + b.degree + 1 : Nat) : Int) := by omega
    rw [List.map_cons, BSplineBasis1D.firstDerivativeLoop, e3, e2, e1, Int.toNat_ofNat,
      Int.toNat_ofNat, deBoorCox_eq_bspl b x (b.degree - 1) i (by omega),
      deBoorCox_eq_bspl b x (b.degree - 1) (i + 1) (by omega),
      atIdxInt_ok _ _ (by omega), atIdxInt_ok _ _ (by omega), atIdxInt_ok _ _ (by omega),
      atIdxInt_ok _ _ (by omega), ih (fun j hj => h j (List.mem_cons_of_mem _ hj))]
    simp only [bind, Except.bind, pure, Except.pure, List.map_cons]
    congr 3
    have q1 : (if knotAt b.knots (i + b.degree) = knotAt b.knots i then (0 : ℚ)
        else bspl (knotAt b.knots) x i (b.degree - 1)
          / (knotAt b.knots (i + b.degree) - knotAt b.knots i))
        = bspl (knotAt b.knots) x i (b.degree - 1)
          / (knotAt b.knots (i + b.degree) - knotAt b.knots i) := by
      split
      · rename_i he
        rw [he, sub_self, div_zero]
      · rfl
    have q2 : (if knotAt b.knots (i + b.degree + 1) = knotAt b.knots (i + 1) then (0 : ℚ)
        else bspl (knotAt b.knots) x (i + 1) (b.degree - 1)
          / (knotAt b.knots (i + b.degree + 1) - knotAt b.knots (i + 1)))
        = bspl (knotAt b.knots) x (i + 1) (b.degree - 1)
          / (knotAt b.knots (i + b.degree + 1) - knotAt b.knots (i + 1)) := by
      split
      · rename_i he
        rw [he, sub_self, div_zero]
      · rfl
    rw [q1, q2]

/-- The result of `evaluateFirstDerivative` at a point of the half-open domain
of a regular knot vector of degree one or more. -/
theorem evaluateFirstDerivative_regular (b : BSplineBasis1D) (nextafter : ℚ → ℚ)
    (hp : 1 ≤ b.degree) (hreg : Regular b.degree b.knots) (x : ℚ) (h1 : front b.knots ≤ x)
    (h2 : x < back b.knots) :
    b.evaluateFirstDerivative nextafter x = Except.ok ⟨b.getNumBasisFunctions,
      (List.range (b.degree + 1)).map (fun j =>
        (((upperBound b.knots x - 1 - b.degree + j : Nat) : Int), (b.degree : ℚ)
          * (bspl (knotAt b.knots) x (upperBound b.knots x - 1 - b.degree + j) (b.degree - 1)
              / (knotAt b.knots (upperBound b.knots x - 1 - b.degree + j + b.degree)
                - knotAt b.knots (upperBound b.knots x - 1 - b.degree + j))
            - bspl (knotAt b.knots) x (upperBound b.knots x - 1 - b.degree + j + 1) (b.degree - 1)
              / (knotAt b.knots (upperBound b.knots x - 1 - b.degree + j + b.degree + 1)
                - knotAt b.knots (upperBound b.knots x - 1 - b.degree + j + 1)))))⟩ := by
  obtain ⟨hb1, hb2⟩ := hreg.upperBound_bounds x h1 h2
  unfold BSplineBasis1D.evaluateFirstDerivative
  rw [supportHack_of_ne b nextafter x (ne_of_lt h2)]
  dsimp only
  rw [indexSupportedBasisfunctions_regular b hreg x h1 h2]
  simp only [bind, Except.bind]
  have hl : (List.range (b.degree + 1)).map
      (fun j => ((upperBound b.knots x - 1 - b.degree + j : Nat) : Int))
      = ((List.range (b.degree + 1)).map (fun j => upperBound b.knots x - 1 - b.degree + j)).map
          (fun (i : Nat) => (i : Int)) := by
    rw [List.map_map]
    rfl
  rw [hl, firstDerivativeLoop_ok b hp x _ (by
    intro i hi
    rw [List.mem_map] at hi
    obtain ⟨j, hj, rfl⟩ := hi
    rw [List.mem_range] at hj
    omega)]
  simp only [pure, Except.pure, List.map_map]
  rfl

/-- Claim C20 fails as stated: at the regular knot vector `{0,0,1,1}` of degree 1
and `x = 0`, `evaluateFirstDerivative` stores the value `-1` at index 0, and
`evaluateDerivative(x, 1)` returns the vector with no entry, because the order
is not below the degree. -/
theorem firstDerivative_degree_one_counterexample :
    1 ≤ linearBasis.degree
      ∧ linearBasis.isKnotVectorRegular linearBasis.knots = true
      ∧ front linearBasis.knots ≤ 0 ∧ (0 : ℚ) < back linearBasis.knots
      ∧ ∃ fd dv, linearBasis.evaluateFirstDerivative id 0 = Except.ok fd
        ∧ linearBasis.evaluateDerivative id 0 1 = Except.ok dv
        ∧ fd.coeffAt 0 = -1 ∧ dv.coeffAt 0 = 0 := by
  have hfd : linearBasis.evaluateFirstDerivative id 0 = Except.ok ⟨2, [(0, -1), (1, 1)]⟩ := by
    have h := evaluateFirstDerivative_regular linearBasis id (by decide)
      (regular_of_isKnotVectorRegular linearBasis _ (by decide)) 0 (by decide) (by decide)
    have hU : upperBound linearBasis.knots 0 = 2 := by decide
    rw [hU] at h
    rw [h]
    norm_num [List.range_succ, bspl, knotAt, linearBasis, BSplineBasis1D.getNumBasisFunctions,
      BSplineBasis1D.deBoorCoxCoeff]
  exact ⟨by decide, by decide, by decide, by decide, _, _, hfd, rfl, by rfl, by rfl⟩

/-- Claim C20, amended: on a regular knot vector of degree `p ≥ 2`, for every `x`
with `knots.front() ≤ x < knots.back()`, `evaluateFirstDerivative(x)` and
`evaluateDerivative(x, 1)` both return without an exception, and the two
vectors have the same length and the same value at every basis index. -/
theorem evaluateFirstDerivative_eq_evaluateDerivative (b : BSplineBasis1D)
    (nextafter : ℚ → ℚ) (hp : 2 ≤ b.degree) (hreg : b.isKnotVectorRegular b.knots = true)
    (x : ℚ) (h1 : front b.knots ≤ x) (h2 : x < back b.knots) :
    ∃ fd dv, b.evaluateFirstDerivative nextafter x = Except.ok fd
      ∧ b.evaluateDerivative nextafter x 1 = Except.ok dv
      ∧ fd.size = dv.size ∧ ∀ i, fd.coeffAt i = dv.coeffAt i := by
  have hr := regular_of_isKnotVectorRegular b b.knots hreg
  obtain ⟨hb1, hb2⟩ := hr.upperBound_bounds x h1 h2
  obtain ⟨hi1, hi2⟩ := hr.interval x h1 h2
  have hfd := evaluateFirstDerivative_regular b nextafter (by omega) hr x h1 h2
  have hx := supportHack_of_ne b nextafter x (ne_of_lt h2)
  have hdv := evaluateDerivative_regular b nextafter hr x (by rw [hx]; exact h1)
    (by rw [hx]; exact h2) 1 (by omega)
  rw [hx] at hdv
  have ha : Anchor (knotAt b.knots) b.knots.length (upperBound b.knots x - 1) :=
    ⟨hr.mono, lt_of_le_of_lt hi1 hi2⟩
  have hent : scatterRow ((upperBound b.knots x : Int) - 1 - (b.degree : Int))
      (derivativeRowT (knotAt b.knots) x (upperBound b.knots x - 1) b.degree 1)
      = (List.range (b.degree + 1)).map (fun j =>
        (((upperBound b.knots x - 1 - b.degree + j : Nat) : Int), (b.degree : ℚ)
          * (bspl (knotAt b.knots) x (upperBound b.knots x - 1 - b.degree + j) (b.degree - 1)
              / (knotAt b.knots (upperBound b.knots x - 1 - b.degree + j + b.degree)
                - knotAt b.knots (upperBound b.knots x - 1 - b.degree + j))
            - bspl (knotAt b.knots) x (upperBound b.knots x - 1 - b.degree + j + 1) (b.degree - 1)
              / (knotAt b.knots (upperBound b.knots x - 1 - b.degree + j + b.degree + 1)
                - knotAt b.knots (upperBound b.knots x - 1 - b.degree + j + 1))))) := by
    unfold scatterRow
    rw [derivativeRowT_cols _ _ _ _ _ (by omega)]
    apply List.map_congr_left
    intro c hc
    rw [List.mem_range] at hc
    rw [derivativeRowT_one_coeff (knotAt b.knots) b.knots.length (upperBound b.knots x - 1) ha x
      ⟨hi1, hi2⟩ b.degree (by omega) (by omega) (by omega) c (by omega)]
    congr 1
    omega
  rw [hent] at hdv
  exact ⟨_, _, hfd, hdv, rfl, fun _ => rfl⟩

/-- Claim C20, amended, at the knot vector `{0,0,0,0,1,2,3,3,3,3}` of degree 3 and
`x = 1`. -/
theorem evaluateFirstDerivative_eq_evaluateDerivative_witness :
    2 ≤ cubicBasis.degree ∧ cubicBasis.isKnotVectorRegular cubicBasis.knots = true
      ∧ front cubicBasis.knots ≤ 1 ∧ (1 : ℚ) < back cubicBasis.knots
      ∧ ∃ fd dv, cubicBasis.evaluateFirstDerivative id 1 = Except.ok fd
        ∧ cubicBasis.evaluateDerivative id 1 1 = Except.ok dv
        ∧ fd.size = dv.size ∧ ∀ i, fd.coeffAt i = dv.coeffAt i :=
  ⟨by decide, by decide, by decide, by decide,
    evaluateFirstDerivative_eq_evaluateDerivative cubicBasis id (by decide) (by decide) 1
      (by decide) (by decide)⟩

/-- The row that `evaluateDerivative(x, 0)` scatters holds the values of degree
`p` at the indices `u-p .. u`. -/
theorem derivativeRowT_zero_coeff (t : Nat → ℚ) (N u : Nat) (ha : Anchor t N u) (x : ℚ)
    (hx : t u ≤ x ∧ x < t (u + 1)) (p : Nat) (hu : p ≤ u) (hN : u + p + 1 < N)
    (c : Nat) (hc : c ≤ p) :
    (derivativeRowT t x u p 0).coeff 0 c = bspl t x (u - p + c) p := by
  have h := foldl_basis_coeff t N u ha x hx p hu hN c hc
  have hf : (p.factorial : ℚ) ≠ 0 := by exact_mod_cast Nat.factorial_ne_zero p
  unfold derivativeRowT SparseMatrix.scale
  simp only [List.range_zero, List.map_nil, List.foldl_nil, Nat.sub_zero]
  rw [h, div_self hf, mul_one]

/-- Claim C22 (matrix form of evaluation = recursive form): on a regular knot
vector of degree `p ≥ 1` (the constructor admits no other degree), for every
`x` with `knots.front() ≤ x < knots.back()`, `evaluateDerivative(x, 0)` and
`evaluate(x)` both return without an exception, and the two vectors have the
same length and the same value at every basis index. -/
theorem evaluateDerivative_zero_eq_evaluate (b : BSplineBasis1D) (nextafter : ℚ → ℚ)
    (hp : 1 ≤ b.degree) (hreg : b.isKnotVectorRegular b.knots = true) (x : ℚ)
    (h1 : front b.knots ≤ x) (h2 : x < back b.knots) :
    ∃ dv ev, b.evaluateDerivative nextafter x 0 = Except.ok dv
      ∧ b.evaluate nextafter x = Except.ok ev
      ∧ dv.size = ev.size ∧ ∀ i, dv.coeffAt i = ev.coeffAt i := by
  have hr := regular_of_isKnotVectorRegular b b.knots hreg
  obtain ⟨hb1, hb2⟩ := hr.upperBound_bounds x h1 h2
  obtain ⟨hi1, hi2⟩ := hr.interval x h1 h2
  have hev := evaluate_regular b nextafter hr x h1 h2
  have hx := supportHack_of_ne b nextafter x (ne_of_lt h2)
  have hdv := evaluateDerivative_regular b nextafter hr x (by rw [hx]; exact h1)
    (by rw [hx]; exact h2) 0 (by omega)
  rw [hx] at hdv
  have ha : Anchor (knotAt b.knots) b.knots.length (upperBound b.knots x - 1) :=
    ⟨hr.mono, lt_of_le_of_lt hi1 hi2⟩
  have hent : scatterRow ((upperBound b.knots x : Int) - 1 - (b.degree : Int))
      (derivativeRowT (knotAt b.knots) x (upperBound b.knots x - 1) b.degree 0)
      = (List.range (b.degree + 1)).map (fun j =>
        (((upperBound b.knots x - 1 - b.degree + j : Nat) : Int),
          bspl (knotAt b.knots) x (upperBound b.knots x - 1 - b.degree + j) b.degree)) := by
    unfold scatterRow
    rw [derivativeRowT_cols _ _ _ _ _ (by omega)]
    apply List.map_congr_left
    intro c hc
    rw [List.mem_range] at hc
    rw [derivativeRowT_zero_coeff (knotAt b.knots) b.knots.length (upperBound b.knots x - 1) ha x
      ⟨hi1, hi2⟩ b.degree (by omega) (by omega) c (by omega)]
    congr 1
    omega
  rw [hent] at hdv
  exact ⟨_, _, hdv, hev, rfl, fun _ => rfl⟩

/-- Claim C22 at the knot vector `{0,0,0,0,1,2,3,3,3,3}` of degree 3 and `x = 1`. -/
theorem evaluateDerivative_zero_eq_evaluate_witness :
    1 ≤ cubicBasis.degree ∧ cubicBasis.isKnotVectorRegular cubicBasis.knots = true
      ∧ front cubicBasis.knots ≤ 1 ∧ (1 : ℚ) < back cubicBasis.knots
      ∧ ∃ dv ev, cubicBasis.evaluateDerivative id 1 0 = Except.ok dv
        ∧ cubicBasis.evaluate id 1 = Except.ok ev
        ∧ dv.size = ev.size ∧ ∀ i, dv.coeffAt i = ev.coeffAt i :=
  ⟨by decide, by decide, by decide, by decide,
    evaluateDerivative_zero_eq_evaluate cubicBasis id (by decide) (by decide) 1
      (by decide) (by decide)⟩

/-- On a regular knot vector `evaluateDerivative` returns, for every order, a
vector whose stored indices are basis indices. -/
theorem evaluateDerivative_indices (b : BSplineBasis1D) (nextafter : ℚ → ℚ)
    (hreg : Regular b.degree b.knots) (x : ℚ) (h1 : front b.knots ≤ x)
    (h2 : x < back b.knots) (r : Nat) :
    ∃ v, b.evaluateDerivative nextafter x (r : Int) = Except.ok v
      ∧ v.size = b.getNumBasisFunctions
      ∧ ∀ e ∈ v.entries, 0 ≤ e.1 ∧ e.1 < (b.getNumBasisFunctions : Int) := by
  obtain ⟨hb1, hb2⟩ := hreg.upperBound_bounds x h1 h2
  by_cases hr : r < b.degree
  · have hx := supportHack_of_ne b nextafter x (ne_of_lt h2)
    have hdv := evaluateDerivative_regular b nextafter hreg x (by rw [hx]; exact h1)
      (by rw [hx]; exact h2) r hr
    rw [hx] at hdv
    refine ⟨_, hdv, rfl, ?_⟩
    intro e he
    have he' : e ∈ scatterRow ((upperBound b.knots x : Int) - 1 - (b.degree : Int))
        (derivativeRowT (knotAt b.knots) x (upperBound b.knots x - 1) b.degree r) := he
    unfold scatterRow at he'
    rw [derivativeRowT_cols _ _ _ _ _ (by omega), List.mem_map] at he'
    obtain ⟨c, hc, rfl⟩ := he'
    rw [List.mem_range] at hc
    unfold BSplineBasis1D.getNumBasisFunctions
    constructor
    · show 0 ≤ (upperBound b.knots x : Int) - 1 - (b.degree : Int) + (c : Int)
      omega
    · show (upperBound b.knots x : Int) - 1 - (b.degree : Int) + (c : Int)
        < ((b.knots.length - (b.degree + 1) : Nat) : Int)
      omega
  · refine ⟨_, evaluateDerivative_saturated b nextafter x (r : Int) (by omega), rfl, ?_⟩
    intro e he
    cases he

/-- On a regular knot vector every row of `buildKnotInsertionMatrix` is built
without an exception and its columns `u-degree .. u` are basis indices. -/
theorem knotInsertionRow_columns (b : BSplineBasis1D) (hreg : Regular b.degree b.knots)
    (ref : List ℚ) (href : b.isRefinement ref = true) (i : Nat)
    (hi : i + b.degree + 1 < ref.length) :
    ∃ first R, b.knotInsertionRow ref i = Except.ok (first, R)
      ∧ R.cols = b.degree + 1
      ∧ 0 ≤ first ∧ first + (R.cols : Int) ≤ (b.getNumBasisFunctions : Int) := by
  obtain ⟨_, h2, _, h4, h5⟩ := (isRefinement_iff b ref).1 href
  have hr := regular_of_isKnotVectorRegular b ref h2
  have hlo : front b.knots ≤ knotAt ref i := by
    rw [h4]; exact hr.front_le i (by omega)
  have hhi : knotAt ref i < back b.knots := by
    rw [h5]
    exact lt_of_le_of_lt (hr.mono i (ref.length - b.degree - 2) (by omega) (by omega))
      hr.pred_lt_back
  obtain ⟨hb1, hb2⟩ := hreg.upperBound_bounds (knotAt ref i) hlo hhi
  refine ⟨_, _, knotInsertionRow_ok b ref hreg hr h4 h5 i hi, insertionRowT_cols _ _ _ _ _, ?_, ?_⟩
  · omega
  · rw [insertionRowT_cols]
    unfold BSplineBasis1D.getNumBasisFunctions
    omega

/-- Claim C23 (index bounds under regularity): on a regular knot vector of
degree `p`, for every `x` with `knots.front() ≤ x < knots.back()`, the index
`u = indexHalfopenInterval(x)` satisfies `p ≤ u ≤ knots.size()-p-2` and
`knots[u] < knots[u+1]`; `indexSupportedBasisfunctions(x)` is the list of the
`p+1` indices `u-p, .., u`, each below `numBasisFunctions`; `evaluateDerivative`
returns for every order a vector whose stored indices are basis indices; and
every row of `buildKnotInsertionMatrix` for a refinement is built with its
columns `u-degree .. u` inside the matrix. -/
theorem index_bounds_regular (b : BSplineBasis1D) (nextafter : ℚ → ℚ)
    (hreg : b.isKnotVectorRegular b.knots = true) (x : ℚ) (h1 : front b.knots ≤ x)
    (h2 : x < back b.knots) :
    ∃ u : Nat, b.indexHalfopenInterval x = Except.ok (u : Int)
      ∧ b.degree ≤ u ∧ u + b.degree + 2 ≤ b.knots.length
      ∧ knotAt b.knots u < knotAt b.knots (u + 1)
      ∧ b.indexSupportedBasisfunctions x
          = Except.ok ((List.range (b.degree + 1)).map
              (fun (j : Nat) => ((u - b.degree + j : Nat) : Int)))
      ∧ (∀ j, j ≤ b.degree → u - b.degree + j < b.getNumBasisFunctions)
      ∧ (∀ r : Nat, ∃ v, b.evaluateDerivative nextafter x (r : Int) = Except.ok v
          ∧ v.size = b.getNumBasisFunctions
          ∧ ∀ e ∈ v.entries, 0 ≤ e.1 ∧ e.1 < (b.getNumBasisFunctions : Int))
      ∧ (∀ ref, b.isRefinement ref = true → ∀ i, i + b.degree + 1 < ref.length →
          ∃ first R, b.knotInsertionRow ref i = Except.ok (first, R)
            ∧ R.cols = b.degree + 1
            ∧ 0 ≤ first ∧ first + (R.cols : Int) ≤ (b.getNumBasisFunctions : Int)) := by
  have hr := regular_of_isKnotVectorRegular b b.knots hreg
  obtain ⟨hb1, hb2⟩ := hr.upperBound_bounds x h1 h2
  obtain ⟨hi1, hi2⟩ := hr.interval x h1 h2
  refine ⟨upperBound b.knots x - 1, ?_, by omega, by omega, lt_of_le_of_lt hi1 hi2,
    indexSupportedBasisfunctions_regular b hr x h1 h2, ?_,
    evaluateDerivative_indices b nextafter hr x h1 h2,
    fun ref href i hi => knotInsertionRow_columns b hr ref href i hi⟩
  · rw [indexHalfopenInterval_ok b x h1 (le_of_lt h2)]
    congr 1
    omega
  · intro j hj
    unfold BSplineBasis1D.getNumBasisFunctions
    omega

/-- Claim C23 at the knot vector `{0,0,0,0,1,2,3,3,3,3}` of degree 3 and `x = 1`:
the interval index is 4. -/
theorem index_bounds_regular_witness :
    cubicBasis.isKnotVectorRegular cubicBasis.knots = true
      ∧ front cubicBasis.knots ≤ 1 ∧ (1 : ℚ) < back cubicBasis.knots
      ∧ cubicBasis.indexHalfopenInterval 1 = Except.ok 4
      ∧ ∃ u : Nat, cubicBasis.indexHalfopenInterval 1 = Except.ok (u : Int)
        ∧ cubicBasis.degree ≤ u ∧ u + cubicBasis.degree + 2 ≤ cubicBasis.knots.length
        ∧ knotAt cubicBasis.knots u < knotAt cubicBasis.knots (u + 1)
        ∧ cubicBasis.indexSupportedBasisfunctions 1
            = Except.ok ((List.range (cubicBasis.degree + 1)).map
                (fun (j : Nat) => ((u - cubicBasis.degree + j : Nat) : Int)))
        ∧ (∀ j, j ≤ cubicBasis.degree → u - cubicBasis.degree + j < cubicBasis.getNumBasisFunctions)
        ∧ (∀ r : Nat, ∃ v, cubicBasis.evaluateDerivative id 1 (r : Int) = Except.ok v
            ∧ v.size = cubicBasis.getNumBasisFunctions
            ∧ ∀ e ∈ v.entries, 0 ≤ e.1 ∧ e.1 < (cubicBasis.getNumBasisFunctions : Int))
        ∧ (∀ ref, cubicBasis.isRefinement ref = true →
            ∀ i, i + cubicBasis.degree + 1 < ref.length →
            ∃ first R, cubicBasis.knotInsertionRow ref i = Except.ok (first, R)
              ∧ R.cols = cubicBasis.degree + 1
              ∧ 0 ≤ first
              ∧ first + (R.cols : Int) ≤ (cubicBasis.getNumBasisFunctions : Int)) :=
  ⟨by decide, by decide, by decide, by rfl,
    index_bounds_regular cubicBasis id (by decide) 1 (by decide) (by decide)⟩

/-! ## Binary64 arithmetic: evaluation of the rounding -/

/-- The unit in the last place of a number in the binade `[2^e, 2^(e+1))`. -/
theorem ulpExponent_of_binade (q : ℚ) (e : Int) (h1 : (2 : ℚ) ^ e ≤ |q|)
    (h2 : |q| < (2 : ℚ) ^ (e + 1)) : ulpExponent q = max (e - 52) (-1074) := by
  have h0 : (0 : ℚ) < |q| := lt_of_lt_of_le (zpow_pos (by norm_num) e) h1
  have hlog : Int.log 2 |q| = e := by
    apply le_antisymm
    · have := (Int.lt_zpow_iff_log_lt (by norm_num : 1 < 2) h0).1 h2
      omega
    · exact (Int.zpow_le_iff_le_log (by norm_num : 1 < 2) h0).1 h1
  unfold ulpExponent
  rw [hlog]

/-- Rounding a number of a known binade whose scaled value rounds to `n`. -/
theorem Double.round_of_binade (q : ℚ) (e n : Int) (hq : q ≠ 0) (h1 : (2 : ℚ) ^ e ≤ |q|)
    (h2 : |q| < (2 : ℚ) ^ (e + 1)) (he : -1022 ≤ e)
    (hn : roundHalfEven (q / 2 ^ (e - 52)) = n) :
    Double.round q =
      if (2 : ℚ) ^ 1024 ≤ |(n : ℚ) * 2 ^ (e - 52)| then Double.infinity (decide (q < 0))
      else Double.finite ((n : ℚ) * 2 ^ (e - 52)) := by
  have hu : ulpExponent q = e - 52 := by
    rw [ulpExponent_of_binade q e h1 h2]
    omega
  unfold Double.round
  rw [if_neg hq, hu, hn]

/-- An integer rounds to itself. -/
theorem roundHalfEven_intCast (n : Int) : roundHalfEven (n : ℚ) = n := by
  simp [roundHalfEven]

/-- Rounding below the midpoint. -/
theorem roundHalfEven_of_lt (s : ℚ) (f : Int) (h1 : (f : ℚ) ≤ s) (h2 : s - f < 1 / 2) :
    roundHalfEven s = f := by
  have hf : ⌊s⌋ = f := by
    rw [Int.floor_eq_iff]
    constructor <;> linarith
  unfold roundHalfEven
  rw [hf, if_pos h2]

/-- Rounding above the midpoint. -/
theorem roundHalfEven_of_gt (s : ℚ) (f : Int) (h1 : 1 / 2 < s - f) (h2 : s < f + 1) :
    roundHalfEven s = f + 1 := by
  have hf : ⌊s⌋ = f := by
    rw [Int.floor_eq_iff]
    constructor <;> linarith
  unfold roundHalfEven
  rw [hf, if_neg (by linarith), if_pos h1]

/-- Rounding at the midpoint above an even integer. -/
theorem roundHalfEven_of_tie_even (s : ℚ) (f : Int) (h : s - f = 1 / 2) (hf2 : f % 2 = 0) :
    roundHalfEven s = f := by
  have hf : ⌊s⌋ = f := by
    rw [Int.floor_eq_iff]
    constructor <;> linarith
  unfold roundHalfEven
  rw [hf, if_neg (by linarith), if_neg (by linarith), if_pos hf2]

/-- Rounding at the midpoint above an odd integer. -/
theorem roundHalfEven_of_tie_odd (s : ℚ) (f : Int) (h : s - f = 1 / 2) (hf2 : f % 2 = 1) :
    roundHalfEven s = f + 1 := by
  have hf : ⌊s⌋ = f := by
    rw [Int.floor_eq_iff]
    constructor <;> linarith
  unfold roundHalfEven
  rw [hf, if_neg (by linarith), if_neg (by linarith), if_neg (by omega)]

/-- The sum of two finite numbers is the rounded exact sum. -/
theorem Double.add_finite (a c : ℚ) :
    Double.add (Double.finite a) (Double.finite c) = Double.round (a + c) := rfl

/-- The quotient of `deBoorCoxCoeff` over an empty knot interval. -/
theorem deBoorCoxCoeffDouble_empty (x t : ℚ) : deBoorCoxCoeffDouble x t t = Double.finite 0 := by
  unfold deBoorCoxCoeffDouble
  rw [if_neg (fun h => lt_irrefl _ h.1)]

/-- Zero is a binary64 number. -/
theorem round_zero : Double.round 0 = Double.finite 0 := by
  unfold Double.round
  rw [if_pos rfl]

/-- Four increasing samples are their own sorted list of distinct values. -/
theorem uniqueCopy_stdSort_four (a c d g : ℚ) (h1 : a < c) (h2 : c < d) (h3 : d < g) :
    uniqueCopy (stdSort [a, c, d, g]) = [a, c, d, g] := by
  have e1 : a ≠ c := ne_of_lt h1
  have e2 : c ≠ d := ne_of_lt h2
  have e3 : d ≠ g := ne_of_lt h3
  simp [stdSort, List.insertionSort, List.orderedInsert, uniqueCopy, uniqueCopyAux,
    le_of_lt h1, le_of_lt h2, le_of_lt h3, e1, e2, e3]

/-- The moving-average knot vector of four increasing samples at degree 1, in
binary64 arithmetic. -/
theorem knotVectorMovingAverageDouble_four (n : Nat) (vec : List ℚ) (a c d g : ℚ)
    (h1 : a < c) (h2 : c < d) (h3 : d < g) :
    (⟨1, n, vec⟩ : BSplineBasis1D).knotVectorMovingAverageDouble [a, c, d, g]
      = Except.ok [Double.finite a, Double.finite a,
          Double.div (Double.add (Double.add (Double.add (Double.finite 0) (Double.finite a))
            (Double.finite c)) (Double.finite d)) (Double.finite 3),
          Double.div (Double.add (Double.add (Double.add (Double.finite 0) (Double.finite c))
            (Double.finite d)) (Double.finite g)) (Double.finite 3),
          Double.finite g, Double.finite g] := by
  unfold knotVectorMovingAverageDouble
  simp only [uniqueCopy_stdSort_four a c d g h1 h2 h3]
  simp [movingAveragesDouble, windowSumDouble, atIdx, bind, Except.bind, pure, Except.pure,
    front, back, List.replicate]

/-- Rounding a positive number of a known binade to a finite value. -/
theorem Double.round_of_pos (q r : ℚ) (e n : Int) (h1 : (2 : ℚ) ^ e ≤ q)
    (h2 : q < (2 : ℚ) ^ (e + 1)) (he : -1022 ≤ e)
    (hn : roundHalfEven (q / 2 ^ (e - 52)) = n) (hr : (n : ℚ) * 2 ^ (e - 52) = r)
    (h0 : 0 ≤ r) (hfin : r < 2 ^ 1024) : Double.round q = Double.finite r := by
  have hq : 0 < q := lt_of_lt_of_le (zpow_pos (by norm_num) e) h1
  rw [Double.round_of_binade q e n (ne_of_gt hq) (by rwa [abs_of_pos hq])
    (by rwa [abs_of_pos hq]) he hn, hr, abs_of_nonneg h0, if_neg (not_le.2 hfin)]

/-- The quotient of two finite numbers, the divisor not zero. -/
theorem Double.div_finite (a c : ℚ) (hc : c ≠ 0) :
    Double.div (Double.finite a) (Double.finite c) = Double.round (a / c) := by
  simp [Double.div, hc]

/-- The first partial sum of the first window: `0 + 1` is exact. -/
theorem add_zero_one : Double.add (Double.finite 0) (Double.finite 1) = Double.finite 1 := by
  rw [Double.add_finite]
  have hn : roundHalfEven ((0 + 1 : ℚ) / 2 ^ ((0 : Int) - 52)) = 2 ^ 52 := by
    have : (0 + 1 : ℚ) / 2 ^ ((0 : Int) - 52) = ((2 ^ 52 : Int) : ℚ) := by norm_num
    rw [this, roundHalfEven_intCast]
  exact Double.round_of_pos _ _ 0 _ (by norm_num) (by norm_num) (by norm_num) hn (by norm_num)
    (by norm_num) (by norm_num)

/-- The second partial sum of the first window: `1 + (1 + e)` lies midway
between `2` and `2 + 2e` and rounds to the even `2`. -/
theorem add_one_second :
    Double.add (Double.finite 1) (Double.finite (1 + 1 / 2 ^ 52)) = Double.finite 2 := by
  rw [Double.add_finite]
  have hn : roundHalfEven ((1 + (1 + 1 / 2 ^ 52) : ℚ) / 2 ^ ((1 : Int) - 52)) = 2 ^ 52 :=
    roundHalfEven_of_tie_even _ _ (by norm_num) (by norm_num)
  exact Double.round_of_pos _ _ 1 _ (by norm_num) (by norm_num) (by norm_num) hn (by norm_num)
    (by norm_num) (by norm_num)

/-- The third partial sum of the first window: `2 + (1 + 2e)` is exact. -/
theorem add_two_third :
    Double.add (Double.finite 2) (Double.finite (1 + 2 / 2 ^ 52))
      = Double.finite (3 + 2 / 2 ^ 52) := by
  rw [Double.add_finite]
  have hn : roundHalfEven ((2 + (1 + 2 / 2 ^ 52) : ℚ) / 2 ^ ((1 : Int) - 52))
      = 3 * 2 ^ 51 + 1 := by
    have : (2 + (1 + 2 / 2 ^ 52) : ℚ) / 2 ^ ((1 : Int) - 52) = ((3 * 2 ^ 51 + 1 : Int) : ℚ) := by
      norm_num
    rw [this, roundHalfEven_intCast]
  exact Double.round_of_pos _ _ 1 _ (by norm_num) (by norm_num) (by norm_num) hn (by norm_num)
    (by norm_num) (by norm_num)

/-- The first moving average: `(3 + 2e) / 3 = 1 + (2/3) e` rounds up to `1 + e`. -/
theorem div_first_window :
    Double.div (Double.finite (3 + 2 / 2 ^ 52)) (Double.finite 3)
      = Double.finite (1 + 1 / 2 ^ 52) := by
  rw [Double.div_finite _ _ (by norm_num)]
  have hn : roundHalfEven (((3 + 2 / 2 ^ 52) / 3 : ℚ) / 2 ^ ((0 : Int) - 52)) = 2 ^ 52 + 1 :=
    roundHalfEven_of_gt _ _ (by norm_num) (by norm_num)
  exact Double.round_of_pos _ _ 0 _ (by norm_num) (by norm_num) (by norm_num) hn (by norm_num)
    (by norm_num) (by norm_num)

/-- The first partial sum of the second window: `0 + (1 + e)` is exact. -/
theorem add_zero_second :
    Double.add (Double.finite 0) (Double.finite (1 + 1 / 2 ^ 52))
      = Double.finite (1 + 1 / 2 ^ 52) := by
  rw [Double.add_finite]
  have hn : roundHalfEven ((0 + (1 + 1 / 2 ^ 52) : ℚ) / 2 ^ ((0 : Int) - 52)) = 2 ^ 52 + 1 := by
    have : (0 + (1 + 1 / 2 ^ 52) : ℚ) / 2 ^ ((0 : Int) - 52) = ((2 ^ 52 + 1 : Int) : ℚ) := by
      norm_num
    rw [this, roundHalfEven_intCast]
  exact Double.round_of_pos _ _ 0 _ (by norm_num) (by norm_num) (by norm_num) hn (by norm_num)
    (by norm_num) (by norm_num)

/-- The second partial sum of the second window: `(1 + e) + (1 + 2e) = 2 + 3e`
lies midway between `2 + 2e` and `2 + 4e` and rounds to the even `2 + 4e`. -/
theorem add_second_third :
    Double.add (Double.finite (1 + 1 / 2 ^ 52)) (Double.finite (1 + 2 / 2 ^ 52))
      = Double.finite (2 + 4 / 2 ^ 52) := by
  rw [Double.add_finite]
  have hn : roundHalfEven ((1 + 1 / 2 ^ 52 + (1 + 2 / 2 ^ 52) : ℚ) / 2 ^ ((1 : Int) - 52))
      = (2 ^ 52 + 1) + 1 :=
    roundHalfEven_of_tie_odd _ _ (by norm_num) (by norm_num)
  exact Double.round_of_pos _ _ 1 _ (by norm_num) (by norm_num) (by norm_num) hn (by norm_num)
    (by norm_num) (by norm_num)

/-- The third partial sum of the second window: `(2 + 4e) + (1 + 3e) = 3 + 7e`
lies midway between `3 + 6e` and `3 + 8e` and rounds to the even `3 + 8e`. -/
theorem add_sum_fourth :
    Double.add (Double.finite (2 + 4 / 2 ^ 52)) (Double.finite (1 + 3 / 2 ^ 52))
      = Double.finite (3 + 8 / 2 ^ 52) := by
  rw [Double.add_finite]
  have hn : roundHalfEven ((2 + 4 / 2 ^ 52 + (1 + 3 / 2 ^ 52) : ℚ) / 2 ^ ((1 : Int) - 52))
      = (3 * 2 ^ 51 + 3) + 1 :=
    roundHalfEven_of_tie_odd _ _ (by norm_num) (by norm_num)
  exact Double.round_of_pos _ _ 1 _ (by norm_num) (by norm_num) (by norm_num) hn (by norm_num)
    (by norm_num) (by norm_num)

/-- The second moving average: `(3 + 8e) / 3 = 1 + (8/3) e` rounds up to
`1 + 3e`, the largest sample. -/
theorem div_second_window :
    Double.div (Double.finite (3 + 8 / 2 ^ 52)) (Double.finite 3)
      = Double.finite (1 + 3 / 2 ^ 52) := by
  rw [Double.div_finite _ _ (by norm_num)]
  have hn : roundHalfEven (((3 + 8 / 2 ^ 52) / 3 : ℚ) / 2 ^ ((0 : Int) - 52))
      = (2 ^ 52 + 2) + 1 :=
    roundHalfEven_of_gt _ _ (by norm_num) (by norm_num)
  exact Double.round_of_pos _ _ 0 _ (by norm_num) (by norm_num) (by norm_num) hn (by norm_num)
    (by norm_num) (by norm_num)

/-- The samples `adjacentSamples` are binary64 numbers. -/
theorem adjacentSamples_representable :
    ∀ t ∈ adjacentSamples, Double.round t = Double.finite t := by
  intro t ht
  simp only [adjacentSamples, List.mem_cons, List.mem_singleton, List.not_mem_nil,
    or_false] at ht
  rcases ht with rfl | rfl | rfl | rfl
  · have hn : roundHalfEven ((1 : ℚ) / 2 ^ ((0 : Int) - 52)) = 2 ^ 52 := by
      have : (1 : ℚ) / 2 ^ ((0 : Int) - 52) = ((2 ^ 52 : Int) : ℚ) := by norm_num
      rw [this, roundHalfEven_intCast]
    exact Double.round_of_pos _ _ 0 _ (by norm_num) (by norm_num) (by norm_num) hn
      (by norm_num) (by norm_num) (by norm_num)
  · have hn : roundHalfEven ((1 + 1 / 2 ^ 52 : ℚ) / 2 ^ ((0 : Int) - 52)) = 2 ^ 52 + 1 := by
      have : (1 + 1 / 2 ^ 52 : ℚ) / 2 ^ ((0 : Int) - 52) = ((2 ^ 52 + 1 : Int) : ℚ) := by
        norm_num
      rw [this, roundHalfEven_intCast]
    exact Double.round_of_pos _ _ 0 _ (by norm_num) (by norm_num) (by norm_num) hn
      (by norm_num) (by norm_num) (by norm_num)
  · have hn : roundHalfEven ((1 + 2 / 2 ^ 52 : ℚ) / 2 ^ ((0 : Int) - 52)) = 2 ^ 52 + 2 := by
      have : (1 + 2 / 2 ^ 52 : ℚ) / 2 ^ ((0 : Int) - 52) = ((2 ^ 52 + 2 : Int) : ℚ) := by
        norm_num
      rw [this, roundHalfEven_intCast]
    exact Double.round_of_pos _ _ 0 _ (by norm_num) (by norm_num) (by norm_num) hn
      (by norm_num) (by norm_num) (by norm_num)
  · have hn : roundHalfEven ((1 + 3 / 2 ^ 52 : ℚ) / 2 ^ ((0 : Int) - 52)) = 2 ^ 52 + 3 := by
      have : (1 + 3 / 2 ^ 52 : ℚ) / 2 ^ ((0 : Int) - 52) = ((2 ^ 52 + 3 : Int) : ℚ) := by
        norm_num
      rw [this, roundHalfEven_intCast]
    exact Double.round_of_pos _ _ 0 _ (by norm_num) (by norm_num) (by norm_num) hn
      (by norm_num) (by norm_num) (by norm_num)

/-- The knot vector `{a, a, c, g, g, g}` with `a < c < g` is not regular at
degree 1: its last knot occurs three times. -/
theorem not_regular_tripled_end (n : Nat) (vec : List ℚ) (a c g : ℚ) (h1 : a < c) (h2 : c < g) :
    (⟨1, n, vec⟩ : BSplineBasis1D).isKnotVectorRegular [a, a, c, g, g, g] = false := by
  have e1 : a ≠ g := ne_of_lt (lt_trans h1 h2)
  have e2 : c ≠ g := ne_of_lt h2
  simp [isKnotVectorRegular, stdCount, List.count_cons, e1, e2]

/-- The knot vector `knotVectorMovingAverage` computes from `adjacentSamples` at
degree 1 in binary64 arithmetic: the second moving average is rounded up to
the largest sample. -/
theorem knotVectorMovingAverageDouble_adjacent (n : Nat) (vec : List ℚ) :
    (⟨1, n, vec⟩ : BSplineBasis1D).knotVectorMovingAverageDouble adjacentSamples
      = Except.ok [Double.finite 1, Double.finite 1, Double.finite (1 + 1 / 2 ^ 52),
          Double.finite (1 + 3 / 2 ^ 52), Double.finite (1 + 3 / 2 ^ 52),
          Double.finite (1 + 3 / 2 ^ 52)] := by
  unfold adjacentSamples
  rw [knotVectorMovingAverageDouble_four n vec _ _ _ _ (by norm_num) (by norm_num) (by norm_num),
    add_zero_one, add_one_second, add_two_third, div_first_window, add_zero_second,
    add_second_third, add_sum_fourth, div_second_window]

/-- Claim C7, counterexample: in binary64 arithmetic the four distinct samples
`{1, 1+e, 1+2e, 1+3e}` with `e = 2^-52` and degree 1 give the knot vector
`{1, 1, 1+e, 1+3e, 1+3e, 1+3e}`, in which the largest sample occurs three times:
the vector is not regular and the constructor throws. -/
theorem constructDouble_counterexample :
    (1 ≤ 1 ∧ 1 + 1 ≤ adjacentSamples.toFinset.card)
      ∧ (∀ t ∈ adjacentSamples, Double.round t = Double.finite t)
      ∧ (⟨1, 5, []⟩ : BSplineBasis1D).knotVectorMovingAverageDouble adjacentSamples
        = Except.ok [Double.finite 1, Double.finite 1, Double.finite (1 + 1 / 2 ^ 52),
            Double.finite (1 + 3 / 2 ^ 52), Double.finite (1 + 3 / 2 ^ 52),
            Double.finite (1 + 3 / 2 ^ 52)]
      ∧ constructDouble adjacentSamples 1 = some (Except.error Error.knotVectorNotRegular) := by
  refine ⟨⟨le_refl _, ?_⟩, adjacentSamples_representable,
    knotVectorMovingAverageDouble_adjacent 5 [], ?_⟩
  · have : adjacentSamples.toFinset.card = 4 := by
      unfold adjacentSamples
      rw [List.toFinset_card_of_nodup]
      · rfl
      · simp only [List.nodup_cons, List.mem_cons, List.mem_singleton, List.not_mem_nil,
          or_false, not_or, List.nodup_nil, and_true, not_false_eq_true]
        norm_num
    omega
  · unfold constructDouble
    simp only [Nat.reduceAdd, Nat.reduceMul]
    rw [knotVectorMovingAverageDouble_adjacent]
    simp only [finiteKnots, Option.map_some']
    rw [if_neg (by decide), not_regular_tripled_end _ _ _ _ _ (by norm_num) (by norm_num)]
    rfl

/-! ## The invalidated read of `decomposeToBezierForm` -/

/-- The loop of `decomposeToBezierForm` in which the invalidated read yields the
old knot value is `decomposeLoop`. -/
theorem decomposeLoopStale_old_value (b : BSplineBasis1D) (fuel knoti : Nat)
    (refinedKnots : List ℚ) :
    b.decomposeLoopStale (fun v _ _ => v) fuel knoti refinedKnots
      = b.decomposeLoop fuel knoti refinedKnots := by
  induction fuel generalizing knoti refinedKnots with
  | zero => rfl
  | succ fuel ih =>
    unfold decomposeLoopStale decomposeLoop
    by_cases hk : knoti = refinedKnots.length
    · rw [if_pos hk, if_pos hk]
    · rw [if_neg hk, if_neg hk]
      dsimp only
      by_cases hm : ((b.degree : Int) + 1) - (b.knotMultiplicity (knotAt refinedKnots knoti) : Int) > 0
      · rw [if_pos hm, if_pos hm, ih]
      · rw [if_neg hm, if_neg hm, ih]

/-- The method `decomposeToBezierForm` in which the invalidated read yields the
old knot value. -/
theorem decomposeToBezierFormStale_old_value (b : BSplineBasis1D) (fuel : Nat) :
    b.decomposeToBezierFormStale (fun v _ _ => v) fuel = b.decomposeToBezierForm fuel := by
  unfold decomposeToBezierFormStale decomposeToBezierForm
  rw [decomposeLoopStale_old_value]

/-- The call `decomposeToBezierForm` at the knot vector `{0,0,0,0,1,2,3,3,3,3}`
of degree 3 when the invalidated read yields 3: the loop ends after the
insertion at knot 1, and knot 2 is left as it was. -/
theorem cubicBasis_decomposeToBezierFormStale :
    cubicBasis.decomposeToBezierFormStale (fun _ _ _ => 3) 10
      = some (Except.ok
          (insertionMatrixT 3 cubicBasis.knots [0, 0, 0, 0, 1, 1, 1, 1, 2, 3, 3, 3, 3],
            { cubicBasis with knots := [0, 0, 0, 0, 1, 1, 1, 1, 2, 3, 3, 3, 3] })) := by
  have h : cubicBasis.decomposeLoopStale (fun _ _ _ => 3) 10 0 cubicBasis.knots
      = some [0, 0, 0, 0, 1, 1, 1, 1, 2, 3, 3, 3, 3] := by decide
  unfold BSplineBasis1D.decomposeToBezierFormStale
  rw [h]
  dsimp only
  rw [if_neg (by decide), buildKnotInsertionMatrix_ok cubicBasis _
    (regular_of_isKnotVectorRegular cubicBasis _ cubicBasis_regular) (by decide)]
  rfl

/-- Claim C16, at the failing input: on the regular knot vector
`{0,0,0,0,1,2,3,3,3,3}` of degree 3 the result of `decomposeToBezierForm` depends
on the value of the read through the invalidated iterator. When the read yields
the old knot value the call leaves every knot four times; when it yields 3 the
call returns without an exception and leaves `{0,0,0,0,1,1,1,1,2,3,3,3,3}`, in
which knot 2 occurs once. -/
theorem decomposeToBezierForm_depends_on_invalidated_read :
    cubicBasis.isKnotVectorRegular cubicBasis.knots = true
      ∧ cubicBasis.decomposeToBezierFormStale (fun v _ _ => v) 10
        = some (Except.ok
          (insertionMatrixT 3 cubicBasis.knots
              [0, 0, 0, 0, 1, 1, 1, 1, 2, 2, 2, 2, 3, 3, 3, 3],
            { cubicBasis with knots := [0, 0, 0, 0, 1, 1, 1, 1, 2, 2, 2, 2, 3, 3, 3, 3] }))
      ∧ cubicBasis.decomposeToBezierFormStale (fun _ _ _ => 3) 10
        = some (Except.ok
          (insertionMatrixT 3 cubicBasis.knots [0, 0, 0, 0, 1, 1, 1, 1, 2, 3, 3, 3, 3],
            { cubicBasis with knots := [0, 0, 0, 0, 1, 1, 1, 1, 2, 3, 3, 3, 3] }))
      ∧ stdCount [0, 0, 0, 0, 1, 1, 1, 1, 2, 3, 3, 3, 3] 2 = 1
      ∧ cubicBasis.degree + 1 = 4 := by
  refine ⟨by decide, ?_, cubicBasis_decomposeToBezierFormStale, by decide, rfl⟩
  rw [decomposeToBezierFormStale_old_value]
  exact cubicBasis_decomposeToBezierForm

/-- Claim C17, at the failing input: on the regular knot vector
`{0,0,0,0,1,2,3,3,3,3}` of degree 3, when the read through the invalidated
iterator yields 3, a first call of `decomposeToBezierForm` returns without an
exception and leaves the 13 knots `{0,0,0,0,1,1,1,1,2,3,3,3,3}`; a second call
then returns without an exception and leaves the 16 knots
`{0,0,0,0,1,1,1,1,2,2,2,2,3,3,3,3}`: the knot vector and the number of basis
functions change. -/
theorem decomposeToBezierForm_second_call_changes_knots :
    cubicBasis.isKnotVectorRegular cubicBasis.knots = true
      ∧ ∃ A1 b1 A2 b2,
        cubicBasis.decomposeToBezierFormStale (fun _ _ _ => 3) 10 = some (Except.ok (A1, b1))
        ∧ b1.decomposeToBezierFormStale (fun _ _ _ => 3) 13 = some (Except.ok (A2, b2))
        ∧ b1.knots = [0, 0, 0, 0, 1, 1, 1, 1, 2, 3, 3, 3, 3]
        ∧ b2.knots = [0, 0, 0, 0, 1, 1, 1, 1, 2, 2, 2, 2, 3, 3, 3, 3]
        ∧ b2.knots ≠ b1.knots
        ∧ b1.getNumBasisFunctions = 9 ∧ b2.getNumBasisFunctions = 12 := by
  have h : BSplineBasis1D.decomposeLoopStale
        { cubicBasis with knots := [0, 0, 0, 0, 1, 1, 1, 1, 2, 3, 3, 3, 3] } (fun _ _ _ => 3) 13 0
        [0, 0, 0, 0, 1, 1, 1, 1, 2, 3, 3, 3, 3]
      = some [0, 0, 0, 0, 1, 1, 1, 1, 2, 2, 2, 2, 3, 3, 3, 3] := by decide
  refine ⟨by decide, _, _, insertionMatrixT 3 [0, 0, 0, 0, 1, 1, 1, 1, 2, 3, 3, 3, 3]
      [0, 0, 0, 0, 1, 1, 1, 1, 2, 2, 2, 2, 3, 3, 3, 3],
    { cubicBasis with knots := [0, 0, 0, 0, 1, 1, 1, 1, 2, 2, 2, 2, 3, 3, 3, 3] },
    cubicBasis_decomposeToBezierFormStale, ?_, rfl, rfl, by decide, rfl, rfl⟩
  unfold BSplineBasis1D.decomposeToBezierFormStale
  dsimp only
  rw [h]
  dsimp only
  rw [if_neg (by decide), buildKnotInsertionMatrix_ok _ _
    (regular_of_isKnotVectorRegular
      { cubicBasis with knots := [0, 0, 0, 0, 1, 1, 1, 1, 2, 3, 3, 3, 3] } _ (by decide))
    (by decide)]
  rfl

end SPLINTER
